import Mathlib

/-!
Verification of the pruning engine of Caffe_APP.

This file gives a shallow embedding of the pruning decision engine found in
`src/caffe/layers/conv_layer.cpp`, `src/caffe/layers/inner_product_layer.cpp`,
`src/caffe/solvers/sgd_solver.cpp` and `src/caffe/adaptive_probabilistic_pruning.cpp`,
and proves properties of the natural-language specification against it.

Modelling conventions:
* `Dtype` (float/double) is modelled by `ℚ` (exact arithmetic).
* The per-layer slices of the `APP` global registry (`APP::masks[L]`,
  `APP::IF_row_pruned[L]`, ...) together with the layer's weight blob
  (`blobs_[0]`, data and diff) and the solver momentum history are collected in
  one record `PruneState`; tensor buffers are total functions `ℕ → ℚ` addressed
  by the row-major flat index `i * num_col + j` used throughout the source.
* Static shape and configuration data (`num_row`, `num_col`, `group`,
  `APP::num_once_prune`, ...) are passed to each operation as parameters,
  exactly as the C++ reads them from blob shapes and `APP` configuration.
* `std::sort` on `vector<pair<Dtype,int>>` uses the lexicographic pair order;
  since the `int` components (unit indices) are pairwise distinct the sorted
  result is unique, so it is modelled by `List.insertionSort` with the
  lexicographic relation `pairLe`.
-/

namespace CaffeAPP

/-- Sentinel `INT_MAX` that the source assigns as score of already-pruned units
to float them to the end of ascending score sorts. -/
def INT_MAX : ℚ := 2147483647

/-- Lexicographic order on `(score, index)` pairs — the order used by
`std::sort` on `std::vector<std::pair<Dtype,int>>` in the source. -/
def pairLe (p q : ℚ × ℕ) : Prop := p.1 < q.1 ∨ (p.1 = q.1 ∧ p.2 ≤ q.2)

instance : DecidableRel pairLe := fun p q =>
  decidable_of_iff (p.1 < q.1 ∨ (p.1 = q.1 ∧ p.2 ≤ q.2)) Iff.rfl

instance : IsTotal (ℚ × ℕ) pairLe := by
  constructor
  intro p q
  rcases lt_trichotomy p.1 q.1 with h | h | h
  · exact Or.inl (Or.inl h)
  · rcases Nat.le_total p.2 q.2 with h2 | h2
    · exact Or.inl (Or.inr ⟨h, h2⟩)
    · exact Or.inr (Or.inr ⟨h.symm, h2⟩)
  · exact Or.inr (Or.inl h)

instance : IsTrans (ℚ × ℕ) pairLe := by
  constructor
  intro p q u hpq hqu
  rcases hpq with h | ⟨he, hn⟩
  · rcases hqu with h' | ⟨he', _⟩
    · exact Or.inl (h.trans h')
    · exact Or.inl (he' ▸ h)
  · rcases hqu with h' | ⟨he', hn'⟩
    · exact Or.inl (he ▸ h')
    · exact Or.inr ⟨he.trans he', hn.trans hn'⟩

/-- Relation fact about pairLe: it implies order of the score components. -/
theorem pairLe_fst {p q : ℚ × ℕ} (h : pairLe p q) : p.1 ≤ q.1 := by
  rcases h with h | ⟨h, _⟩
  · exact le_of_lt h
  · exact le_of_eq h

/-- Row L1 magnitude: `for j < num_col: score += fabs(w[i*num_col+j])`. -/
def rowAbsSum (numCol : ℕ) (w : ℕ → ℚ) (i : ℕ) : ℚ :=
  ((List.range numCol).map fun j => |w (i * numCol + j)|).sum

/-- Column L1 magnitude: `for i < num_row: sum += fabs(w[i*num_col+j])`. -/
def colAbsSum (numRow numCol : ℕ) (w : ℕ → ℚ) (j : ℕ) : ℚ :=
  ((List.range numRow).map fun i => |w (i * numCol + j)|).sum

/-- Per-group column L1 magnitude used by `ComputeBlobMask`:
`for i in [g*num_row_per_g, (g+1)*num_row_per_g): sum += fabs(w[i*num_col+j])`. -/
def groupColAbsSum (numCol numRowPerG : ℕ) (w : ℕ → ℚ) (j g : ℕ) : ℚ :=
  ((List.range numRowPerG).map fun i => |w ((g * numRowPerG + i) * numCol + j)|).sum

/-- The configured pruning unit `APP::prune_unit` (string `"Weight"|"Row"|"Col"`). -/
inductive PruneUnit where
  | Weight
  | Row
  | Col
deriving DecidableEq

/-- State mutated by the pruning engine: the per-layer slice of the `APP`
registry, the layer's weight blob (data and gradient), and the solver momentum
history, plus the global cross-layer queue `APP::pruned_rows`. -/
structure PruneState where
  weight : ℕ → ℚ
  diff : ℕ → ℚ
  history : ℕ → ℚ
  masks : ℕ → Bool
  IF_row_pruned : ℕ → Bool
  IF_col_pruned : ℕ → ℕ → Bool
  IF_weight_pruned : ℕ → Bool
  num_pruned_row : ℕ
  num_pruned_col : ℚ
  num_pruned_weight : ℕ
  prunedRatioQ : ℚ
  prunedRatioRowQ : ℚ
  prunedRatioColQ : ℚ
  history_prob : ℕ → ℚ
  history_reg : ℕ → ℚ
  history_score : ℕ → ℚ
  history_rank : ℕ → ℚ
  hhistory_rank : ℕ → ℚ
  hrank : ℕ → ℚ
  pruned_rows : List ℕ

/-- Freshly initialized layer state, as set up by `PruneSetUp`: all-ones masks,
no pruned flags, zero counters, `history_prob` all ones, other histories zero. -/
def PruneState.base : PruneState where
  weight := fun _ => 0
  diff := fun _ => 0
  history := fun _ => 0
  masks := fun _ => true
  IF_row_pruned := fun _ => false
  IF_col_pruned := fun _ _ => false
  IF_weight_pruned := fun _ => false
  num_pruned_row := 0
  num_pruned_col := 0
  num_pruned_weight := 0
  prunedRatioQ := 0
  prunedRatioRowQ := 0
  prunedRatioColQ := 0
  history_prob := fun _ => 1
  history_reg := fun _ => 0
  history_score := fun _ => 0
  history_rank := fun _ => 0
  hhistory_rank := fun _ => 0
  hrank := fun _ => 0
  pruned_rows := []

/-! ### UpdatePrunedRatio (claim C3)

`ConvolutionLayer::UpdatePrunedRatio` (conv_layer.cpp:210-221) and
`InnerProductLayer::UpdatePrunedRatio` (inner_product_layer.cpp:261-308).
`prunedRatioQ`, `prunedRatioRowQ`, `prunedRatioColQ` model the source fields
`APP::pruned_ratio[L]`, `APP::pruned_ratio_row[L]`, `APP::pruned_ratio_col[L]`. -/

/-- Embedding of `ConvolutionLayer::UpdatePrunedRatio`. -/
def ConvUpdatePrunedRatio (numRow numCol : ℕ) (s : PruneState) : PruneState :=
  let prc : ℚ := s.num_pruned_col / (numCol : ℚ)
  let prr : ℚ := (s.num_pruned_row : ℚ) * 1 / (numRow : ℚ)
  { s with
    prunedRatioColQ := prc
    prunedRatioRowQ := prr
    prunedRatioQ := (prc + prr) - prc * prr }

/-- One iteration of the row scan in the `prune_unit == "Weight"` branch of
`InnerProductLayer::UpdatePrunedRatio`: a not-yet-flagged row all of whose
weights are weight-pruned becomes row-pruned. -/
def ipUPRrowStep (numCol : ℕ) (s : PruneState) (i : ℕ) : PruneState :=
  if s.IF_row_pruned i then s
  else if (List.range numCol).all (fun j => s.IF_weight_pruned (i * numCol + j)) then
    { s with
      IF_row_pruned := fun i2 => if i2 = i then true else s.IF_row_pruned i2
      num_pruned_row := s.num_pruned_row + 1 }
  else s

/-- One iteration of the column scan in the `prune_unit == "Weight"` branch of
`InnerProductLayer::UpdatePrunedRatio`. -/
def ipUPRcolStep (numRow numCol : ℕ) (s : PruneState) (j : ℕ) : PruneState :=
  if s.IF_col_pruned j 0 then s
  else if (List.range numRow).all (fun i => s.IF_weight_pruned (i * numCol + j)) then
    { s with
      IF_col_pruned := fun j2 g => if j2 = j ∧ g = 0 then true else s.IF_col_pruned j2 g
      num_pruned_col := s.num_pruned_col + 1 }
  else s

/-- Embedding of `InnerProductLayer::UpdatePrunedRatio`. -/
def IpUpdatePrunedRatio (numRow numCol : ℕ) (unit : PruneUnit) (s : PruneState) : PruneState :=
  let s1 :=
    if unit = PruneUnit.Weight then
      (List.range numCol).foldl (ipUPRcolStep numRow numCol)
        ((List.range numRow).foldl (ipUPRrowStep numCol) s)
    else s
  let prc : ℚ := s1.num_pruned_col / (numCol : ℚ)
  let prr : ℚ := (s1.num_pruned_row : ℚ) * 1 / (numRow : ℚ)
  { s1 with
    prunedRatioColQ := prc
    prunedRatioRowQ := prr
    prunedRatioQ :=
      if unit = PruneUnit.Weight then
        (s1.num_pruned_weight : ℚ) * 1 / ((numRow * numCol : ℕ) : ℚ)
      else (prc + prr) - prc * prr }

/-- The folds of the Weight branch of `InnerProductLayer::UpdatePrunedRatio`
never touch `num_pruned_weight` (row scan). -/
theorem foldl_ipUPRrowStep_npw (numCol : ℕ) (l : List ℕ) (s : PruneState) :
    (l.foldl (ipUPRrowStep numCol) s).num_pruned_weight = s.num_pruned_weight := by
  induction l generalizing s with
  | nil => rfl
  | cons a t ih =>
    rw [List.foldl_cons, ih]
    unfold ipUPRrowStep
    split
    · rfl
    · split <;> rfl

/-- The folds of the Weight branch of `InnerProductLayer::UpdatePrunedRatio`
never touch `num_pruned_weight` (column scan). -/
theorem foldl_ipUPRcolStep_npw (numRow numCol : ℕ) (l : List ℕ) (s : PruneState) :
    (l.foldl (ipUPRcolStep numRow numCol) s).num_pruned_weight = s.num_pruned_weight := by
  induction l generalizing s with
  | nil => rfl
  | cons a t ih =>
    rw [List.foldl_cons, ih]
    unfold ipUPRcolStep
    split
    · rfl
    · split <;> rfl

/-- C3 (amended). For convolution layers, and for fully-connected layers whose
configured prune unit is not `Weight`, `UpdatePrunedRatio` recomputes
`pruned_ratio[L]` as `row_fraction + col_fraction - row_fraction * col_fraction`
with `row_fraction = num_pruned_row / num_row` and
`col_fraction = num_pruned_col / num_col` (and stores those fractions in
`pruned_ratio_row[L]` / `pruned_ratio_col[L]`); for fully-connected layers with
prune unit `Weight`, it instead sets `pruned_ratio[L] = num_pruned_weight / count`. -/
theorem UpdatePrunedRatio_formula (numRow numCol : ℕ) (unit : PruneUnit) (s : PruneState)
    (hunit : unit ≠ PruneUnit.Weight) :
    (ConvUpdatePrunedRatio numRow numCol s).prunedRatioQ =
      (s.num_pruned_row : ℚ) / (numRow : ℚ) + s.num_pruned_col / (numCol : ℚ)
        - ((s.num_pruned_row : ℚ) / (numRow : ℚ)) * (s.num_pruned_col / (numCol : ℚ)) ∧
    (ConvUpdatePrunedRatio numRow numCol s).prunedRatioRowQ =
      (s.num_pruned_row : ℚ) / (numRow : ℚ) ∧
    (ConvUpdatePrunedRatio numRow numCol s).prunedRatioColQ =
      s.num_pruned_col / (numCol : ℚ) ∧
    (IpUpdatePrunedRatio numRow numCol unit s).prunedRatioQ =
      (s.num_pruned_row : ℚ) / (numRow : ℚ) + s.num_pruned_col / (numCol : ℚ)
        - ((s.num_pruned_row : ℚ) / (numRow : ℚ)) * (s.num_pruned_col / (numCol : ℚ)) ∧
    (IpUpdatePrunedRatio numRow numCol PruneUnit.Weight s).prunedRatioQ =
      (s.num_pruned_weight : ℚ) / (((numRow * numCol : ℕ)) : ℚ) := by
  refine ⟨?_, ?_, ?_, ?_, ?_⟩
  · show (s.num_pruned_col / (numCol : ℚ) + (s.num_pruned_row : ℚ) * 1 / (numRow : ℚ))
        - s.num_pruned_col / (numCol : ℚ) * ((s.num_pruned_row : ℚ) * 1 / (numRow : ℚ)) = _
    ring
  · show (s.num_pruned_row : ℚ) * 1 / (numRow : ℚ) = _
    ring
  · rfl
  · simp only [IpUpdatePrunedRatio, if_neg hunit]
    ring
  · simp only [IpUpdatePrunedRatio, eq_self_iff_true, if_true]
    rw [foldl_ipUPRcolStep_npw, foldl_ipUPRrowStep_npw]
    ring

/-- Example state for the C3 witness: a layer with 1 pruned row and 1.5 pruned
columns (fractional, as left by group-partial column pruning). -/
def stC3w : PruneState :=
  { PruneState.base with num_pruned_row := 1, num_pruned_col := 3/2 }

/-- Witness for C3 at a concrete input: 4 rows, 3 columns, prune unit `Col`. -/
theorem UpdatePrunedRatio_formula_witness :
    PruneUnit.Col ≠ PruneUnit.Weight ∧
    (ConvUpdatePrunedRatio 4 3 stC3w).prunedRatioQ =
      (stC3w.num_pruned_row : ℚ) / (4 : ℚ) + stC3w.num_pruned_col / (3 : ℚ)
        - ((stC3w.num_pruned_row : ℚ) / (4 : ℚ)) * (stC3w.num_pruned_col / (3 : ℚ)) :=
  ⟨by decide, (UpdatePrunedRatio_formula 4 3 PruneUnit.Col stC3w (by decide)).1⟩

/-- State refuting C3 as stated: a 2×2 fully-connected layer under `Weight`
granularity with exactly one weight pruned (no full row or column pruned). -/
def stC3c : PruneState :=
  { PruneState.base with
    num_pruned_weight := 1
    IF_weight_pruned := fun k => k == 0 }

/-- Counterexample to C3 as stated: with prune unit `Weight`,
`InnerProductLayer::UpdatePrunedRatio` sets `pruned_ratio = num_pruned_weight/count`
(here 1/4), which differs from the inclusion-exclusion formula over the row and
column fractions (here 0). -/
theorem ipUpdatePrunedRatio_weight_counterexample :
    (IpUpdatePrunedRatio 2 2 PruneUnit.Weight stC3c).prunedRatioQ ≠
      (IpUpdatePrunedRatio 2 2 PruneUnit.Weight stC3c).prunedRatioRowQ
        + (IpUpdatePrunedRatio 2 2 PruneUnit.Weight stC3c).prunedRatioColQ
        - (IpUpdatePrunedRatio 2 2 PruneUnit.Weight stC3c).prunedRatioRowQ
          * (IpUpdatePrunedRatio 2 2 PruneUnit.Weight stC3c).prunedRatioColQ :=
  of_decide_eq_true (by with_unfolding_all rfl)

/-! ### SGDSolver update pipeline (claims C4 and C9)

`SGDSolver::ApplyUpdate` (sgd_solver.cpp:109-126) runs, for every learnable
parameter, `ClearHistory(param_id); Normalize(param_id); Regularize(param_id);
ComputeUpdateValue(param_id, rate);` and then `net_->Update()`. The per-tensor
buffers live in `PruneState`: `weight` is the parameter data, `diff` its
gradient, `history` the solver's momentum accumulator, `masks` the layer's
pruning mask. -/

/-- Embedding of `SGDSolver::Normalize` (sgd_solver.cpp:129-152, CPU path):
scale the gradient by `1/iter_size` (`caffe_scal`), skipped when
`iter_size == 1`. -/
def Normalize (iterSize : ℕ) (s : PruneState) : PruneState :=
  if iterSize = 1 then s
  else { s with diff := fun k => 1 / (iterSize : ℚ) * s.diff k }

/-- Embedding of the plain `L2` branch of `SGDSolver::Regularize`
(sgd_solver.cpp:204-211): `diff += local_decay * data` (`caffe_axpy`), guarded
by `if (local_decay)`. This is the branch relevant to the per-step operation
order; the pruning-specific regularization branches are modelled separately for
claim C5. -/
def RegularizeL2 (localDecay : ℚ) (s : PruneState) : PruneState :=
  if localDecay = 0 then s
  else { s with diff := fun k => localDecay * s.weight k + s.diff k }

/-- Embedding of `SGDSolver::ComputeUpdateValue` (sgd_solver.cpp:1098-1113, CPU
path): `history = momentum * history + local_rate * diff` (`caffe_cpu_axpby`)
followed by `diff = history` (`caffe_copy`). -/
def ComputeUpdateValue (localRate momentum : ℚ) (s : PruneState) : PruneState :=
  { s with
    history := fun k => localRate * s.diff k + momentum * s.history k
    diff := fun k => localRate * s.diff k + momentum * s.history k }

/-- Embedding of `SGDSolver::ClearHistory(param_id)` (sgd_solver.cpp:1131-1146):
for a parameter of a registered layer that is not a bias, multiply each
momentum-history entry by the 0/1 value of its mask (`caffe_mul` against the
`Dtype` copy of `APP::masks[L]`); otherwise return unchanged. `registered`
models `APP::layer_index.count(layer_name) != 0`, `notBias` models
`history_[param_id]->shape().size() != 1`. -/
def ClearHistory (registered notBias : Bool) (s : PruneState) : PruneState :=
  if registered && notBias then
    { s with history := fun k => (if s.masks k then (1 : ℚ) else 0) * s.history k }
  else s

/-- Per-parameter body of `SGDSolver::ApplyUpdate` (sgd_solver.cpp:118-124), in
the order written in the source: `ClearHistory`, then `Normalize`, then
`Regularize`, then `ComputeUpdateValue`. -/
def ApplyUpdateParam (registered notBias : Bool) (iterSize : ℕ)
    (localDecay localRate momentum : ℚ) (s : PruneState) : PruneState :=
  ComputeUpdateValue localRate momentum
    (RegularizeL2 localDecay (Normalize iterSize (ClearHistory registered notBias s)))

/-- Comparison definition following the words of the specification (spec.md §2:
"Normalize → Regularize (...) → ComputeUpdateValue → ClearHistory"): the same
four per-parameter operations, but with `ClearHistory` last. -/
def SpecOrderUpdateParam (registered notBias : Bool) (iterSize : ℕ)
    (localDecay localRate momentum : ℚ) (s : PruneState) : PruneState :=
  ClearHistory registered notBias
    (ComputeUpdateValue localRate momentum
      (RegularizeL2 localDecay (Normalize iterSize s)))

/-- C4 (amended). At each training step the optimizer applies, for every
learnable tensor, ClearHistory first, then Normalize, then Regularize, then
ComputeUpdateValue, before the network's parameter-update pass applies the final
per-element write. Consequently the momentum blend consumes the mask-cleared
history (`if masks k then history k else 0`), the regularized normalized
gradient enters the velocity, and the parameter data itself is untouched until
the network update. -/
theorem ApplyUpdate_op_order (iterSize : ℕ) (localDecay localRate momentum : ℚ)
    (s : PruneState) (hI : 1 ≤ iterSize) : ∀ k,
    (ApplyUpdateParam true true iterSize localDecay localRate momentum s).history k =
      localRate * (localDecay * s.weight k + 1 / (iterSize : ℚ) * s.diff k)
        + momentum * (if s.masks k then s.history k else 0) ∧
    (ApplyUpdateParam true true iterSize localDecay localRate momentum s).diff k =
      localRate * (localDecay * s.weight k + 1 / (iterSize : ℚ) * s.diff k)
        + momentum * (if s.masks k then s.history k else 0) ∧
    (ApplyUpdateParam true true iterSize localDecay localRate momentum s).weight k =
      s.weight k := by
  intro k
  rcases eq_or_ne iterSize 1 with h1 | h1 <;>
    rcases eq_or_ne localDecay 0 with h2 | h2 <;>
      by_cases hm : s.masks k <;>
        simp [ApplyUpdateParam, ComputeUpdateValue, RegularizeL2, Normalize,
          ClearHistory, h1, h2, hm]

/-- Example state for the C4 witness and counterexample: all-masked-out tensor
with unit history and unit gradient. -/
def stC4 : PruneState :=
  { PruneState.base with
    masks := fun _ => false
    history := fun _ => 1
    diff := fun _ => 1 }

/-- Witness for C4 at a concrete input (iter_size 2, weight decay 1/10,
learning rate 1, momentum 1/2). -/
theorem ApplyUpdate_op_order_witness :
    1 ≤ 2 ∧
    (ApplyUpdateParam true true 2 (1/10) 1 (1/2) stC4).diff 0 =
      1 * (1/10 * stC4.weight 0 + 1 / ((2 : ℕ) : ℚ) * stC4.diff 0)
        + 1/2 * (if stC4.masks 0 then stC4.history 0 else 0) :=
  ⟨by decide, (ApplyUpdate_op_order 2 (1/10) 1 (1/2) stC4 (by decide) 0).2.1⟩

/-- Counterexample to C4 as stated: running the four operations in the order
claimed by the specification (ClearHistory last) produces a different gradient
than the source order (ClearHistory first). With a fully masked tensor, unit
history, unit gradient, momentum 1/2, the source yields `diff 0 = 1` while the
spec order yields `diff 0 = 3/2`. -/
theorem ApplyUpdate_specOrder_counterexample :
    (ApplyUpdateParam true true 1 0 1 (1/2) stC4).diff 0 ≠
      (SpecOrderUpdateParam true true 1 0 1 (1/2) stC4).diff 0 :=
  of_decide_eq_true (by with_unfolding_all rfl)

/-- C9 (confirmed). For every registered non-bias parameter tensor, before the
momentum update of a step consumes the gradient, `ClearHistory` zeroes every
momentum-history entry whose mask is 0 and leaves entries with mask 1 unchanged;
it touches nothing else (mask, gradient and data are unchanged), does nothing at
all for unregistered or bias parameters, and `ApplyUpdate` runs it before
`ComputeUpdateValue` so the momentum blend reads the cleared history. -/
theorem ClearHistory_mask_zeroing (registered notBias : Bool) (s : PruneState) :
    (∀ k, s.masks k = false → (ClearHistory true true s).history k = 0) ∧
    (∀ k, s.masks k = true → (ClearHistory true true s).history k = s.history k) ∧
    (∀ k, (ClearHistory registered notBias s).masks k = s.masks k ∧
      (ClearHistory registered notBias s).diff k = s.diff k ∧
      (ClearHistory registered notBias s).weight k = s.weight k) ∧
    (registered = false ∨ notBias = false → ClearHistory registered notBias s = s) ∧
    (∀ iterSize localDecay localRate momentum,
      ApplyUpdateParam registered notBias iterSize localDecay localRate momentum s =
        ComputeUpdateValue localRate momentum
          (RegularizeL2 localDecay
            (Normalize iterSize (ClearHistory registered notBias s)))) := by
  refine ⟨?_, ?_, ?_, ?_, ?_⟩
  · intro k hk; simp [ClearHistory, hk]
  · intro k hk; simp [ClearHistory, hk]
  · intro k; unfold ClearHistory; split <;> exact ⟨rfl, rfl, rfl⟩
  · rintro (h | h) <;> simp [ClearHistory, h]
  · intro _ _ _ _; rfl

/-- Witness for C9 at a concrete input: in `stC4` every mask entry is 0, and the
cleared history at index 3 is 0. -/
theorem ClearHistory_mask_zeroing_witness :
    stC4.masks 3 = false ∧ (ClearHistory true true stC4).history 3 = 0 :=
  ⟨by decide, (ClearHistory_mask_zeroing true true stC4).1 3 (by decide)⟩

/-! ### ProbPruneCol (claim C7)

Embedding of `ConvolutionLayer::ProbPruneCol(const int& prune_interval)`
(conv_layer.cpp:421-508). The probability-punishment curve `Delta`
(`AA*exp(-alpha*j)` / `-AA*exp(-alpha*(2*N1-j)) + 2*kk*AA`, or the linear
`AA - k_*j` for method `PPc_l`) involves transcendental `log`/`exp` on the
schedule constants, so it is taken as a parameter `deltaPP : ℕ → ℚ` giving the
punishment at each rank; nothing below depends on its values. -/

/-- Score refresh at the top of `ProbPruneCol` (conv_layer.cpp:434-444):
`history_score[L][j] = score_decay * history_score[L][j] + score` for every
column, where `score` is the column's L1 magnitude. -/
def ppScorePass (numRow numCol : ℕ) (scoreDecay : ℚ) (s : PruneState) : PruneState :=
  { s with
    history_score := fun j =>
      if j < numCol then scoreDecay * s.history_score j + colAbsSum numRow numCol s.weight j
      else s.history_score j }

/-- Column scores fed to `std::sort` (conv_layer.cpp:436-444): the updated
`history_score`, with already-pruned columns floated up by `INT_MAX`. -/
def ppColScore (numCol : ℕ) (s : PruneState) : List (ℚ × ℕ) :=
  (List.range numCol).map fun j =>
    (if s.IF_col_pruned j 0 then INT_MAX else s.history_score j, j)

/-- Body of the probability-update loop (conv_layer.cpp:464-491) at rank `j`:
`new_prob = min(max(old_prob - Delta, 0), 1)`; on reaching probability 0 the
column is committed: counter incremented, per-group flags set, weights zeroed. -/
def ppUpdateStep (numRow numCol group : ℕ) (deltaPP : ℕ → ℚ)
    (sorted : List (ℚ × ℕ)) (s : PruneState) (j : ℕ) : PruneState :=
  let c := (sorted.getD j (0, 0)).2
  let newProb := min (max (s.history_prob c - deltaPP j) 0) 1
  let s' := { s with history_prob := fun x => if x = c then newProb else s.history_prob x }
  if newProb = 0 then
    { s' with
      num_pruned_col := s'.num_pruned_col + 1
      IF_col_pruned := fun j2 g => if j2 = c ∧ g < group then true else s'.IF_col_pruned j2 g
      weight := fun e =>
        if (List.range numRow).any (fun i => e == i * numCol + c) then 0 else s'.weight e }
  else s'

/-- The probability-update `for` loop (conv_layer.cpp:464): its bound
`j < num_col - APP::num_pruned_col[L]` is re-evaluated against the counter the
loop itself increments, so it is modelled with explicit fuel (`numCol` suffices:
`j` increases and the bound never exceeds `numCol`). -/
def ppUpdateLoop (numRow numCol group : ℕ) (deltaPP : ℕ → ℚ)
    (sorted : List (ℚ × ℕ)) : ℕ → ℕ → PruneState → PruneState
  | 0, _, s => s
  | fuel + 1, j, s =>
    if (j : ℚ) < (numCol : ℚ) - s.num_pruned_col then
      ppUpdateLoop numRow numCol group deltaPP sorted fuel (j + 1)
        (ppUpdateStep numRow numCol group deltaPP sorted s j)
    else s

/-- Score refresh plus the guarded probability update of
`ProbPruneCol(prune_interval)` (conv_layer.cpp:434-492): the update runs only
when `(step_ - 1) % prune_interval == 0 && inner_iter == 0`. -/
def ppUpdatePhase (numRow numCol group pruneInterval : ℕ) (scoreDecay : ℚ)
    (deltaPP : ℕ → ℚ) (step innerIter : ℤ) (s : PruneState) : PruneState :=
  let s1 := ppScorePass numRow numCol scoreDecay s
  if (step - 1) % (pruneInterval : ℤ) = 0 ∧ innerIter = 0 then
    ppUpdateLoop numRow numCol group deltaPP
      (List.insertionSort pairLe (ppColScore numCol s1)) numCol 0 s1
  else s1

/-- The mask-application pass closing every `ProbPruneCol` call
(conv_layer.cpp:494-507): for each weight element, draw the per-column uniform
sample, set the transient mask to
`(rand < history_prob) && !IF_row_pruned`, and multiply the weight by the mask
(the second `muweight[i] *= masks[i]` loop is idempotent and folded in). -/
def ppNewMask (numRow numCol : ℕ) (rands : ℕ → ℚ) (s : PruneState) (e : ℕ) : Bool :=
  if e < numRow * numCol then
    decide (rands (e % numCol) < s.history_prob (e % numCol)) && !s.IF_row_pruned (e / numCol)
  else s.masks e

/-- Record update performed by the mask-application pass: install the transient
masks and multiply each in-range weight by its mask. -/
def PPMaskPass (numRow numCol : ℕ) (rands : ℕ → ℚ) (s : PruneState) : PruneState :=
  { s with
    masks := ppNewMask numRow numCol rands s
    weight := fun e =>
      if e < numRow * numCol then
        (if ppNewMask numRow numCol rands s e then s.weight e else 0)
      else s.weight e }

/-- Embedding of `ConvolutionLayer::ProbPruneCol(const int& prune_interval)`:
the update phase followed by the mask-application pass. -/
def ProbPruneColInterval (numRow numCol group pruneInterval : ℕ) (scoreDecay : ℚ)
    (deltaPP : ℕ → ℚ) (step innerIter : ℤ) (rands : ℕ → ℚ) (s : PruneState) : PruneState :=
  PPMaskPass numRow numCol rands
    (ppUpdatePhase numRow numCol group pruneInterval scoreDecay deltaPP step innerIter s)

/-- C7 (confirmed). For every column whose survival probability `history_prob`
is 0 when the mask-application pass of `ProbPruneCol` runs, every weight element
of that column ends with mask 0 and weight value 0, for arbitrary values of the
per-column uniform draws (which are nonnegative, being drawn from `[0,1)`), and
`ProbPruneCol` always ends with exactly this mask-application pass. -/
theorem ProbPruneCol_zero_prob_mask (numRow numCol : ℕ) (rands : ℕ → ℚ)
    (t : PruneState) (c : ℕ) (hc : c < numCol) (hp : t.history_prob c = 0)
    (hr : ∀ j, 0 ≤ rands j) :
    (∀ i < numRow, (PPMaskPass numRow numCol rands t).masks (i * numCol + c) = false ∧
      (PPMaskPass numRow numCol rands t).weight (i * numCol + c) = 0) ∧
    (∀ (group pruneInterval : ℕ) (scoreDecay : ℚ) (deltaPP : ℕ → ℚ)
      (step innerIter : ℤ) (s : PruneState),
      ProbPruneColInterval numRow numCol group pruneInterval scoreDecay deltaPP
          step innerIter rands s =
        PPMaskPass numRow numCol rands
          (ppUpdatePhase numRow numCol group pruneInterval scoreDecay deltaPP
            step innerIter s)) := by
  constructor
  · intro i hi
    have he : i * numCol + c < numRow * numCol := by
      calc i * numCol + c < i * numCol + numCol := by omega
        _ = (i + 1) * numCol := by ring
        _ ≤ numRow * numCol := Nat.mul_le_mul_right _ (by omega)
    have hmod : (i * numCol + c) % numCol = c := by
      rw [Nat.add_comm, Nat.add_mul_mod_self_right]
      exact Nat.mod_eq_of_lt hc
    have hmask : ppNewMask numRow numCol rands t (i * numCol + c) = false := by
      unfold ppNewMask
      rw [if_pos he, hmod, hp]
      simp only [Bool.and_eq_false_iff, decide_eq_false_iff_not, not_lt]
      exact Or.inl (hr c)
    refine ⟨hmask, ?_⟩
    show (if i * numCol + c < numRow * numCol then
        (if ppNewMask numRow numCol rands t (i * numCol + c) then t.weight (i * numCol + c) else 0)
      else t.weight (i * numCol + c)) = 0
    rw [if_pos he, hmask]
    rfl
  · intro _ _ _ _ _ _ _
    rfl

/-- Example state for the C7 witness: column 1 of a 2 by 2 tensor has survival
probability 0; all weights are 5 before the pass. -/
def stC7 : PruneState :=
  { PruneState.base with
    weight := fun _ => 5
    history_prob := fun j => if j = 1 then 0 else 1 }

/-- Witness for C7 at a concrete input: element (1,1) (flat index 3) of the
2 by 2 tensor is masked off and zeroed by the pass, with uniform draws 1/2. -/
theorem ProbPruneCol_zero_prob_mask_witness :
    (PPMaskPass 2 2 (fun _ => (1/2 : ℚ)) stC7).masks 3 = false ∧
      (PPMaskPass 2 2 (fun _ => (1/2 : ℚ)) stC7).weight 3 = 0 := by
  have h := (ProbPruneCol_zero_prob_mask 2 2 (fun _ => (1/2 : ℚ)) stC7 1
    (by decide) (by norm_num [stC7, PruneState.base]) (fun j => by norm_num)).1 1 (by decide)
  simpa using h

/-! ### UpdateNumPrunedCol (claim C2)

`ConvolutionLayer::UpdateNumPrunedCol` (conv_layer.cpp:574-603) and
`InnerProductLayer::UpdateNumPrunedCol` (inner_product_layer.cpp:419-443):
consume the queue `APP::pruned_rows` left by the previous layer's row prune and
propagate each pruned row into this layer's columns. -/

/-- Membership test for the weight indices written when propagating pruned row
`r` into a convolution layer: conv_layer.cpp:592-597 writes index
`i * num_col + j` for `i` in the row block of group `g` and `j` in the
filter-area block of channel `chl`. -/
def inChlBlock (numCol numRowPerG filterArea chl g e : ℕ) : Bool :=
  (List.range numRowPerG).any fun i =>
    (List.range filterArea).any fun j =>
      e == (g * numRowPerG + i) * numCol + (chl * filterArea + j)

/-- Body of the queue-consumption loop of `ConvolutionLayer::UpdateNumPrunedCol`
for one pruned row `r` of the previous layer: `chl = r % num_chl`,
`g = r / num_chl`; the channel block of group `g` is zeroed in weights and
masks, its columns are flagged for group `g`, and `num_pruned_col` grows by the
fractional amount `filter_area / group`. -/
def updateColStep (numCol numChl numRowPerG filterArea group : ℕ)
    (s : PruneState) (r : ℕ) : PruneState :=
  let chl := r % numChl
  let g := r / numChl
  { s with
    masks := fun e =>
      if inChlBlock numCol numRowPerG filterArea chl g e then false else s.masks e
    weight := fun e =>
      if inChlBlock numCol numRowPerG filterArea chl g e then 0 else s.weight e
    IF_col_pruned := fun j gi =>
      if chl * filterArea ≤ j ∧ j < chl * filterArea + filterArea ∧ gi = g then true
      else s.IF_col_pruned j gi
    num_pruned_col := s.num_pruned_col + (filterArea : ℚ) / (group : ℚ) }

/-- Embedding of `ConvolutionLayer::UpdateNumPrunedCol` (conv_layer.cpp:574-603):
early return on an empty queue, otherwise fold the per-row propagation over the
queue and clear it. -/
def UpdateNumPrunedCol (numCol numChl numRowPerG filterArea group : ℕ)
    (s : PruneState) : PruneState :=
  if s.pruned_rows = [] then s
  else
    { s.pruned_rows.foldl (updateColStep numCol numChl numRowPerG filterArea group) s with
      pruned_rows := [] }

/-- Body of the queue-consumption loop of
`InnerProductLayer::UpdateNumPrunedCol` (inner_product_layer.cpp:431-440) for
one pruned row `r`: zero the whole column `r`, flag it (group 0), and increment
the counter by 1. -/
def ipUpdateColStep (numRow numCol : ℕ) (s : PruneState) (r : ℕ) : PruneState :=
  { s with
    weight := fun e =>
      if (List.range numRow).any (fun i => e == i * numCol + r) then 0 else s.weight e
    masks := fun e =>
      if (List.range numRow).any (fun i => e == i * numCol + r) then false else s.masks e
    IF_col_pruned := fun j g => if j = r ∧ g = 0 then true else s.IF_col_pruned j g
    num_pruned_col := s.num_pruned_col + 1 }

/-- Embedding of `InnerProductLayer::UpdateNumPrunedCol`
(inner_product_layer.cpp:419-443). `isFirstFc` models
`L == APP::conv_layer_cnt`: for the first fully-connected layer the propagation
body is an unimplemented `TODO` and only the queue is cleared. -/
def IpUpdateNumPrunedCol (numRow numCol : ℕ) (isFirstFc : Bool)
    (s : PruneState) : PruneState :=
  if isFirstFc then { s with pruned_rows := [] }
  else
    { s.pruned_rows.foldl (ipUpdateColStep numRow numCol) s with pruned_rows := [] }

/-- Index-set introduction for the channel block written by `updateColStep`. -/
theorem inChlBlock_intro (numCol numRowPerG filterArea chl g i jj : ℕ)
    (hi : i < numRowPerG) (hj : jj < filterArea) :
    inChlBlock numCol numRowPerG filterArea chl g
      ((g * numRowPerG + i) * numCol + (chl * filterArea + jj)) = true := by
  unfold inChlBlock
  rw [List.any_eq_true]
  refine ⟨i, List.mem_range.mpr hi, ?_⟩
  rw [List.any_eq_true]
  exact ⟨jj, List.mem_range.mpr hj, by simp⟩

/-- Propagation steps never revive a zeroed weight. -/
theorem updateColStep_weight_zero (numCol numChl numRowPerG filterArea group : ℕ)
    (s : PruneState) (a e : ℕ) (hw : s.weight e = 0) :
    (updateColStep numCol numChl numRowPerG filterArea group s a).weight e = 0 := by
  unfold updateColStep
  dsimp only
  split
  · rfl
  · exact hw

/-- Propagation steps never revive a cleared mask. -/
theorem updateColStep_mask_false (numCol numChl numRowPerG filterArea group : ℕ)
    (s : PruneState) (a e : ℕ) (hw : s.masks e = false) :
    (updateColStep numCol numChl numRowPerG filterArea group s a).masks e = false := by
  unfold updateColStep
  dsimp only
  split
  · rfl
  · exact hw

/-- Propagation steps never clear a set column flag. -/
theorem updateColStep_flag_true (numCol numChl numRowPerG filterArea group : ℕ)
    (s : PruneState) (a j gi : ℕ) (hw : s.IF_col_pruned j gi = true) :
    (updateColStep numCol numChl numRowPerG filterArea group s a).IF_col_pruned j gi = true := by
  unfold updateColStep
  dsimp only
  split
  · rfl
  · exact hw

/-- Folding the propagation preserves zeroed weights. -/
theorem foldl_updateColStep_weight_zero (numCol numChl numRowPerG filterArea group : ℕ)
    (l : List ℕ) (s : PruneState) (e : ℕ) (hw : s.weight e = 0) :
    (l.foldl (updateColStep numCol numChl numRowPerG filterArea group) s).weight e = 0 := by
  induction l generalizing s with
  | nil => exact hw
  | cons a t ih =>
    exact ih _ (updateColStep_weight_zero numCol numChl numRowPerG filterArea group s a e hw)

/-- Folding the propagation preserves cleared masks. -/
theorem foldl_updateColStep_mask_false (numCol numChl numRowPerG filterArea group : ℕ)
    (l : List ℕ) (s : PruneState) (e : ℕ) (hw : s.masks e = false) :
    (l.foldl (updateColStep numCol numChl numRowPerG filterArea group) s).masks e = false := by
  induction l generalizing s with
  | nil => exact hw
  | cons a t ih =>
    exact ih _ (updateColStep_mask_false numCol numChl numRowPerG filterArea group s a e hw)

/-- Folding the propagation preserves set column flags. -/
theorem foldl_updateColStep_flag_true (numCol numChl numRowPerG filterArea group : ℕ)
    (l : List ℕ) (s : PruneState) (j gi : ℕ) (hw : s.IF_col_pruned j gi = true) :
    (l.foldl (updateColStep numCol numChl numRowPerG filterArea group) s).IF_col_pruned j gi
      = true := by
  induction l generalizing s with
  | nil => exact hw
  | cons a t ih =>
    exact ih _ (updateColStep_flag_true numCol numChl numRowPerG filterArea group s a j gi hw)

/-- Each queued row's channel block ends zeroed in weights and masks. -/
theorem foldl_updateColStep_mem_zero (numCol numChl numRowPerG filterArea group : ℕ)
    (l : List ℕ) (r : ℕ) (hr : r ∈ l) (s : PruneState) (e : ℕ)
    (he : inChlBlock numCol numRowPerG filterArea (r % numChl) (r / numChl) e = true) :
    (l.foldl (updateColStep numCol numChl numRowPerG filterArea group) s).weight e = 0 ∧
    (l.foldl (updateColStep numCol numChl numRowPerG filterArea group) s).masks e = false := by
  induction hr generalizing s with
  | head t =>
    rw [List.foldl_cons]
    constructor
    · apply foldl_updateColStep_weight_zero
      unfold updateColStep
      dsimp only
      simp [he]
    · apply foldl_updateColStep_mask_false
      unfold updateColStep
      dsimp only
      simp [he]
  | tail b hmem ih =>
    rw [List.foldl_cons]
    exact ih _

/-- Each queued row's channel columns end flagged for its group. -/
theorem foldl_updateColStep_mem_flag (numCol numChl numRowPerG filterArea group : ℕ)
    (l : List ℕ) (r : ℕ) (hr : r ∈ l) (s : PruneState) (j : ℕ)
    (h1 : r % numChl * filterArea ≤ j) (h2 : j < r % numChl * filterArea + filterArea) :
    (l.foldl (updateColStep numCol numChl numRowPerG filterArea group) s).IF_col_pruned
      j (r / numChl) = true := by
  induction hr generalizing s with
  | head t =>
    rw [List.foldl_cons]
    apply foldl_updateColStep_flag_true
    unfold updateColStep
    dsimp only
    rw [if_pos ⟨h1, h2, rfl⟩]
  | tail b hmem ih =>
    rw [List.foldl_cons]
    exact ih _

/-- The counter grows by `filter_area / group` per queued row. -/
theorem foldl_updateColStep_npc (numCol numChl numRowPerG filterArea group : ℕ)
    (l : List ℕ) (s : PruneState) :
    (l.foldl (updateColStep numCol numChl numRowPerG filterArea group) s).num_pruned_col =
      s.num_pruned_col + (l.length : ℚ) * ((filterArea : ℚ) / (group : ℚ)) := by
  induction l generalizing s with
  | nil => simp
  | cons a t ih =>
    rw [List.foldl_cons, ih]
    show (s.num_pruned_col + (filterArea : ℚ) / (group : ℚ)) + _ = _
    rw [List.length_cons]
    push_cast
    ring

/-- Fully-connected propagation steps never revive a zeroed weight. -/
theorem ipUpdateColStep_weight_zero (numRow numCol : ℕ) (s : PruneState) (a e : ℕ)
    (hw : s.weight e = 0) :
    (ipUpdateColStep numRow numCol s a).weight e = 0 := by
  unfold ipUpdateColStep
  dsimp only
  split
  · rfl
  · exact hw

/-- Fully-connected propagation steps never revive a cleared mask. -/
theorem ipUpdateColStep_mask_false (numRow numCol : ℕ) (s : PruneState) (a e : ℕ)
    (hw : s.masks e = false) :
    (ipUpdateColStep numRow numCol s a).masks e = false := by
  unfold ipUpdateColStep
  dsimp only
  split
  · rfl
  · exact hw

/-- Fully-connected propagation steps never clear a set column flag. -/
theorem ipUpdateColStep_flag_true (numRow numCol : ℕ) (s : PruneState) (a j g : ℕ)
    (hw : s.IF_col_pruned j g = true) :
    (ipUpdateColStep numRow numCol s a).IF_col_pruned j g = true := by
  unfold ipUpdateColStep
  dsimp only
  split
  · rfl
  · exact hw

/-- Folding the fully-connected propagation preserves zeroed weights. -/
theorem foldl_ipUpdateColStep_weight_zero (numRow numCol : ℕ) (l : List ℕ)
    (s : PruneState) (e : ℕ) (hw : s.weight e = 0) :
    (l.foldl (ipUpdateColStep numRow numCol) s).weight e = 0 := by
  induction l generalizing s with
  | nil => exact hw
  | cons a t ih => exact ih _ (ipUpdateColStep_weight_zero numRow numCol s a e hw)

/-- Folding the fully-connected propagation preserves cleared masks. -/
theorem foldl_ipUpdateColStep_mask_false (numRow numCol : ℕ) (l : List ℕ)
    (s : PruneState) (e : ℕ) (hw : s.masks e = false) :
    (l.foldl (ipUpdateColStep numRow numCol) s).masks e = false := by
  induction l generalizing s with
  | nil => exact hw
  | cons a t ih => exact ih _ (ipUpdateColStep_mask_false numRow numCol s a e hw)

/-- Folding the fully-connected propagation preserves set column flags. -/
theorem foldl_ipUpdateColStep_flag_true (numRow numCol : ℕ) (l : List ℕ)
    (s : PruneState) (j g : ℕ) (hw : s.IF_col_pruned j g = true) :
    (l.foldl (ipUpdateColStep numRow numCol) s).IF_col_pruned j g = true := by
  induction l generalizing s with
  | nil => exact hw
  | cons a t ih => exact ih _ (ipUpdateColStep_flag_true numRow numCol s a j g hw)

/-- Each queued row index ends as a fully zeroed column of the fully-connected
layer. -/
theorem foldl_ipUpdateColStep_mem (numRow numCol : ℕ) (l : List ℕ) (r : ℕ) (hr : r ∈ l)
    (s : PruneState) (i : ℕ) (hi : i < numRow) :
    (l.foldl (ipUpdateColStep numRow numCol) s).weight (i * numCol + r) = 0 ∧
    (l.foldl (ipUpdateColStep numRow numCol) s).masks (i * numCol + r) = false := by
  have hany : (List.range numRow).any (fun i2 => i * numCol + r == i2 * numCol + r) = true := by
    rw [List.any_eq_true]
    exact ⟨i, List.mem_range.mpr hi, by simp⟩
  induction hr generalizing s with
  | head t =>
    rw [List.foldl_cons]
    refine ⟨?_, ?_⟩
    · apply foldl_ipUpdateColStep_weight_zero
      unfold ipUpdateColStep
      dsimp only
      simp [hany]
    · apply foldl_ipUpdateColStep_mask_false
      unfold ipUpdateColStep
      dsimp only
      simp [hany]
  | tail b hmem ih =>
    rw [List.foldl_cons]
    exact ih _

/-- Each queued row index ends flagged column-pruned in the fully-connected
layer (the flag is set outside the row loop, so no row bound is needed). -/
theorem foldl_ipUpdateColStep_mem_flag (numRow numCol : ℕ) (l : List ℕ) (r : ℕ)
    (hr : r ∈ l) (s : PruneState) :
    (l.foldl (ipUpdateColStep numRow numCol) s).IF_col_pruned r 0 = true := by
  induction hr generalizing s with
  | head t =>
    rw [List.foldl_cons]
    apply foldl_ipUpdateColStep_flag_true
    unfold ipUpdateColStep
    dsimp only
    rw [if_pos ⟨rfl, rfl⟩]
  | tail b hmem ih =>
    rw [List.foldl_cons]
    exact ih _

/-- The fully-connected counter grows by one per queued row. -/
theorem foldl_ipUpdateColStep_npc (numRow numCol : ℕ) (l : List ℕ) (s : PruneState) :
    (l.foldl (ipUpdateColStep numRow numCol) s).num_pruned_col =
      s.num_pruned_col + (l.length : ℚ) := by
  induction l generalizing s with
  | nil => simp
  | cons a t ih =>
    rw [List.foldl_cons, ih]
    show s.num_pruned_col + 1 + _ = _
    rw [List.length_cons]
    push_cast
    ring

/-- C2 (amended). For a convolution layer L+1 and every row index `r` left in
the `pruned_rows` queue by the previous layer's prune pass, one
`UpdateNumPrunedCol` call marks every column of the filter-area block of
channel `r % num_chl` column-pruned for group `r / num_chl`, zeroes those
columns' weights and mask entries across the group's rows, increments
`num_pruned_col` by `filter_area / group` per queued row, and leaves the queue
empty; a non-first fully-connected layer does the same with whole columns
(one column per queued row, counter +1); the FIRST fully-connected layer
(`L == conv_layer_cnt`), however, only empties the queue and changes nothing
else (the propagation body is an unimplemented TODO in the source). -/
theorem UpdateNumPrunedCol_propagation
    (numCol numChl numRowPerG filterArea group numRow : ℕ) (s : PruneState) :
    (UpdateNumPrunedCol numCol numChl numRowPerG filterArea group s).pruned_rows = [] ∧
    (UpdateNumPrunedCol numCol numChl numRowPerG filterArea group s).num_pruned_col =
      s.num_pruned_col + (s.pruned_rows.length : ℚ) * ((filterArea : ℚ) / (group : ℚ)) ∧
    (∀ r ∈ s.pruned_rows,
      (∀ j, r % numChl * filterArea ≤ j → j < r % numChl * filterArea + filterArea →
        (UpdateNumPrunedCol numCol numChl numRowPerG filterArea group s).IF_col_pruned
          j (r / numChl) = true) ∧
      (∀ i < numRowPerG, ∀ jj < filterArea,
        (UpdateNumPrunedCol numCol numChl numRowPerG filterArea group s).weight
          ((r / numChl * numRowPerG + i) * numCol + (r % numChl * filterArea + jj)) = 0 ∧
        (UpdateNumPrunedCol numCol numChl numRowPerG filterArea group s).masks
          ((r / numChl * numRowPerG + i) * numCol + (r % numChl * filterArea + jj)) = false)) ∧
    IpUpdateNumPrunedCol numRow numCol true s = { s with pruned_rows := [] } ∧
    (IpUpdateNumPrunedCol numRow numCol false s).pruned_rows = [] ∧
    (IpUpdateNumPrunedCol numRow numCol false s).num_pruned_col =
      s.num_pruned_col + (s.pruned_rows.length : ℚ) ∧
    (∀ r ∈ s.pruned_rows,
      (IpUpdateNumPrunedCol numRow numCol false s).IF_col_pruned r 0 = true ∧
      ∀ i < numRow,
        (IpUpdateNumPrunedCol numRow numCol false s).weight (i * numCol + r) = 0 ∧
        (IpUpdateNumPrunedCol numRow numCol false s).masks (i * numCol + r) = false) := by
  refine ⟨?_, ?_, ?_, rfl, rfl, ?_, ?_⟩
  · unfold UpdateNumPrunedCol
    split
    next h => exact h
    next h => rfl
  · unfold UpdateNumPrunedCol
    split
    next h => rw [h]; simp
    next h =>
      show (s.pruned_rows.foldl
        (updateColStep numCol numChl numRowPerG filterArea group) s).num_pruned_col = _
      exact foldl_updateColStep_npc numCol numChl numRowPerG filterArea group s.pruned_rows s
  · intro r hr
    have hne : s.pruned_rows ≠ [] := by
      intro hq
      rw [hq] at hr
      cases hr
    unfold UpdateNumPrunedCol
    rw [if_neg hne]
    constructor
    · intro j h1 h2
      show (s.pruned_rows.foldl
        (updateColStep numCol numChl numRowPerG filterArea group) s).IF_col_pruned
          j (r / numChl) = true
      exact foldl_updateColStep_mem_flag numCol numChl numRowPerG filterArea group
        s.pruned_rows r hr s j h1 h2
    · intro i hi jj hj
      exact foldl_updateColStep_mem_zero numCol numChl numRowPerG filterArea group
        s.pruned_rows r hr s _
        (inChlBlock_intro numCol numRowPerG filterArea (r % numChl) (r / numChl) i jj hi hj)
  · show (s.pruned_rows.foldl (ipUpdateColStep numRow numCol) s).num_pruned_col = _
    exact foldl_ipUpdateColStep_npc numRow numCol s.pruned_rows s
  · intro r hr
    exact ⟨foldl_ipUpdateColStep_mem_flag numRow numCol s.pruned_rows r hr s,
      fun i hi => foldl_ipUpdateColStep_mem numRow numCol s.pruned_rows r hr s i hi⟩

/-- Example state for the C2 witness: the previous layer pruned its row 1; this
convolution layer has 2 channels, filter area 2, one group, 2 rows of 4 columns,
all weights 7. -/
def stC2w : PruneState :=
  { PruneState.base with weight := fun _ => 7, pruned_rows := [1] }

/-- Witness for C2 at a concrete input: row 1 maps to channel 1 (group 0), so
columns 2 and 3 are flagged, the block weights (for example flat index 6) are
zeroed, and the queue is empty afterwards. -/
theorem UpdateNumPrunedCol_propagation_witness :
    (1 : ℕ) ∈ stC2w.pruned_rows ∧
    (UpdateNumPrunedCol 4 2 2 2 1 stC2w).IF_col_pruned 3 0 = true ∧
    (UpdateNumPrunedCol 4 2 2 2 1 stC2w).weight 6 = 0 ∧
    (UpdateNumPrunedCol 4 2 2 2 1 stC2w).pruned_rows = [] := by
  have h := UpdateNumPrunedCol_propagation 4 2 2 2 1 1 stC2w
  refine ⟨by decide, ?_, ?_, h.1⟩
  · have h2 := (h.2.2.1 1 (by decide)).1 3 (by decide) (by decide)
    simpa using h2
  · have h2 := ((h.2.2.1 1 (by decide)).2 1 (by decide) 0 (by decide)).1
    simpa using h2

/-- State refuting C2 as stated: a first-fully-connected layer state with one
queued pruned row (row 0) and a nonzero 1 by 1 weight tensor. -/
def stC2c : PruneState :=
  { PruneState.base with weight := fun _ => 1, pruned_rows := [0] }

/-- Counterexample to C2 as stated: on the first fully-connected layer
(`L == conv_layer_cnt`), `UpdateNumPrunedCol` empties the queue but does NOT
mark the mapped column pruned, does not zero its weights, and does not touch
the counter, contradicting the claim's universally quantified propagation. -/
theorem ipUpdateNumPrunedCol_firstFc_counterexample :
    (IpUpdateNumPrunedCol 1 1 true stC2c).pruned_rows = [] ∧
    (IpUpdateNumPrunedCol 1 1 true stC2c).IF_col_pruned 0 0 = false ∧
    (IpUpdateNumPrunedCol 1 1 true stC2c).weight 0 = 1 ∧
    (IpUpdateNumPrunedCol 1 1 true stC2c).num_pruned_col = 0 :=
  ⟨rfl, rfl, rfl, rfl⟩

/-! ### FilterPrune and TaylorPrune (claim C1)

`ConvolutionLayer::FilterPrune` (conv_layer.cpp:282-317) and
`ConvolutionLayer::TaylorPrune` (conv_layer.cpp:224-279). -/

/-- Row scores of `FilterPrune` (conv_layer.cpp:290-302): the L1 row magnitude,
with already-pruned rows floated up by `INT_MAX`. -/
def filterPruneScore (numRow numCol : ℕ) (s : PruneState) : List (ℚ × ℕ) :=
  (List.range numRow).map fun i =>
    (if s.IF_row_pruned i then INT_MAX else rowAbsSum numCol s.weight i, i)

/-- Rows selected by one `FilterPrune` pass: the first `num_once_prune` entries
of the ascending score sort. -/
def filterPruneSelected (numRow numCol k : ℕ) (s : PruneState) : List ℕ :=
  ((List.insertionSort pairLe (filterPruneScore numRow numCol s)).take k).map Prod.snd

/-- Body of the pruning loop of `FilterPrune` (conv_layer.cpp:304-315) for one
selected row `r`: zero the row's weights and masks, flag it, count it, and —
when this is not the last registered layer (`L != APP::layer_cnt - 1`) — append
it to `pruned_rows`. -/
def pruneRowFP (numCol : ℕ) (isLastLayer : Bool) (s : PruneState) (r : ℕ) : PruneState :=
  { s with
    weight := fun e => if r * numCol ≤ e ∧ e < r * numCol + numCol then 0 else s.weight e
    masks := fun e => if r * numCol ≤ e ∧ e < r * numCol + numCol then false else s.masks e
    IF_row_pruned := fun i => if i = r then true else s.IF_row_pruned i
    num_pruned_row := s.num_pruned_row + 1
    pruned_rows := if isLastLayer then s.pruned_rows else s.pruned_rows ++ [r] }

/-- Embedding of `ConvolutionLayer::FilterPrune`: score, sort, prune the first
`k = APP::num_once_prune` rows. -/
def FilterPrune (numRow numCol k : ℕ) (isLastLayer : Bool) (s : PruneState) : PruneState :=
  (filterPruneSelected numRow numCol k s).foldl (pruneRowFP numCol isLastLayer) s

/-- Feature-map (output channel) score of `TaylorPrune` (conv_layer.cpp:238-256):
accumulated `|top_diff * top_data|` over the batch and spatial extent, with
already-row-pruned channels floated up by `INT_MAX`. -/
def taylorScore (num numC numH numW : ℕ) (topData topDiff : ℕ → ℚ)
    (s : PruneState) (c : ℕ) : ℚ :=
  if s.IF_row_pruned c then INT_MAX
  else
    ((List.range num).map fun n =>
      ((List.range (numH * numW)).map fun i =>
        |topDiff (n * numC * numW * numH + c * numW * numH + i) *
          topData (n * numC * numW * numH + c * numW * numH + i)|).sum).sum

/-- Body of the pruning loop of `TaylorPrune` (conv_layer.cpp:260-271): same row
zeroing, flagging and counting as `FilterPrune`, but the `pruned_rows` append is
commented out in the source ("in TP paper, they didn't mention update
corresponding column, so do not do this"). -/
def pruneRowTP (numCol : ℕ) (s : PruneState) (c : ℕ) : PruneState :=
  { s with
    weight := fun e => if c * numCol ≤ e ∧ e < c * numCol + numCol then 0 else s.weight e
    masks := fun e => if c * numCol ≤ e ∧ e < c * numCol + numCol then false else s.masks e
    IF_row_pruned := fun i => if i = c then true else s.IF_row_pruned i
    num_pruned_row := s.num_pruned_row + 1 }

/-- The `fm_score` list of `TaylorPrune` before sorting: one `(score, channel)`
pair per output channel. -/
def taylorScoreList (num numC numH numW : ℕ) (topData topDiff : ℕ → ℚ)
    (s : PruneState) : List (ℚ × ℕ) :=
  (List.range numC).map fun c =>
    (taylorScore num numC numH numW topData topDiff s c, c)

/-- Channels selected by one `TaylorPrune` pass: the first
`max(1, APP::num_once_prune)` entries of the ascending score sort
(conv_layer.cpp:257-261). -/
def taylorPruneSelected (num numC numH numW k : ℕ) (topData topDiff : ℕ → ℚ)
    (s : PruneState) : List ℕ :=
  ((List.insertionSort pairLe
    (taylorScoreList num numC numH numW topData topDiff s)).take
      (if 1 < k then k else 1)).map Prod.snd

/-- Embedding of `ConvolutionLayer::TaylorPrune` for a single top blob. Note
`int num_once_prune = 1; if (APP::num_once_prune > 1) ...` (conv_layer.cpp:258-259):
at least one row is pruned even when the configured count is below 2. -/
def TaylorPrune (num numC numH numW numCol k : ℕ) (topData topDiff : ℕ → ℚ)
    (s : PruneState) : PruneState :=
  (taylorPruneSelected num numC numH numW k topData topDiff s).foldl
    (pruneRowTP numCol) s

/-- In a `pairLe`-sorted list with at least `k` entries scoring strictly below
`INT_MAX`, the first `k` entries all score strictly below `INT_MAX`. -/
theorem take_fst_lt_of_countP {l : List (ℚ × ℕ)} (hs : l.Pairwise pairLe) :
    ∀ k, k ≤ l.countP (fun p => decide (p.1 < INT_MAX)) →
      ∀ x ∈ l.take k, x.1 < INT_MAX := by
  induction l with
  | nil =>
    intro k _ x hx
    rw [List.take_nil] at hx
    cases hx
  | cons a t ih =>
    intro k hk x hx
    rw [List.pairwise_cons] at hs
    match k with
    | 0 => rw [List.take_zero] at hx; cases hx
    | k + 1 =>
      rw [List.take_succ_cons] at hx
      by_cases hpa : a.1 < INT_MAX
      · rcases List.mem_cons.mp hx with h | h
        · exact h ▸ hpa
        · refine ih hs.2 k ?_ x h
          rw [List.countP_cons, if_pos (by simpa using hpa)] at hk
          omega
      · exfalso
        have hz : t.countP (fun p => decide (p.1 < INT_MAX)) = 0 := by
          rw [List.countP_eq_zero]
          intro y hy
          simp only [decide_eq_true_eq, not_lt]
          calc INT_MAX ≤ a.1 := not_lt.mp hpa
            _ ≤ y.1 := pairLe_fst (hs.1 y hy)
        rw [List.countP_cons, hz, if_neg (by simpa using hpa)] at hk
        omega

/-- In a `pairLe`-sorted list, every entry of the first `k` is `pairLe` every
entry after position `k`. -/
theorem sorted_take_le_drop {l : List (ℚ × ℕ)} (hs : l.Pairwise pairLe) (k : ℕ)
    {x y : ℚ × ℕ} (hx : x ∈ l.take k) (hy : y ∈ l.drop k) : pairLe x y := by
  have h := List.take_append_drop k l
  rw [← h] at hs
  exact (List.pairwise_append.mp hs).2.2 x hx y hy

/-- Characterization of the entries of the `FilterPrune` score list. -/
theorem mem_filterPruneScore (numRow numCol : ℕ) (s : PruneState) {x : ℚ × ℕ}
    (hx : x ∈ filterPruneScore numRow numCol s) :
    x.2 < numRow ∧
      x.1 = (if s.IF_row_pruned x.2 then INT_MAX else rowAbsSum numCol s.weight x.2) := by
  rcases List.mem_map.mp hx with ⟨i, hi, rfl⟩
  exact ⟨List.mem_range.mp hi, rfl⟩

/-- FilterPrune steps never revive a zeroed weight or cleared mask, nor clear a
row flag. -/
theorem pruneRowFP_preserve (numCol : ℕ) (b : Bool) (s : PruneState) (a : ℕ) :
    (∀ e, s.weight e = 0 → (pruneRowFP numCol b s a).weight e = 0) ∧
    (∀ e, s.masks e = false → (pruneRowFP numCol b s a).masks e = false) ∧
    (∀ i, s.IF_row_pruned i = true → (pruneRowFP numCol b s a).IF_row_pruned i = true) := by
  refine ⟨fun e hw => ?_, fun e hw => ?_, fun i hw => ?_⟩ <;>
    (unfold pruneRowFP; dsimp only; split)
  · rfl
  · exact hw
  · rfl
  · exact hw
  · rfl
  · exact hw

/-- Folding FilterPrune row pruning preserves zeroed weights. -/
theorem foldl_pruneRowFP_weight_zero (numCol : ℕ) (b : Bool) (l : List ℕ)
    (s : PruneState) (e : ℕ) (hw : s.weight e = 0) :
    (l.foldl (pruneRowFP numCol b) s).weight e = 0 := by
  induction l generalizing s with
  | nil => exact hw
  | cons a t ih => exact ih _ ((pruneRowFP_preserve numCol b s a).1 e hw)

/-- Folding FilterPrune row pruning preserves cleared masks. -/
theorem foldl_pruneRowFP_mask_false (numCol : ℕ) (b : Bool) (l : List ℕ)
    (s : PruneState) (e : ℕ) (hw : s.masks e = false) :
    (l.foldl (pruneRowFP numCol b) s).masks e = false := by
  induction l generalizing s with
  | nil => exact hw
  | cons a t ih => exact ih _ ((pruneRowFP_preserve numCol b s a).2.1 e hw)

/-- Folding FilterPrune row pruning preserves set row flags. -/
theorem foldl_pruneRowFP_flag_true (numCol : ℕ) (b : Bool) (l : List ℕ)
    (s : PruneState) (i : ℕ) (hw : s.IF_row_pruned i = true) :
    (l.foldl (pruneRowFP numCol b) s).IF_row_pruned i = true := by
  induction l generalizing s with
  | nil => exact hw
  | cons a t ih => exact ih _ ((pruneRowFP_preserve numCol b s a).2.2 i hw)

/-- Every row in the pruning list ends flagged, with its weights zeroed and its
masks cleared. -/
theorem foldl_pruneRowFP_mem (numCol : ℕ) (b : Bool) (l : List ℕ) (r : ℕ) (hr : r ∈ l)
    (s : PruneState) :
    (l.foldl (pruneRowFP numCol b) s).IF_row_pruned r = true ∧
    ∀ e, r * numCol ≤ e → e < r * numCol + numCol →
      (l.foldl (pruneRowFP numCol b) s).weight e = 0 ∧
      (l.foldl (pruneRowFP numCol b) s).masks e = false := by
  induction hr generalizing s with
  | head t =>
    rw [List.foldl_cons]
    refine ⟨?_, fun e h1 h2 => ⟨?_, ?_⟩⟩
    · apply foldl_pruneRowFP_flag_true
      unfold pruneRowFP
      dsimp only
      rw [if_pos rfl]
    · apply foldl_pruneRowFP_weight_zero
      unfold pruneRowFP
      dsimp only
      rw [if_pos ⟨h1, h2⟩]
    · apply foldl_pruneRowFP_mask_false
      unfold pruneRowFP
      dsimp only
      rw [if_pos ⟨h1, h2⟩]
  | tail b2 hmem ih =>
    rw [List.foldl_cons]
    exact ih _

/-- The pruned-row counter grows by the length of the pruning list. -/
theorem foldl_pruneRowFP_npr (numCol : ℕ) (b : Bool) (l : List ℕ) (s : PruneState) :
    (l.foldl (pruneRowFP numCol b) s).num_pruned_row = s.num_pruned_row + l.length := by
  induction l generalizing s with
  | nil => rfl
  | cons a t ih =>
    rw [List.foldl_cons, ih]
    show s.num_pruned_row + 1 + t.length = _
    rw [List.length_cons]
    omega

/-- The queue receives exactly the pruning list, in order, unless this is the
last registered layer. -/
theorem foldl_pruneRowFP_queue (numCol : ℕ) (b : Bool) (l : List ℕ) (s : PruneState) :
    (l.foldl (pruneRowFP numCol b) s).pruned_rows =
      if b then s.pruned_rows else s.pruned_rows ++ l := by
  induction l generalizing s with
  | nil => cases b <;> simp
  | cons a t ih =>
    rw [List.foldl_cons, ih]
    cases b <;> simp [pruneRowFP]

/-- TaylorPrune's pruning loop never touches the queue. -/
theorem foldl_pruneRowTP_queue (numCol : ℕ) (l : List ℕ) (s : PruneState) :
    (l.foldl (pruneRowTP numCol) s).pruned_rows = s.pruned_rows := by
  induction l generalizing s with
  | nil => rfl
  | cons a t ih =>
    rw [List.foldl_cons]
    exact ih _

/-- TaylorPrune steps never revive a zeroed weight or cleared mask, nor clear a
row flag. -/
theorem pruneRowTP_preserve (numCol : ℕ) (s : PruneState) (a : ℕ) :
    (∀ e, s.weight e = 0 → (pruneRowTP numCol s a).weight e = 0) ∧
    (∀ e, s.masks e = false → (pruneRowTP numCol s a).masks e = false) ∧
    (∀ i, s.IF_row_pruned i = true → (pruneRowTP numCol s a).IF_row_pruned i = true) := by
  refine ⟨fun e hw => ?_, fun e hw => ?_, fun i hw => ?_⟩ <;>
    (unfold pruneRowTP; dsimp only; split)
  · rfl
  · exact hw
  · rfl
  · exact hw
  · rfl
  · exact hw

/-- Folding TaylorPrune channel pruning preserves zeroed weights. -/
theorem foldl_pruneRowTP_weight_zero (numCol : ℕ) (l : List ℕ)
    (s : PruneState) (e : ℕ) (hw : s.weight e = 0) :
    (l.foldl (pruneRowTP numCol) s).weight e = 0 := by
  induction l generalizing s with
  | nil => exact hw
  | cons a t ih => exact ih _ ((pruneRowTP_preserve numCol s a).1 e hw)

/-- Folding TaylorPrune channel pruning preserves cleared masks. -/
theorem foldl_pruneRowTP_mask_false (numCol : ℕ) (l : List ℕ)
    (s : PruneState) (e : ℕ) (hw : s.masks e = false) :
    (l.foldl (pruneRowTP numCol) s).masks e = false := by
  induction l generalizing s with
  | nil => exact hw
  | cons a t ih => exact ih _ ((pruneRowTP_preserve numCol s a).2.1 e hw)

/-- Folding TaylorPrune channel pruning preserves set row flags. -/
theorem foldl_pruneRowTP_flag_true (numCol : ℕ) (l : List ℕ)
    (s : PruneState) (i : ℕ) (hw : s.IF_row_pruned i = true) :
    (l.foldl (pruneRowTP numCol) s).IF_row_pruned i = true := by
  induction l generalizing s with
  | nil => exact hw
  | cons a t ih => exact ih _ ((pruneRowTP_preserve numCol s a).2.2 i hw)

/-- Every channel in the TaylorPrune pruning list ends flagged, with its row's
weights zeroed and masks cleared. -/
theorem foldl_pruneRowTP_mem (numCol : ℕ) (l : List ℕ) (r : ℕ) (hr : r ∈ l)
    (s : PruneState) :
    (l.foldl (pruneRowTP numCol) s).IF_row_pruned r = true ∧
    ∀ e, r * numCol ≤ e → e < r * numCol + numCol →
      (l.foldl (pruneRowTP numCol) s).weight e = 0 ∧
      (l.foldl (pruneRowTP numCol) s).masks e = false := by
  induction hr generalizing s with
  | head t =>
    rw [List.foldl_cons]
    refine ⟨?_, fun e h1 h2 => ⟨?_, ?_⟩⟩
    · apply foldl_pruneRowTP_flag_true
      unfold pruneRowTP
      dsimp only
      rw [if_pos rfl]
    · apply foldl_pruneRowTP_weight_zero
      unfold pruneRowTP
      dsimp only
      rw [if_pos ⟨h1, h2⟩]
    · apply foldl_pruneRowTP_mask_false
      unfold pruneRowTP
      dsimp only
      rw [if_pos ⟨h1, h2⟩]
  | tail b2 hmem ih =>
    rw [List.foldl_cons]
    exact ih _

/-- The pruned-row counter grows by the length of the TaylorPrune list. -/
theorem foldl_pruneRowTP_npr (numCol : ℕ) (l : List ℕ) (s : PruneState) :
    (l.foldl (pruneRowTP numCol) s).num_pruned_row = s.num_pruned_row + l.length := by
  induction l generalizing s with
  | nil => rfl
  | cons a t ih =>
    rw [List.foldl_cons, ih]
    show s.num_pruned_row + 1 + t.length = _
    rw [List.length_cons]
    omega

/-- Characterization of the entries of the `TaylorPrune` score list. -/
theorem mem_taylorScoreList (num numC numH numW : ℕ) (topData topDiff : ℕ → ℚ)
    (s : PruneState) {x : ℚ × ℕ}
    (hx : x ∈ taylorScoreList num numC numH numW topData topDiff s) :
    x.2 < numC ∧ x.1 = taylorScore num numC numH numW topData topDiff s x.2 := by
  rcases List.mem_map.mp hx with ⟨c, hc, rfl⟩
  exact ⟨List.mem_range.mp hc, rfl⟩

/-- C1 (amended). One `FilterPrune` invocation selects the `k` lowest-scoring
not-yet-pruned rows (`k = APP::num_once_prune`; assuming at least `k` rows are
still unpruned and genuine row scores stay below the `INT_MAX` sentinel),
zeroes those rows' weight elements and mask entries, sets their row-pruned
flags, increments `num_pruned_row` by `k`, and — exactly when the layer is not
the last registered layer — appends each pruned row index to the `pruned_rows`
queue. `TaylorPrune` does the same selection, zeroing, flagging and counting
for the `max(1, k)` lowest Taylor-scoring not-yet-pruned channels (under the
matching unpruned-count and sentinel hypotheses on its scores), but never
appends to `pruned_rows` (the append is commented out in the source), for any
layer. -/
theorem FilterPrune_prunes_lowest_rows (numRow numCol k : ℕ) (isLastLayer : Bool)
    (s : PruneState)
    (hk : k ≤ (List.range numRow).countP (fun i => !s.IF_row_pruned i))
    (hscore : ∀ i < numRow, s.IF_row_pruned i = false →
      rowAbsSum numCol s.weight i < INT_MAX) :
    (filterPruneSelected numRow numCol k s).length = k ∧
    (∀ r ∈ filterPruneSelected numRow numCol k s, r < numRow ∧ s.IF_row_pruned r = false) ∧
    (∀ r ∈ filterPruneSelected numRow numCol k s, ∀ i < numRow,
      s.IF_row_pruned i = false → i ∉ filterPruneSelected numRow numCol k s →
      rowAbsSum numCol s.weight r ≤ rowAbsSum numCol s.weight i) ∧
    (∀ r ∈ filterPruneSelected numRow numCol k s,
      (FilterPrune numRow numCol k isLastLayer s).IF_row_pruned r = true ∧
      ∀ e, r * numCol ≤ e → e < r * numCol + numCol →
        (FilterPrune numRow numCol k isLastLayer s).weight e = 0 ∧
        (FilterPrune numRow numCol k isLastLayer s).masks e = false) ∧
    (FilterPrune numRow numCol k isLastLayer s).num_pruned_row = s.num_pruned_row + k ∧
    (FilterPrune numRow numCol k isLastLayer s).pruned_rows =
      (if isLastLayer then s.pruned_rows
       else s.pruned_rows ++ filterPruneSelected numRow numCol k s) ∧
    (∀ (num numC numH numW k2 : ℕ) (topData topDiff : ℕ → ℚ),
      (TaylorPrune num numC numH numW numCol k2 topData topDiff s).pruned_rows =
        s.pruned_rows) ∧
    (∀ (num numC numH numW k2 : ℕ) (topData topDiff : ℕ → ℚ),
      (if 1 < k2 then k2 else 1) ≤
        (List.range numC).countP (fun c => !s.IF_row_pruned c) →
      (∀ c < numC, s.IF_row_pruned c = false →
        taylorScore num numC numH numW topData topDiff s c < INT_MAX) →
      (taylorPruneSelected num numC numH numW k2 topData topDiff s).length =
        (if 1 < k2 then k2 else 1) ∧
      (∀ c ∈ taylorPruneSelected num numC numH numW k2 topData topDiff s,
        c < numC ∧ s.IF_row_pruned c = false) ∧
      (∀ c ∈ taylorPruneSelected num numC numH numW k2 topData topDiff s,
        ∀ i < numC, s.IF_row_pruned i = false →
        i ∉ taylorPruneSelected num numC numH numW k2 topData topDiff s →
        taylorScore num numC numH numW topData topDiff s c ≤
          taylorScore num numC numH numW topData topDiff s i) ∧
      (∀ c ∈ taylorPruneSelected num numC numH numW k2 topData topDiff s,
        (TaylorPrune num numC numH numW numCol k2 topData topDiff
          s).IF_row_pruned c = true ∧
        ∀ e, c * numCol ≤ e → e < c * numCol + numCol →
          (TaylorPrune num numC numH numW numCol k2 topData topDiff s).weight e = 0 ∧
          (TaylorPrune num numC numH numW numCol k2 topData topDiff s).masks e = false) ∧
      (TaylorPrune num numC numH numW numCol k2 topData topDiff s).num_pruned_row =
        s.num_pruned_row + (if 1 < k2 then k2 else 1)) := by
  set scores := filterPruneScore numRow numCol s with hscores
  set sorted := List.insertionSort pairLe scores with hsorted_def
  have hpw : sorted.Pairwise pairLe := List.sorted_insertionSort pairLe scores
  have hperm : sorted.Perm scores := List.perm_insertionSort pairLe scores
  have hlen_scores : scores.length = numRow := by
    rw [hscores]
    unfold filterPruneScore
    rw [List.length_map, List.length_range]
  have hlen_sorted : sorted.length = numRow := by
    rw [hsorted_def, List.length_insertionSort, hlen_scores]
  have hkR : k ≤ numRow := by
    calc k ≤ (List.range numRow).countP (fun i => !s.IF_row_pruned i) := hk
      _ ≤ (List.range numRow).length := List.countP_le_length _
      _ = numRow := List.length_range numRow
  have hcount : k ≤ sorted.countP (fun p => decide (p.1 < INT_MAX)) := by
    rw [hperm.countP_eq]
    rw [hscores]
    unfold filterPruneScore
    rw [List.countP_map]
    refine le_trans hk (List.countP_mono_left ?_)
    intro i hi hp
    have hi' := List.mem_range.mp hi
    have hfalse : s.IF_row_pruned i = false := by
      revert hp
      cases s.IF_row_pruned i <;> simp
    show decide ((if s.IF_row_pruned i then INT_MAX else rowAbsSum numCol s.weight i)
      < INT_MAX) = true
    rw [hfalse]
    simpa using hscore i hi' hfalse
  have htake := take_fst_lt_of_countP hpw k hcount
  have hsel : filterPruneSelected numRow numCol k s = (sorted.take k).map Prod.snd := rfl
  -- every selected row is a live row below the sentinel
  have hsel_char : ∀ r ∈ filterPruneSelected numRow numCol k s,
      ∃ x ∈ sorted.take k, x.2 = r ∧ x.1 = rowAbsSum numCol s.weight r ∧
        r < numRow ∧ s.IF_row_pruned r = false := by
    intro r hr
    rw [hsel] at hr
    rcases List.mem_map.mp hr with ⟨x, hx, rfl⟩
    have hx_sorted : x ∈ sorted := List.take_subset k sorted hx
    have hx_scores : x ∈ scores := (List.mem_insertionSort pairLe).mp hx_sorted
    have hchar := mem_filterPruneScore numRow numCol s hx_scores
    have hlt := htake x hx
    have hfalse : s.IF_row_pruned x.2 = false := by
      by_contra hcon
      have htrue : s.IF_row_pruned x.2 = true := by
        revert hcon
        cases s.IF_row_pruned x.2 <;> simp
      rw [hchar.2, if_pos htrue] at hlt
      exact lt_irrefl _ hlt
    refine ⟨x, hx, rfl, ?_, hchar.1, hfalse⟩
    rw [hchar.2, if_neg (by rw [hfalse]; exact Bool.false_ne_true)]
  refine ⟨?_, ?_, ?_, ?_, ?_, ?_, ?_, ?_⟩
  · rw [hsel, List.length_map, List.length_take, hlen_sorted]
    omega
  · intro r hr
    rcases hsel_char r hr with ⟨x, _, _, _, h4, h5⟩
    exact ⟨h4, h5⟩
  · intro r hr i hi hifalse hinot
    rcases hsel_char r hr with ⟨x, hx, hx2, hx1, _, _⟩
    -- the pair of row i sits in the sorted list
    have hy_scores : ((rowAbsSum numCol s.weight i, i) : ℚ × ℕ) ∈ scores := by
      rw [hscores]
      unfold filterPruneScore
      apply List.mem_map.mpr
      refine ⟨i, List.mem_range.mpr hi, ?_⟩
      rw [hifalse]
      simp
    have hy_sorted : ((rowAbsSum numCol s.weight i, i) : ℚ × ℕ) ∈ sorted :=
      (List.mem_insertionSort pairLe).mpr hy_scores
    have hy_split : ((rowAbsSum numCol s.weight i, i) : ℚ × ℕ) ∈ sorted.take k ∨
        ((rowAbsSum numCol s.weight i, i) : ℚ × ℕ) ∈ sorted.drop k := by
      rw [← List.mem_append, List.take_append_drop]
      exact hy_sorted
    rcases hy_split with hy | hy
    · exfalso
      apply hinot
      rw [hsel]
      exact List.mem_map.mpr ⟨_, hy, rfl⟩
    · have hle := sorted_take_le_drop hpw k hx hy
      have := pairLe_fst hle
      rw [hx1] at this
      exact this
  · intro r hr
    exact foldl_pruneRowFP_mem numCol isLastLayer _ r hr s
  · show ((filterPruneSelected numRow numCol k s).foldl
      (pruneRowFP numCol isLastLayer) s).num_pruned_row = _
    rw [foldl_pruneRowFP_npr, hsel, List.length_map, List.length_take, hlen_sorted]
    congr 1
    omega
  · exact foldl_pruneRowFP_queue numCol isLastLayer _ s
  · intro num numC numH numW k2 topData topDiff
    exact foldl_pruneRowTP_queue numCol _ s
  · intro num numC numH numW k2 topData topDiff hk2 hscore2
    set tscores := taylorScoreList num numC numH numW topData topDiff s with htsc
    set tsorted := List.insertionSort pairLe tscores with htsorted_def
    have hpw2 : tsorted.Pairwise pairLe := List.sorted_insertionSort pairLe tscores
    have hperm2 : tsorted.Perm tscores := List.perm_insertionSort pairLe tscores
    have hlen_tsc : tscores.length = numC := by
      rw [htsc]
      unfold taylorScoreList
      rw [List.length_map, List.length_range]
    have hlen_tsorted : tsorted.length = numC := by
      rw [htsorted_def, List.length_insertionSort, hlen_tsc]
    have hkC : (if 1 < k2 then k2 else 1) ≤ numC := by
      calc (if 1 < k2 then k2 else 1)
          ≤ (List.range numC).countP (fun c => !s.IF_row_pruned c) := hk2
        _ ≤ (List.range numC).length := List.countP_le_length _
        _ = numC := List.length_range numC
    have hcount2 : (if 1 < k2 then k2 else 1) ≤
        tsorted.countP (fun p => decide (p.1 < INT_MAX)) := by
      rw [hperm2.countP_eq]
      rw [htsc]
      unfold taylorScoreList
      rw [List.countP_map]
      refine le_trans hk2 (List.countP_mono_left ?_)
      intro c hc hp
      have hc' := List.mem_range.mp hc
      have hfalse : s.IF_row_pruned c = false := by
        revert hp
        cases s.IF_row_pruned c <;> simp
      show decide (taylorScore num numC numH numW topData topDiff s c < INT_MAX) = true
      simpa using hscore2 c hc' hfalse
    have htake2 := take_fst_lt_of_countP hpw2 (if 1 < k2 then k2 else 1) hcount2
    have hsel2 : taylorPruneSelected num numC numH numW k2 topData topDiff s =
        (tsorted.take (if 1 < k2 then k2 else 1)).map Prod.snd := rfl
    have hsel_char2 : ∀ r ∈ taylorPruneSelected num numC numH numW k2 topData topDiff s,
        ∃ x ∈ tsorted.take (if 1 < k2 then k2 else 1), x.2 = r ∧
          x.1 = taylorScore num numC numH numW topData topDiff s r ∧
          r < numC ∧ s.IF_row_pruned r = false := by
      intro r hr
      rw [hsel2] at hr
      rcases List.mem_map.mp hr with ⟨x, hx, rfl⟩
      have hx_sorted : x ∈ tsorted :=
        List.take_subset (if 1 < k2 then k2 else 1) tsorted hx
      have hx_scores : x ∈ tscores := (List.mem_insertionSort pairLe).mp hx_sorted
      have hchar := mem_taylorScoreList num numC numH numW topData topDiff s hx_scores
      have hlt := htake2 x hx
      have hfalse : s.IF_row_pruned x.2 = false := by
        by_contra hcon
        have htrue : s.IF_row_pruned x.2 = true := by
          revert hcon
          cases s.IF_row_pruned x.2 <;> simp
        rw [hchar.2] at hlt
        unfold taylorScore at hlt
        rw [if_pos htrue] at hlt
        exact lt_irrefl _ hlt
      exact ⟨x, hx, rfl, hchar.2, hchar.1, hfalse⟩
    refine ⟨?_, ?_, ?_, ?_, ?_⟩
    · rw [hsel2, List.length_map, List.length_take, hlen_tsorted]
      omega
    · intro r hr
      rcases hsel_char2 r hr with ⟨x, _, _, _, h4, h5⟩
      exact ⟨h4, h5⟩
    · intro r hr i hi hifalse hinot
      rcases hsel_char2 r hr with ⟨x, hx, hx2, hx1, _, _⟩
      have hy_scores : ((taylorScore num numC numH numW topData topDiff s i, i)
          : ℚ × ℕ) ∈ tscores := by
        rw [htsc]
        unfold taylorScoreList
        exact List.mem_map.mpr ⟨i, List.mem_range.mpr hi, rfl⟩
      have hy_sorted : ((taylorScore num numC numH numW topData topDiff s i, i)
          : ℚ × ℕ) ∈ tsorted :=
        (List.mem_insertionSort pairLe).mpr hy_scores
      have hy_split : ((taylorScore num numC numH numW topData topDiff s i, i)
            : ℚ × ℕ) ∈ tsorted.take (if 1 < k2 then k2 else 1) ∨
          ((taylorScore num numC numH numW topData topDiff s i, i)
            : ℚ × ℕ) ∈ tsorted.drop (if 1 < k2 then k2 else 1) := by
        rw [← List.mem_append, List.take_append_drop]
        exact hy_sorted
      rcases hy_split with hy | hy
      · exfalso
        apply hinot
        rw [hsel2]
        exact List.mem_map.mpr ⟨_, hy, rfl⟩
      · have hle := sorted_take_le_drop hpw2 (if 1 < k2 then k2 else 1) hx hy
        have := pairLe_fst hle
        rw [hx1] at this
        exact this
    · intro c hc
      exact foldl_pruneRowTP_mem numCol _ c hc s
    · show ((taylorPruneSelected num numC numH numW k2 topData topDiff s).foldl
        (pruneRowTP numCol) s).num_pruned_row = _
      rw [foldl_pruneRowTP_npr, hsel2, List.length_map, List.length_take, hlen_tsorted]
      congr 1
      omega

/-- The claim's hard top-k scenario: a 4 by 3 weight tensor whose row L1 scores
are 0.1, 0.5, 0.05, 0.9. -/
def stC1w : PruneState :=
  { PruneState.base with
    weight := fun e => [1/10, 0, 0, 1/2, 0, 0, 1/20, 0, 0, 9/10, 0, 0].getD e 0 }

/-- Witness for C1 at the claim's concrete scenario: with prune-at-once count 1,
one `FilterPrune` pass selects row 2 (score 0.05, lowest), flags it, zeroes it
(shown at flat index 6), counts it, and enqueues it; a `TaylorPrune` pass on
the same state (one 1x4x1x1 top blob with unit data and diff) selects channel
0, flags it and counts it. -/
theorem FilterPrune_prunes_lowest_rows_witness :
    filterPruneSelected 4 3 1 stC1w = [2] ∧
    (FilterPrune 4 3 1 false stC1w).IF_row_pruned 2 = true ∧
    (FilterPrune 4 3 1 false stC1w).num_pruned_row = 1 ∧
    (FilterPrune 4 3 1 false stC1w).weight 6 = 0 ∧
    (FilterPrune 4 3 1 false stC1w).pruned_rows = [2] ∧
    taylorPruneSelected 1 4 1 1 1 (fun _ => 1) (fun _ => 1) stC1w = [0] ∧
    (TaylorPrune 1 4 1 1 3 1 (fun _ => 1) (fun _ => 1) stC1w).IF_row_pruned 0 = true ∧
    (TaylorPrune 1 4 1 1 3 1 (fun _ => 1) (fun _ => 1) stC1w).num_pruned_row = 1 := by
  have h := FilterPrune_prunes_lowest_rows 4 3 1 false stC1w (by decide)
    (of_decide_eq_true (by with_unfolding_all rfl))
  have hsel : filterPruneSelected 4 3 1 stC1w = [2] := by with_unfolding_all rfl
  have hm : (2 : ℕ) ∈ filterPruneSelected 4 3 1 stC1w := by
    rw [hsel]
    exact List.mem_singleton.mpr rfl
  have hT := h.2.2.2.2.2.2.2 1 4 1 1 1 (fun _ => 1) (fun _ => 1)
    (of_decide_eq_true (by with_unfolding_all rfl))
    (of_decide_eq_true (by with_unfolding_all rfl))
  have hselT : taylorPruneSelected 1 4 1 1 1 (fun _ => 1) (fun _ => 1) stC1w = [0] := by
    with_unfolding_all rfl
  have hmT : (0 : ℕ) ∈ taylorPruneSelected 1 4 1 1 1 (fun _ => 1) (fun _ => 1) stC1w := by
    rw [hselT]
    exact List.mem_singleton.mpr rfl
  refine ⟨hsel, (h.2.2.2.1 2 hm).1, ?_,
    ((h.2.2.2.1 2 hm).2 6 (by decide) (by decide)).1, ?_,
    hselT, (hT.2.2.2.1 0 hmT).1, ?_⟩
  · rw [h.2.2.2.2.1]
    rfl
  · rw [h.2.2.2.2.2.1, hsel]
    rfl
  · rw [hT.2.2.2.2]
    rfl

/-- State refuting the TaylorPrune half of C1 as stated: a 2 by 1 weight tensor
with nonzero weights, not the last registered layer. -/
def stC1c : PruneState := { PruneState.base with weight := fun _ => 5 }

/-- Counterexample to C1 as stated: `TaylorPrune` (one top blob of shape
1 x 2 x 1 x 1, channel scores 1 and 2, prune-at-once count 1) prunes row 0 —
flag set, counter incremented — yet appends nothing to `pruned_rows`, whatever
the layer position: the append is commented out in the source
(conv_layer.cpp:268-270), so the claimed enqueue never happens. -/
theorem TaylorPrune_queue_counterexample :
    (TaylorPrune 1 2 1 1 1 1 (fun _ => 1) (fun e => if e = 0 then 1 else 2)
      stC1c).IF_row_pruned 0 = true ∧
    (TaylorPrune 1 2 1 1 1 1 (fun _ => 1) (fun e => if e = 0 then 1 else 2)
      stC1c).num_pruned_row = 1 ∧
    (TaylorPrune 1 2 1 1 1 1 (fun _ => 1) (fun e => if e = 0 then 1 else 2)
      stC1c).pruned_rows = [] := by
  refine ⟨of_decide_eq_true (by with_unfolding_all rfl),
    of_decide_eq_true (by with_unfolding_all rfl), by with_unfolding_all rfl⟩

/-! ### PruneMinimals (claim C6)

`ConvolutionLayer::PruneMinimals` (conv_layer.cpp:681-711) and
`InnerProductLayer::PruneMinimals` (inner_product_layer.cpp:447-514). -/

/-- Row-major index decomposition: two in-range column offsets agreeing on the
flat index agree on both coordinates. -/
theorem colIdx_inj (numCol i i2 j j' : ℕ) (hj : j < numCol) (hj' : j' < numCol)
    (h : i * numCol + j = i2 * numCol + j') : j = j' ∧ i = i2 := by
  have hmod : ∀ a b : ℕ, b < numCol → (a * numCol + b) % numCol = b := by
    intro a b hb
    rw [Nat.add_comm, Nat.add_mul_mod_self_right, Nat.mod_eq_of_lt hb]
  have hjj : j = j' := by
    have h2 := congrArg (fun x => x % numCol) h
    simpa [hmod i j hj, hmod i2 j' hj'] using h2
  subst hjj
  have hii : i * numCol = i2 * numCol := by omega
  exact ⟨rfl, Nat.eq_of_mul_eq_mul_right (by omega) hii⟩

/-- The column-zeroing membership test accepts the column's own indices. -/
theorem col_any_intro (numRow numCol i j : ℕ) (hi : i < numRow) :
    ((List.range numRow).any fun i2 => (i * numCol + j : ℕ) == i2 * numCol + j) = true := by
  rw [List.any_eq_true]
  exact ⟨i, List.mem_range.mpr hi, by simp⟩

/-- The column-zeroing membership test rejects indices of other columns. -/
theorem col_any_ne (numRow numCol i j a : ℕ) (hj : j < numCol) (ha : a < numCol)
    (hne : j ≠ a) :
    ((List.range numRow).any fun i2 => (i * numCol + j : ℕ) == i2 * numCol + a) = false := by
  rw [List.any_eq_false]
  intro i2 _
  simp only [beq_iff_eq]
  intro hco
  exact hne (colIdx_inj numCol i i2 j a hj ha hco).1

/-- Column L1 sums agree on tensors agreeing on that column. -/
theorem colAbsSum_congr (numRow numCol : ℕ) (w w' : ℕ → ℚ) (j : ℕ)
    (h : ∀ i, w (i * numCol + j) = w' (i * numCol + j)) :
    colAbsSum numRow numCol w j = colAbsSum numRow numCol w' j := by
  unfold colAbsSum
  congr 1
  apply List.map_congr_left
  intro i _
  rw [h i]

/-- Row L1 sums agree on tensors agreeing on that row. -/
theorem rowAbsSum_congr (numCol : ℕ) (w w' : ℕ → ℚ) (i : ℕ)
    (h : ∀ j < numCol, w (i * numCol + j) = w' (i * numCol + j)) :
    rowAbsSum numCol w i = rowAbsSum numCol w' i := by
  unfold rowAbsSum
  congr 1
  apply List.map_congr_left
  intro j hj
  rw [h j (List.mem_range.mp hj)]

/-- The pruning condition of the column branches of `PruneMinimals`: average
absolute column magnitude below the threshold, or accumulated regularization at
or above the target. -/
def convPMcond (numRow numCol : ℕ) (thr target : ℚ) (s : PruneState) (j : ℕ) : Prop :=
  colAbsSum numRow numCol s.weight j / (numRow : ℚ) < thr ∨ target ≤ s.history_reg j

instance convPMcond_dec (numRow numCol : ℕ) (thr target : ℚ) (s : PruneState) (j : ℕ) :
    Decidable (convPMcond numRow numCol thr target s j) :=
  decidable_of_iff (colAbsSum numRow numCol s.weight j / (numRow : ℚ) < thr ∨
    target ≤ s.history_reg j) Iff.rfl

/-- Body of `ConvolutionLayer::PruneMinimals` (conv_layer.cpp:690-709) for one
column `j`: skip already-pruned columns; otherwise prune when the average
absolute magnitude is below `APP::prune_threshold` or `history_reg` has reached
`APP::target_reg`, zeroing the column, clearing its masks, counting it, setting
the per-group flags, and stamping
`history_rank[j] = step_ - 1000000 - (history_reg[j] - target_reg)`. -/
def convPruneMinStep (numRow numCol group : ℕ) (thr target : ℚ) (stp : ℤ)
    (s : PruneState) (j : ℕ) : PruneState :=
  if s.IF_col_pruned j 0 then s
  else if colAbsSum numRow numCol s.weight j / (numRow : ℚ) < thr ∨
      target ≤ s.history_reg j then
    { s with
      weight := fun e =>
        if (List.range numRow).any (fun i => e == i * numCol + j) then 0 else s.weight e
      masks := fun e =>
        if (List.range numRow).any (fun i => e == i * numCol + j) then false else s.masks e
      num_pruned_col := s.num_pruned_col + 1
      IF_col_pruned := fun j2 g => if j2 = j ∧ g < group then true else s.IF_col_pruned j2 g
      history_rank := fun j2 =>
        if j2 = j then (stp : ℚ) - 1000000 - (s.history_reg j - target)
        else s.history_rank j2 }
  else s

/-- Embedding of `ConvolutionLayer::PruneMinimals`. -/
def ConvPruneMinimals (numRow numCol group : ℕ) (thr target : ℚ) (stp : ℤ)
    (s : PruneState) : PruneState :=
  (List.range numCol).foldl (convPruneMinStep numRow numCol group thr target stp) s

/-- A `PruneMinimals` step at another column leaves this column's weights,
masks, flags, regularization and rank untouched. -/
theorem convPM_step_frame (numRow numCol group : ℕ) (thr target : ℚ) (stp : ℤ)
    (t : PruneState) (a j : ℕ) (hj : j < numCol) (ha : a < numCol) (hne : j ≠ a) :
    (∀ i, (convPruneMinStep numRow numCol group thr target stp t a).weight (i * numCol + j) =
      t.weight (i * numCol + j)) ∧
    (∀ i, (convPruneMinStep numRow numCol group thr target stp t a).masks (i * numCol + j) =
      t.masks (i * numCol + j)) ∧
    (∀ g, (convPruneMinStep numRow numCol group thr target stp t a).IF_col_pruned j g =
      t.IF_col_pruned j g) ∧
    (convPruneMinStep numRow numCol group thr target stp t a).history_reg j =
      t.history_reg j ∧
    (convPruneMinStep numRow numCol group thr target stp t a).history_rank j =
      t.history_rank j := by
  unfold convPruneMinStep
  split
  · exact ⟨fun _ => rfl, fun _ => rfl, fun _ => rfl, rfl, rfl⟩
  · split
    · dsimp only
      refine ⟨fun i => ?_, fun i => ?_, fun g => ?_, rfl, ?_⟩
      · simp [col_any_ne numRow numCol i j a hj ha hne]
      · simp [col_any_ne numRow numCol i j a hj ha hne]
      · rw [if_neg]
        rintro ⟨h, _⟩
        exact hne h
      · rw [if_neg hne]
    · exact ⟨fun _ => rfl, fun _ => rfl, fun _ => rfl, rfl, rfl⟩

/-- Folding `PruneMinimals` over columns other than `j` leaves column `j`
untouched. -/
theorem convPM_fold_frame (numRow numCol group : ℕ) (thr target : ℚ) (stp : ℤ)
    (l : List ℕ) : ∀ (t : PruneState) (j : ℕ), j < numCol → (∀ a ∈ l, a < numCol) →
    j ∉ l →
    (∀ i, (l.foldl (convPruneMinStep numRow numCol group thr target stp) t).weight
      (i * numCol + j) = t.weight (i * numCol + j)) ∧
    (∀ i, (l.foldl (convPruneMinStep numRow numCol group thr target stp) t).masks
      (i * numCol + j) = t.masks (i * numCol + j)) ∧
    (∀ g, (l.foldl (convPruneMinStep numRow numCol group thr target stp) t).IF_col_pruned
      j g = t.IF_col_pruned j g) ∧
    (l.foldl (convPruneMinStep numRow numCol group thr target stp) t).history_reg j =
      t.history_reg j ∧
    (l.foldl (convPruneMinStep numRow numCol group thr target stp) t).history_rank j =
      t.history_rank j := by
  induction l with
  | nil =>
    intro t j _ _ _
    exact ⟨fun _ => rfl, fun _ => rfl, fun _ => rfl, rfl, rfl⟩
  | cons a rest ih =>
    intro t j hj hb hnotin
    have hne : j ≠ a := fun h => hnotin (h ▸ List.mem_cons_self a rest)
    have ha : a < numCol := hb a (List.mem_cons_self a rest)
    have hstep := convPM_step_frame numRow numCol group thr target stp t a j hj ha hne
    have hrest := ih (convPruneMinStep numRow numCol group thr target stp t a) j hj
      (fun x hx => hb x (List.mem_cons_of_mem a hx))
      (fun hx => hnotin (List.mem_cons_of_mem a hx))
    rw [List.foldl_cons]
    exact ⟨fun i => (hrest.1 i).trans (hstep.1 i),
      fun i => (hrest.2.1 i).trans (hstep.2.1 i),
      fun g => (hrest.2.2.1 g).trans (hstep.2.2.1 g),
      hrest.2.2.2.1.trans hstep.2.2.2.1,
      hrest.2.2.2.2.trans hstep.2.2.2.2⟩

/-- Main induction for the column branch of `PruneMinimals`: over any nodup
list of in-range columns, starting from a state agreeing with `s` on the listed
columns, each listed not-yet-pruned column ends pruned if and only if the
threshold-or-target condition holds on `s`, with the claimed effects, and the
counter grows by the number of newly pruned listed columns. -/
theorem convPM_fold (numRow numCol group : ℕ) (thr target : ℚ) (stp : ℤ) (hg : 0 < group)
    (s : PruneState) (l : List ℕ) :
    ∀ t : PruneState, (∀ j ∈ l, j < numCol) → l.Nodup →
      (∀ j ∈ l, (∀ i, t.weight (i * numCol + j) = s.weight (i * numCol + j)) ∧
        t.IF_col_pruned j 0 = s.IF_col_pruned j 0 ∧
        t.history_reg j = s.history_reg j) →
      ((∀ j ∈ l, s.IF_col_pruned j 0 = false →
        (((l.foldl (convPruneMinStep numRow numCol group thr target stp) t).IF_col_pruned
            j 0 = true) ↔ convPMcond numRow numCol thr target s j) ∧
        (convPMcond numRow numCol thr target s j →
          (∀ i < numRow,
            (l.foldl (convPruneMinStep numRow numCol group thr target stp) t).weight
              (i * numCol + j) = 0 ∧
            (l.foldl (convPruneMinStep numRow numCol group thr target stp) t).masks
              (i * numCol + j) = false) ∧
          (∀ g < group,
            (l.foldl (convPruneMinStep numRow numCol group thr target stp) t).IF_col_pruned
              j g = true) ∧
          (l.foldl (convPruneMinStep numRow numCol group thr target stp) t).history_rank j =
            (stp : ℚ) - 1000000 - (s.history_reg j - target))) ∧
      (l.foldl (convPruneMinStep numRow numCol group thr target stp) t).num_pruned_col =
        t.num_pruned_col + ((l.countP fun j => !s.IF_col_pruned j 0 &&
          decide (convPMcond numRow numCol thr target s j)) : ℚ)) := by
  induction l with
  | nil =>
    intro t _ _ _
    exact ⟨fun j hj => absurd hj (List.not_mem_nil j), by simp⟩
  | cons a rest ih =>
    intro t hb hnd hinv
    have ha : a < numCol := hb a (List.mem_cons_self a rest)
    have hinv_a := hinv a (List.mem_cons_self a rest)
    have hnd' := List.nodup_cons.mp hnd
    have hb' : ∀ x ∈ rest, x < numCol := fun x hx => hb x (List.mem_cons_of_mem a hx)
    have hcond_eq : (colAbsSum numRow numCol t.weight a / (numRow : ℚ) < thr ∨
        target ≤ t.history_reg a) ↔ convPMcond numRow numCol thr target s a := by
      unfold convPMcond
      rw [colAbsSum_congr numRow numCol t.weight s.weight a hinv_a.1, hinv_a.2.2]
    rw [List.foldl_cons]
    by_cases h1 : t.IF_col_pruned a 0 = true
    · -- column already pruned: step is a no-op and it is not counted
      have hs1 : s.IF_col_pruned a 0 = true := hinv_a.2.1.symm.trans h1
      have ht1 : convPruneMinStep numRow numCol group thr target stp t a = t := by
        unfold convPruneMinStep
        rw [if_pos h1]
      rw [ht1]
      have hrest := ih t hb' hnd'.2 (fun x hx => hinv x (List.mem_cons_of_mem a hx))
      refine ⟨?_, ?_⟩
      · intro j hj hjf
        rcases List.mem_cons.mp hj with rfl | hj'
        · rw [hjf] at hs1
          cases hs1
        · exact hrest.1 j hj' hjf
      · rw [hrest.2, List.countP_cons]
        have hpa : (!s.IF_col_pruned a 0 &&
            decide (convPMcond numRow numCol thr target s a)) = false := by
          rw [hs1]
          rfl
        rw [hpa]
        simp
    · have h1f : t.IF_col_pruned a 0 = false := by
        revert h1
        cases t.IF_col_pruned a 0 <;> simp
      have hs1 : s.IF_col_pruned a 0 = false := hinv_a.2.1.symm.trans h1f
      by_cases hc : convPMcond numRow numCol thr target s a
      · -- the condition fires: column a is pruned by its own step
        have hcl : colAbsSum numRow numCol t.weight a / (numRow : ℚ) < thr ∨
            target ≤ t.history_reg a := hcond_eq.mpr hc
        have hstep_eq : convPruneMinStep numRow numCol group thr target stp t a =
            { t with
              weight := fun e =>
                if (List.range numRow).any (fun i => e == i * numCol + a) then 0
                else t.weight e
              masks := fun e =>
                if (List.range numRow).any (fun i => e == i * numCol + a) then false
                else t.masks e
              num_pruned_col := t.num_pruned_col + 1
              IF_col_pruned := fun j2 g =>
                if j2 = a ∧ g < group then true else t.IF_col_pruned j2 g
              history_rank := fun j2 =>
                if j2 = a then (stp : ℚ) - 1000000 - (t.history_reg a - target)
                else t.history_rank j2 } := by
          unfold convPruneMinStep
          rw [if_neg (by rw [h1f]; exact Bool.false_ne_true), if_pos hcl]
        have hinv1 : ∀ x ∈ rest,
            (∀ i, (convPruneMinStep numRow numCol group thr target stp t a).weight
              (i * numCol + x) = s.weight (i * numCol + x)) ∧
            (convPruneMinStep numRow numCol group thr target stp t a).IF_col_pruned x 0 =
              s.IF_col_pruned x 0 ∧
            (convPruneMinStep numRow numCol group thr target stp t a).history_reg x =
              s.history_reg x := by
          intro x hx
          have hxne : x ≠ a := fun h => hnd'.1 (h ▸ hx)
          have hfr := convPM_step_frame numRow numCol group thr target stp t a x
            (hb' x hx) ha hxne
          have hix := hinv x (List.mem_cons_of_mem a hx)
          exact ⟨fun i => (hfr.1 i).trans (hix.1 i),
            (hfr.2.2.1 0).trans hix.2.1, hfr.2.2.2.1.trans hix.2.2⟩
        have hrest := ih (convPruneMinStep numRow numCol group thr target stp t a)
          hb' hnd'.2 hinv1
        have hframe := convPM_fold_frame numRow numCol group thr target stp rest
          (convPruneMinStep numRow numCol group thr target stp t a) a ha hb' hnd'.1
        refine ⟨?_, ?_⟩
        · intro j hj hjf
          rcases List.mem_cons.mp hj with rfl | hj'
          · refine ⟨⟨fun _ => hc, fun _ => ?_⟩, fun _ => ⟨fun i hi => ⟨?_, ?_⟩,
              fun g hgg => ?_, ?_⟩⟩
            · rw [hframe.2.2.1 0, hstep_eq]
              show (if j = j ∧ 0 < group then true else t.IF_col_pruned j 0) = true
              rw [if_pos ⟨rfl, hg⟩]
            · rw [hframe.1 i, hstep_eq]
              show (if (List.range numRow).any (fun i2 => i * numCol + j == i2 * numCol + j)
                then (0 : ℚ) else t.weight (i * numCol + j)) = 0
              rw [col_any_intro numRow numCol i j hi]
              rfl
            · rw [hframe.2.1 i, hstep_eq]
              show (if (List.range numRow).any (fun i2 => i * numCol + j == i2 * numCol + j)
                then false else t.masks (i * numCol + j)) = false
              rw [col_any_intro numRow numCol i j hi]
              rfl
            · rw [hframe.2.2.1 g, hstep_eq]
              show (if j = j ∧ g < group then true else t.IF_col_pruned j g) = true
              rw [if_pos ⟨rfl, hgg⟩]
            · rw [hframe.2.2.2.2, hstep_eq]
              show (if j = j then (stp : ℚ) - 1000000 - (t.history_reg j - target)
                else t.history_rank j) = _
              rw [if_pos rfl, hinv_a.2.2]
          · exact hrest.1 j hj' hjf
        · rw [hrest.2, List.countP_cons]
          have hpa : (!s.IF_col_pruned a 0 &&
              decide (convPMcond numRow numCol thr target s a)) = true := by
            rw [hs1, decide_eq_true hc]
            rfl
          rw [hpa, hstep_eq]
          show t.num_pruned_col + 1 + _ = _
          rw [if_pos rfl]
          push_cast
          ring
      · -- the condition does not fire: column a is left untouched and uncounted
        have hcl : ¬(colAbsSum numRow numCol t.weight a / (numRow : ℚ) < thr ∨
            target ≤ t.history_reg a) := fun h => hc (hcond_eq.mp h)
        have ht1 : convPruneMinStep numRow numCol group thr target stp t a = t := by
          unfold convPruneMinStep
          rw [if_neg (by rw [h1f]; exact Bool.false_ne_true), if_neg hcl]
        rw [ht1]
        have hrest := ih t hb' hnd'.2 (fun x hx => hinv x (List.mem_cons_of_mem a hx))
        have hframe := convPM_fold_frame numRow numCol group thr target stp rest t a
          ha hb' hnd'.1
        refine ⟨?_, ?_⟩
        · intro j hj hjf
          rcases List.mem_cons.mp hj with rfl | hj'
          · refine ⟨⟨fun hflag => ?_, fun hcc => absurd hcc hc⟩,
              fun hcc => absurd hcc hc⟩
            exfalso
            rw [hframe.2.2.1 0, h1f] at hflag
            cases hflag
          · exact hrest.1 j hj' hjf
        · rw [hrest.2, List.countP_cons]
          have hpa : (!s.IF_col_pruned a 0 &&
              decide (convPMcond numRow numCol thr target s a)) = false := by
            rw [decide_eq_false hc, Bool.and_false]
          rw [hpa]
          simp

/-- Pruning condition of the Weight branch of `InnerProductLayer::PruneMinimals`
(inner_product_layer.cpp:460): single-weight magnitude below the threshold, or
regularization at target. -/
def ipPMcondW (thr target : ℚ) (s : PruneState) (i : ℕ) : Prop :=
  |s.weight i| < thr ∨ target ≤ s.history_reg i

instance ipPMcondW_dec (thr target : ℚ) (s : PruneState) (i : ℕ) :
    Decidable (ipPMcondW thr target s i) :=
  decidable_of_iff (|s.weight i| < thr ∨ target ≤ s.history_reg i) Iff.rfl

/-- Body of the Weight branch of `InnerProductLayer::PruneMinimals`
(inner_product_layer.cpp:457-468) for one weight index `i`: prune it, count it,
flag it, and stamp both `history_rank` and `hhistory_rank`. -/
def ipPruneMinWeightStep (thr target : ℚ) (stp : ℤ) (s : PruneState) (i : ℕ) : PruneState :=
  if s.IF_weight_pruned i then s
  else if |s.weight i| < thr ∨ target ≤ s.history_reg i then
    { s with
      weight := fun e => if e = i then 0 else s.weight e
      masks := fun e => if e = i then false else s.masks e
      num_pruned_weight := s.num_pruned_weight + 1
      IF_weight_pruned := fun e => if e = i then true else s.IF_weight_pruned e
      history_rank := fun e =>
        if e = i then (stp : ℚ) - 1000000 - (s.history_reg i - target)
        else s.history_rank e
      hhistory_rank := fun e =>
        if e = i then (stp : ℚ) - 1000000 - (s.history_reg i - target)
        else s.hhistory_rank e }
  else s

/-- Body of the Col branch of `InnerProductLayer::PruneMinimals`
(inner_product_layer.cpp:469-493) for one column `j`: identical to the
convolution version except that only the group-0 flag is set. -/
def ipPruneMinColStep (numRow numCol : ℕ) (thr target : ℚ) (stp : ℤ)
    (s : PruneState) (j : ℕ) : PruneState :=
  if s.IF_col_pruned j 0 then s
  else if colAbsSum numRow numCol s.weight j / (numRow : ℚ) < thr ∨
      target ≤ s.history_reg j then
    { s with
      weight := fun e =>
        if (List.range numRow).any (fun i => e == i * numCol + j) then 0 else s.weight e
      masks := fun e =>
        if (List.range numRow).any (fun i => e == i * numCol + j) then false else s.masks e
      num_pruned_col := s.num_pruned_col + 1
      IF_col_pruned := fun j2 g => if j2 = j ∧ g = 0 then true else s.IF_col_pruned j2 g
      history_rank := fun j2 =>
        if j2 = j then (stp : ℚ) - 1000000 - (s.history_reg j - target)
        else s.history_rank j2 }
  else s

/-- Pruning condition of the Row branch of `InnerProductLayer::PruneMinimals`
(inner_product_layer.cpp:502). -/
def ipPMcondR (numCol : ℕ) (thr target : ℚ) (s : PruneState) (i : ℕ) : Prop :=
  rowAbsSum numCol s.weight i / (numCol : ℚ) < thr ∨ target ≤ s.history_reg i

instance ipPMcondR_dec (numCol : ℕ) (thr target : ℚ) (s : PruneState) (i : ℕ) :
    Decidable (ipPMcondR numCol thr target s i) :=
  decidable_of_iff (rowAbsSum numCol s.weight i / (numCol : ℚ) < thr ∨
    target ≤ s.history_reg i) Iff.rfl

/-- Body of the Row branch of `InnerProductLayer::PruneMinimals`
(inner_product_layer.cpp:494-512) for one row `i`: zero and flag the row, count
it, push it onto the cross-layer queue, and stamp `history_rank`. -/
def ipPruneMinRowStep (numCol : ℕ) (thr target : ℚ) (stp : ℤ)
    (s : PruneState) (i : ℕ) : PruneState :=
  if s.IF_row_pruned i then s
  else if rowAbsSum numCol s.weight i / (numCol : ℚ) < thr ∨
      target ≤ s.history_reg i then
    { s with
      weight := fun e => if i * numCol ≤ e ∧ e < i * numCol + numCol then 0 else s.weight e
      masks := fun e => if i * numCol ≤ e ∧ e < i * numCol + numCol then false else s.masks e
      num_pruned_row := s.num_pruned_row + 1
      IF_row_pruned := fun i2 => if i2 = i then true else s.IF_row_pruned i2
      pruned_rows := s.pruned_rows ++ [i]
      history_rank := fun i2 =>
        if i2 = i then (stp : ℚ) - 1000000 - (s.history_reg i - target)
        else s.history_rank i2 }
  else s

/-- Embedding of `InnerProductLayer::PruneMinimals`
(inner_product_layer.cpp:447-514), dispatching on `APP::prune_unit`. -/
def IpPruneMinimals (numRow numCol : ℕ) (unit : PruneUnit) (thr target : ℚ) (stp : ℤ)
    (s : PruneState) : PruneState :=
  match unit with
  | PruneUnit.Weight =>
    (List.range (numRow * numCol)).foldl (ipPruneMinWeightStep thr target stp) s
  | PruneUnit.Col =>
    (List.range numCol).foldl (ipPruneMinColStep numRow numCol thr target stp) s
  | PruneUnit.Row =>
    (List.range numRow).foldl (ipPruneMinRowStep numCol thr target stp) s

/-- A Weight-branch step at another index touches nothing of this index. -/
theorem ipPMW_step_frame (thr target : ℚ) (stp : ℤ) (t : PruneState) (a i : ℕ)
    (hne : i ≠ a) :
    (ipPruneMinWeightStep thr target stp t a).weight i = t.weight i ∧
    (ipPruneMinWeightStep thr target stp t a).masks i = t.masks i ∧
    (ipPruneMinWeightStep thr target stp t a).IF_weight_pruned i = t.IF_weight_pruned i ∧
    (ipPruneMinWeightStep thr target stp t a).history_reg i = t.history_reg i ∧
    (ipPruneMinWeightStep thr target stp t a).history_rank i = t.history_rank i := by
  unfold ipPruneMinWeightStep
  split
  · exact ⟨rfl, rfl, rfl, rfl, rfl⟩
  · split
    · dsimp only
      exact ⟨by rw [if_neg hne], by rw [if_neg hne], by rw [if_neg hne], rfl,
        by rw [if_neg hne]⟩
    · exact ⟨rfl, rfl, rfl, rfl, rfl⟩

/-- Folding the Weight branch over other indices leaves this index untouched. -/
theorem ipPMW_fold_frame (thr target : ℚ) (stp : ℤ) (l : List ℕ) :
    ∀ (t : PruneState) (i : ℕ), i ∉ l →
    (l.foldl (ipPruneMinWeightStep thr target stp) t).weight i = t.weight i ∧
    (l.foldl (ipPruneMinWeightStep thr target stp) t).masks i = t.masks i ∧
    (l.foldl (ipPruneMinWeightStep thr target stp) t).IF_weight_pruned i =
      t.IF_weight_pruned i ∧
    (l.foldl (ipPruneMinWeightStep thr target stp) t).history_reg i = t.history_reg i ∧
    (l.foldl (ipPruneMinWeightStep thr target stp) t).history_rank i = t.history_rank i := by
  induction l with
  | nil => intro t i _; exact ⟨rfl, rfl, rfl, rfl, rfl⟩
  | cons a rest ih =>
    intro t i hnotin
    have hne : i ≠ a := fun h => hnotin (h ▸ List.mem_cons_self a rest)
    have hstep := ipPMW_step_frame thr target stp t a i hne
    have hrest := ih (ipPruneMinWeightStep thr target stp t a) i
      (fun hx => hnotin (List.mem_cons_of_mem a hx))
    rw [List.foldl_cons]
    exact ⟨hrest.1.trans hstep.1, hrest.2.1.trans hstep.2.1,
      hrest.2.2.1.trans hstep.2.2.1, hrest.2.2.2.1.trans hstep.2.2.2.1,
      hrest.2.2.2.2.trans hstep.2.2.2.2⟩

/-- A Col-branch step at another column leaves this column untouched. -/
theorem ipPMC_step_frame (numRow numCol : ℕ) (thr target : ℚ) (stp : ℤ)
    (t : PruneState) (a j : ℕ) (hj : j < numCol) (ha : a < numCol) (hne : j ≠ a) :
    (∀ i, (ipPruneMinColStep numRow numCol thr target stp t a).weight (i * numCol + j) =
      t.weight (i * numCol + j)) ∧
    (∀ i, (ipPruneMinColStep numRow numCol thr target stp t a).masks (i * numCol + j) =
      t.masks (i * numCol + j)) ∧
    (∀ g, (ipPruneMinColStep numRow numCol thr target stp t a).IF_col_pruned j g =
      t.IF_col_pruned j g) ∧
    (ipPruneMinColStep numRow numCol thr target stp t a).history_reg j = t.history_reg j ∧
    (ipPruneMinColStep numRow numCol thr target stp t a).history_rank j =
      t.history_rank j := by
  unfold ipPruneMinColStep
  split
  · exact ⟨fun _ => rfl, fun _ => rfl, fun _ => rfl, rfl, rfl⟩
  · split
    · dsimp only
      refine ⟨fun i => ?_, fun i => ?_, fun g => ?_, rfl, ?_⟩
      · simp [col_any_ne numRow numCol i j a hj ha hne]
      · simp [col_any_ne numRow numCol i j a hj ha hne]
      · rw [if_neg]
        rintro ⟨h, _⟩
        exact hne h
      · rw [if_neg hne]
    · exact ⟨fun _ => rfl, fun _ => rfl, fun _ => rfl, rfl, rfl⟩

/-- Folding the Col branch over other columns leaves this column untouched. -/
theorem ipPMC_fold_frame (numRow numCol : ℕ) (thr target : ℚ) (stp : ℤ) (l : List ℕ) :
    ∀ (t : PruneState) (j : ℕ), j < numCol → (∀ a ∈ l, a < numCol) → j ∉ l →
    (∀ i, (l.foldl (ipPruneMinColStep numRow numCol thr target stp) t).weight
      (i * numCol + j) = t.weight (i * numCol + j)) ∧
    (∀ i, (l.foldl (ipPruneMinColStep numRow numCol thr target stp) t).masks
      (i * numCol + j) = t.masks (i * numCol + j)) ∧
    (∀ g, (l.foldl (ipPruneMinColStep numRow numCol thr target stp) t).IF_col_pruned j g =
      t.IF_col_pruned j g) ∧
    (l.foldl (ipPruneMinColStep numRow numCol thr target stp) t).history_reg j =
      t.history_reg j ∧
    (l.foldl (ipPruneMinColStep numRow numCol thr target stp) t).history_rank j =
      t.history_rank j := by
  induction l with
  | nil =>
    intro t j _ _ _
    exact ⟨fun _ => rfl, fun _ => rfl, fun _ => rfl, rfl, rfl⟩
  | cons a rest ih =>
    intro t j hj hb hnotin
    have hne : j ≠ a := fun h => hnotin (h ▸ List.mem_cons_self a rest)
    have ha : a < numCol := hb a (List.mem_cons_self a rest)
    have hstep := ipPMC_step_frame numRow numCol thr target stp t a j hj ha hne
    have hrest := ih (ipPruneMinColStep numRow numCol thr target stp t a) j hj
      (fun x hx => hb x (List.mem_cons_of_mem a hx))
      (fun hx => hnotin (List.mem_cons_of_mem a hx))
    rw [List.foldl_cons]
    exact ⟨fun i => (hrest.1 i).trans (hstep.1 i),
      fun i => (hrest.2.1 i).trans (hstep.2.1 i),
      fun g => (hrest.2.2.1 g).trans (hstep.2.2.1 g),
      hrest.2.2.2.1.trans hstep.2.2.2.1,
      hrest.2.2.2.2.trans hstep.2.2.2.2⟩

/-- Disjointness of distinct row blocks. -/
theorem row_block_ne (numCol i a jj : ℕ) (hjj : jj < numCol) (hne : i ≠ a) :
    ¬(a * numCol ≤ i * numCol + jj ∧ i * numCol + jj < a * numCol + numCol) := by
  rintro ⟨h1, h2⟩
  rcases Nat.lt_or_ge a i with h | h
  · have hm : (a + 1) * numCol ≤ i * numCol := Nat.mul_le_mul_right _ h
    rw [Nat.succ_mul] at hm
    omega
  · rcases Nat.lt_or_ge i a with h' | h'
    · have hm : (i + 1) * numCol ≤ a * numCol := Nat.mul_le_mul_right _ h'
      rw [Nat.succ_mul] at hm
      omega
    · exact hne (Nat.le_antisymm h h')

/-- A Row-branch step at another row leaves this row untouched. -/
theorem ipPMR_step_frame (numCol : ℕ) (thr target : ℚ) (stp : ℤ)
    (t : PruneState) (a i : ℕ) (hne : i ≠ a) :
    (∀ jj < numCol, (ipPruneMinRowStep numCol thr target stp t a).weight
      (i * numCol + jj) = t.weight (i * numCol + jj)) ∧
    (∀ jj < numCol, (ipPruneMinRowStep numCol thr target stp t a).masks
      (i * numCol + jj) = t.masks (i * numCol + jj)) ∧
    (ipPruneMinRowStep numCol thr target stp t a).IF_row_pruned i = t.IF_row_pruned i ∧
    (ipPruneMinRowStep numCol thr target stp t a).history_reg i = t.history_reg i ∧
    (ipPruneMinRowStep numCol thr target stp t a).history_rank i = t.history_rank i := by
  unfold ipPruneMinRowStep
  split
  · exact ⟨fun _ _ => rfl, fun _ _ => rfl, rfl, rfl, rfl⟩
  · split
    · dsimp only
      refine ⟨fun jj hjj => ?_, fun jj hjj => ?_, ?_, rfl, ?_⟩
      · rw [if_neg (row_block_ne numCol i a jj hjj hne)]
      · rw [if_neg (row_block_ne numCol i a jj hjj hne)]
      · rw [if_neg hne]
      · rw [if_neg hne]
    · exact ⟨fun _ _ => rfl, fun _ _ => rfl, rfl, rfl, rfl⟩

/-- Folding the Row branch over other rows leaves this row untouched. -/
theorem ipPMR_fold_frame (numCol : ℕ) (thr target : ℚ) (stp : ℤ) (l : List ℕ) :
    ∀ (t : PruneState) (i : ℕ), i ∉ l →
    (∀ jj < numCol, (l.foldl (ipPruneMinRowStep numCol thr target stp) t).weight
      (i * numCol + jj) = t.weight (i * numCol + jj)) ∧
    (∀ jj < numCol, (l.foldl (ipPruneMinRowStep numCol thr target stp) t).masks
      (i * numCol + jj) = t.masks (i * numCol + jj)) ∧
    (l.foldl (ipPruneMinRowStep numCol thr target stp) t).IF_row_pruned i =
      t.IF_row_pruned i ∧
    (l.foldl (ipPruneMinRowStep numCol thr target stp) t).history_reg i =
      t.history_reg i ∧
    (l.foldl (ipPruneMinRowStep numCol thr target stp) t).history_rank i =
      t.history_rank i := by
  induction l with
  | nil => intro t i _; exact ⟨fun _ _ => rfl, fun _ _ => rfl, rfl, rfl, rfl⟩
  | cons a rest ih =>
    intro t i hnotin
    have hne : i ≠ a := fun h => hnotin (h ▸ List.mem_cons_self a rest)
    have hstep := ipPMR_step_frame numCol thr target stp t a i hne
    have hrest := ih (ipPruneMinRowStep numCol thr target stp t a) i
      (fun hx => hnotin (List.mem_cons_of_mem a hx))
    rw [List.foldl_cons]
    exact ⟨fun jj hjj => (hrest.1 jj hjj).trans (hstep.1 jj hjj),
      fun jj hjj => (hrest.2.1 jj hjj).trans (hstep.2.1 jj hjj),
      hrest.2.2.1.trans hstep.2.2.1, hrest.2.2.2.1.trans hstep.2.2.2.1,
      hrest.2.2.2.2.trans hstep.2.2.2.2⟩

/-- Main induction for the Weight branch of `InnerProductLayer::PruneMinimals`. -/
theorem ipPMW_fold (thr target : ℚ) (stp : ℤ) (s : PruneState) (l : List ℕ) :
    ∀ t : PruneState, l.Nodup →
      (∀ i ∈ l, t.weight i = s.weight i ∧ t.IF_weight_pruned i = s.IF_weight_pruned i ∧
        t.history_reg i = s.history_reg i) →
      ((∀ i ∈ l, s.IF_weight_pruned i = false →
        (((l.foldl (ipPruneMinWeightStep thr target stp) t).IF_weight_pruned i = true) ↔
          ipPMcondW thr target s i) ∧
        (ipPMcondW thr target s i →
          (l.foldl (ipPruneMinWeightStep thr target stp) t).weight i = 0 ∧
          (l.foldl (ipPruneMinWeightStep thr target stp) t).masks i = false ∧
          (l.foldl (ipPruneMinWeightStep thr target stp) t).history_rank i =
            (stp : ℚ) - 1000000 - (s.history_reg i - target))) ∧
      (l.foldl (ipPruneMinWeightStep thr target stp) t).num_pruned_weight =
        t.num_pruned_weight + l.countP (fun i => !s.IF_weight_pruned i &&
          decide (ipPMcondW thr target s i))) := by
  induction l with
  | nil =>
    intro t _ _
    exact ⟨fun i hi => absurd hi (List.not_mem_nil i), by simp⟩
  | cons a rest ih =>
    intro t hnd hinv
    have hinv_a := hinv a (List.mem_cons_self a rest)
    have hnd' := List.nodup_cons.mp hnd
    have hcond_eq : (|t.weight a| < thr ∨ target ≤ t.history_reg a) ↔
        ipPMcondW thr target s a := by
      unfold ipPMcondW
      rw [hinv_a.1, hinv_a.2.2]
    rw [List.foldl_cons]
    by_cases h1 : t.IF_weight_pruned a = true
    · have hs1 : s.IF_weight_pruned a = true := hinv_a.2.1.symm.trans h1
      have ht1 : ipPruneMinWeightStep thr target stp t a = t := by
        unfold ipPruneMinWeightStep
        rw [if_pos h1]
      rw [ht1]
      have hrest := ih t hnd'.2 (fun x hx => hinv x (List.mem_cons_of_mem a hx))
      refine ⟨?_, ?_⟩
      · intro i hi hif
        rcases List.mem_cons.mp hi with rfl | hi'
        · rw [hif] at hs1
          cases hs1
        · exact hrest.1 i hi' hif
      · rw [hrest.2, List.countP_cons]
        have hpa : (!s.IF_weight_pruned a && decide (ipPMcondW thr target s a)) = false := by
          rw [hs1]
          rfl
        rw [hpa]
        simp
    · have h1f : t.IF_weight_pruned a = false := by
        revert h1
        cases t.IF_weight_pruned a <;> simp
      have hs1 : s.IF_weight_pruned a = false := hinv_a.2.1.symm.trans h1f
      by_cases hc : ipPMcondW thr target s a
      · have hcl : |t.weight a| < thr ∨ target ≤ t.history_reg a := hcond_eq.mpr hc
        have hstep_eq : ipPruneMinWeightStep thr target stp t a =
            { t with
              weight := fun e => if e = a then 0 else t.weight e
              masks := fun e => if e = a then false else t.masks e
              num_pruned_weight := t.num_pruned_weight + 1
              IF_weight_pruned := fun e => if e = a then true else t.IF_weight_pruned e
              history_rank := fun e =>
                if e = a then (stp : ℚ) - 1000000 - (t.history_reg a - target)
                else t.history_rank e
              hhistory_rank := fun e =>
                if e = a then (stp : ℚ) - 1000000 - (t.history_reg a - target)
                else t.hhistory_rank e } := by
          unfold ipPruneMinWeightStep
          rw [if_neg (by rw [h1f]; exact Bool.false_ne_true), if_pos hcl]
        have hinv1 : ∀ x ∈ rest,
            (ipPruneMinWeightStep thr target stp t a).weight x = s.weight x ∧
            (ipPruneMinWeightStep thr target stp t a).IF_weight_pruned x =
              s.IF_weight_pruned x ∧
            (ipPruneMinWeightStep thr target stp t a).history_reg x = s.history_reg x := by
          intro x hx
          have hxne : x ≠ a := fun h => hnd'.1 (h ▸ hx)
          have hfr := ipPMW_step_frame thr target stp t a x hxne
          have hix := hinv x (List.mem_cons_of_mem a hx)
          exact ⟨hfr.1.trans hix.1, hfr.2.2.1.trans hix.2.1, hfr.2.2.2.1.trans hix.2.2⟩
        have hrest := ih (ipPruneMinWeightStep thr target stp t a) hnd'.2 hinv1
        have hframe := ipPMW_fold_frame thr target stp rest
          (ipPruneMinWeightStep thr target stp t a) a hnd'.1
        refine ⟨?_, ?_⟩
        · intro i hi hif
          rcases List.mem_cons.mp hi with rfl | hi'
          · refine ⟨⟨fun _ => hc, fun _ => ?_⟩, fun _ => ⟨?_, ?_, ?_⟩⟩
            · rw [hframe.2.2.1, hstep_eq]
              show (if i = i then true else t.IF_weight_pruned i) = true
              rw [if_pos rfl]
            · rw [hframe.1, hstep_eq]
              show (if i = i then (0 : ℚ) else t.weight i) = 0
              rw [if_pos rfl]
            · rw [hframe.2.1, hstep_eq]
              show (if i = i then false else t.masks i) = false
              rw [if_pos rfl]
            · rw [hframe.2.2.2.2, hstep_eq]
              show (if i = i then (stp : ℚ) - 1000000 - (t.history_reg i - target)
                else t.history_rank i) = _
              rw [if_pos rfl, hinv_a.2.2]
          · exact hrest.1 i hi' hif
        · rw [hrest.2, List.countP_cons]
          have hpa : (!s.IF_weight_pruned a && decide (ipPMcondW thr target s a)) = true := by
            rw [hs1, decide_eq_true hc]
            rfl
          rw [hpa, hstep_eq]
          show t.num_pruned_weight + 1 + _ = _
          rw [if_pos rfl]
          omega
      · have hcl : ¬(|t.weight a| < thr ∨ target ≤ t.history_reg a) :=
          fun h => hc (hcond_eq.mp h)
        have ht1 : ipPruneMinWeightStep thr target stp t a = t := by
          unfold ipPruneMinWeightStep
          rw [if_neg (by rw [h1f]; exact Bool.false_ne_true), if_neg hcl]
        rw [ht1]
        have hrest := ih t hnd'.2 (fun x hx => hinv x (List.mem_cons_of_mem a hx))
        have hframe := ipPMW_fold_frame thr target stp rest t a hnd'.1
        refine ⟨?_, ?_⟩
        · intro i hi hif
          rcases List.mem_cons.mp hi with rfl | hi'
          · refine ⟨⟨fun hflag => ?_, fun hcc => absurd hcc hc⟩,
              fun hcc => absurd hcc hc⟩
            exfalso
            rw [hframe.2.2.1, h1f] at hflag
            cases hflag
          · exact hrest.1 i hi' hif
        · rw [hrest.2, List.countP_cons]
          have hpa : (!s.IF_weight_pruned a && decide (ipPMcondW thr target s a)) = false := by
            rw [decide_eq_false hc, Bool.and_false]
          rw [hpa]
          simp

/-- Main induction for the Col branch of `InnerProductLayer::PruneMinimals`. -/
theorem ipPMC_fold (numRow numCol : ℕ) (thr target : ℚ) (stp : ℤ)
    (s : PruneState) (l : List ℕ) :
    ∀ t : PruneState, (∀ j ∈ l, j < numCol) → l.Nodup →
      (∀ j ∈ l, (∀ i, t.weight (i * numCol + j) = s.weight (i * numCol + j)) ∧
        t.IF_col_pruned j 0 = s.IF_col_pruned j 0 ∧
        t.history_reg j = s.history_reg j) →
      ((∀ j ∈ l, s.IF_col_pruned j 0 = false →
        (((l.foldl (ipPruneMinColStep numRow numCol thr target stp) t).IF_col_pruned
            j 0 = true) ↔ convPMcond numRow numCol thr target s j) ∧
        (convPMcond numRow numCol thr target s j →
          (∀ i < numRow,
            (l.foldl (ipPruneMinColStep numRow numCol thr target stp) t).weight
              (i * numCol + j) = 0 ∧
            (l.foldl (ipPruneMinColStep numRow numCol thr target stp) t).masks
              (i * numCol + j) = false) ∧
          (l.foldl (ipPruneMinColStep numRow numCol thr target stp) t).history_rank j =
            (stp : ℚ) - 1000000 - (s.history_reg j - target))) ∧
      (l.foldl (ipPruneMinColStep numRow numCol thr target stp) t).num_pruned_col =
        t.num_pruned_col + ((l.countP fun j => !s.IF_col_pruned j 0 &&
          decide (convPMcond numRow numCol thr target s j)) : ℚ)) := by
  induction l with
  | nil =>
    intro t _ _ _
    exact ⟨fun j hj => absurd hj (List.not_mem_nil j), by simp⟩
  | cons a rest ih =>
    intro t hb hnd hinv
    have ha : a < numCol := hb a (List.mem_cons_self a rest)
    have hinv_a := hinv a (List.mem_cons_self a rest)
    have hnd' := List.nodup_cons.mp hnd
    have hb' : ∀ x ∈ rest, x < numCol := fun x hx => hb x (List.mem_cons_of_mem a hx)
    have hcond_eq : (colAbsSum numRow numCol t.weight a / (numRow : ℚ) < thr ∨
        target ≤ t.history_reg a) ↔ convPMcond numRow numCol thr target s a := by
      unfold convPMcond
      rw [colAbsSum_congr numRow numCol t.weight s.weight a hinv_a.1, hinv_a.2.2]
    rw [List.foldl_cons]
    by_cases h1 : t.IF_col_pruned a 0 = true
    · have hs1 : s.IF_col_pruned a 0 = true := hinv_a.2.1.symm.trans h1
      have ht1 : ipPruneMinColStep numRow numCol thr target stp t a = t := by
        unfold ipPruneMinColStep
        rw [if_pos h1]
      rw [ht1]
      have hrest := ih t hb' hnd'.2 (fun x hx => hinv x (List.mem_cons_of_mem a hx))
      refine ⟨?_, ?_⟩
      · intro j hj hjf
        rcases List.mem_cons.mp hj with rfl | hj'
        · rw [hjf] at hs1
          cases hs1
        · exact hrest.1 j hj' hjf
      · rw [hrest.2, List.countP_cons]
        have hpa : (!s.IF_col_pruned a 0 &&
            decide (convPMcond numRow numCol thr target s a)) = false := by
          rw [hs1]
          rfl
        rw [hpa]
        simp
    · have h1f : t.IF_col_pruned a 0 = false := by
        revert h1
        cases t.IF_col_pruned a 0 <;> simp
      have hs1 : s.IF_col_pruned a 0 = false := hinv_a.2.1.symm.trans h1f
      by_cases hc : convPMcond numRow numCol thr target s a
      · have hcl : colAbsSum numRow numCol t.weight a / (numRow : ℚ) < thr ∨
            target ≤ t.history_reg a := hcond_eq.mpr hc
        have hstep_eq : ipPruneMinColStep numRow numCol thr target stp t a =
            { t with
              weight := fun e =>
                if (List.range numRow).any (fun i => e == i * numCol + a) then 0
                else t.weight e
              masks := fun e =>
                if (List.range numRow).any (fun i => e == i * numCol + a) then false
                else t.masks e
              num_pruned_col := t.num_pruned_col + 1
              IF_col_pruned := fun j2 g =>
                if j2 = a ∧ g = 0 then true else t.IF_col_pruned j2 g
              history_rank := fun j2 =>
                if j2 = a then (stp : ℚ) - 1000000 - (t.history_reg a - target)
                else t.history_rank j2 } := by
          unfold ipPruneMinColStep
          rw [if_neg (by rw [h1f]; exact Bool.false_ne_true), if_pos hcl]
        have hinv1 : ∀ x ∈ rest,
            (∀ i, (ipPruneMinColStep numRow numCol thr target stp t a).weight
              (i * numCol + x) = s.weight (i * numCol + x)) ∧
            (ipPruneMinColStep numRow numCol thr target stp t a).IF_col_pruned x 0 =
              s.IF_col_pruned x 0 ∧
            (ipPruneMinColStep numRow numCol thr target stp t a).history_reg x =
              s.history_reg x := by
          intro x hx
          have hxne : x ≠ a := fun h => hnd'.1 (h ▸ hx)
          have hfr := ipPMC_step_frame numRow numCol thr target stp t a x
            (hb' x hx) ha hxne
          have hix := hinv x (List.mem_cons_of_mem a hx)
          exact ⟨fun i => (hfr.1 i).trans (hix.1 i),
            (hfr.2.2.1 0).trans hix.2.1, hfr.2.2.2.1.trans hix.2.2⟩
        have hrest := ih (ipPruneMinColStep numRow numCol thr target stp t a)
          hb' hnd'.2 hinv1
        have hframe := ipPMC_fold_frame numRow numCol thr target stp rest
          (ipPruneMinColStep numRow numCol thr target stp t a) a ha hb' hnd'.1
        refine ⟨?_, ?_⟩
        · intro j hj hjf
          rcases List.mem_cons.mp hj with rfl | hj'
          · refine ⟨⟨fun _ => hc, fun _ => ?_⟩, fun _ => ⟨fun i hi => ⟨?_, ?_⟩, ?_⟩⟩
            · rw [hframe.2.2.1 0, hstep_eq]
              show (if j = j ∧ (0 : ℕ) = 0 then true else t.IF_col_pruned j 0) = true
              rw [if_pos ⟨rfl, rfl⟩]
            · rw [hframe.1 i, hstep_eq]
              show (if (List.range numRow).any (fun i2 => i * numCol + j == i2 * numCol + j)
                then (0 : ℚ) else t.weight (i * numCol + j)) = 0
              rw [col_any_intro numRow numCol i j hi]
              rfl
            · rw [hframe.2.1 i, hstep_eq]
              show (if (List.range numRow).any (fun i2 => i * numCol + j == i2 * numCol + j)
                then false else t.masks (i * numCol + j)) = false
              rw [col_any_intro numRow numCol i j hi]
              rfl
            · rw [hframe.2.2.2.2, hstep_eq]
              show (if j = j then (stp : ℚ) - 1000000 - (t.history_reg j - target)
                else t.history_rank j) = _
              rw [if_pos rfl, hinv_a.2.2]
          · exact hrest.1 j hj' hjf
        · rw [hrest.2, List.countP_cons]
          have hpa : (!s.IF_col_pruned a 0 &&
              decide (convPMcond numRow numCol thr target s a)) = true := by
            rw [hs1, decide_eq_true hc]
            rfl
          rw [hpa, hstep_eq]
          show t.num_pruned_col + 1 + _ = _
          rw [if_pos rfl]
          push_cast
          ring
      · have hcl : ¬(colAbsSum numRow numCol t.weight a / (numRow : ℚ) < thr ∨
            target ≤ t.history_reg a) := fun h => hc (hcond_eq.mp h)
        have ht1 : ipPruneMinColStep numRow numCol thr target stp t a = t := by
          unfold ipPruneMinColStep
          rw [if_neg (by rw [h1f]; exact Bool.false_ne_true), if_neg hcl]
        rw [ht1]
        have hrest := ih t hb' hnd'.2 (fun x hx => hinv x (List.mem_cons_of_mem a hx))
        have hframe := ipPMC_fold_frame numRow numCol thr target stp rest t a
          ha hb' hnd'.1
        refine ⟨?_, ?_⟩
        · intro j hj hjf
          rcases List.mem_cons.mp hj with rfl | hj'
          · refine ⟨⟨fun hflag => ?_, fun hcc => absurd hcc hc⟩,
              fun hcc => absurd hcc hc⟩
            exfalso
            rw [hframe.2.2.1 0, h1f] at hflag
            cases hflag
          · exact hrest.1 j hj' hjf
        · rw [hrest.2, List.countP_cons]
          have hpa : (!s.IF_col_pruned a 0 &&
              decide (convPMcond numRow numCol thr target s a)) = false := by
            rw [decide_eq_false hc, Bool.and_false]
          rw [hpa]
          simp

/-- Main induction for the Row branch of `InnerProductLayer::PruneMinimals`. -/
theorem ipPMR_fold (numCol : ℕ) (thr target : ℚ) (stp : ℤ)
    (s : PruneState) (l : List ℕ) :
    ∀ t : PruneState, l.Nodup →
      (∀ i ∈ l, (∀ jj < numCol, t.weight (i * numCol + jj) = s.weight (i * numCol + jj)) ∧
        t.IF_row_pruned i = s.IF_row_pruned i ∧
        t.history_reg i = s.history_reg i) →
      ((∀ i ∈ l, s.IF_row_pruned i = false →
        (((l.foldl (ipPruneMinRowStep numCol thr target stp) t).IF_row_pruned i = true) ↔
          ipPMcondR numCol thr target s i) ∧
        (ipPMcondR numCol thr target s i →
          (∀ jj < numCol,
            (l.foldl (ipPruneMinRowStep numCol thr target stp) t).weight
              (i * numCol + jj) = 0 ∧
            (l.foldl (ipPruneMinRowStep numCol thr target stp) t).masks
              (i * numCol + jj) = false) ∧
          (l.foldl (ipPruneMinRowStep numCol thr target stp) t).history_rank i =
            (stp : ℚ) - 1000000 - (s.history_reg i - target))) ∧
      (l.foldl (ipPruneMinRowStep numCol thr target stp) t).num_pruned_row =
        t.num_pruned_row + l.countP (fun i => !s.IF_row_pruned i &&
          decide (ipPMcondR numCol thr target s i))) := by
  induction l with
  | nil =>
    intro t _ _
    exact ⟨fun i hi => absurd hi (List.not_mem_nil i), by simp⟩
  | cons a rest ih =>
    intro t hnd hinv
    have hinv_a := hinv a (List.mem_cons_self a rest)
    have hnd' := List.nodup_cons.mp hnd
    have hcond_eq : (rowAbsSum numCol t.weight a / (numCol : ℚ) < thr ∨
        target ≤ t.history_reg a) ↔ ipPMcondR numCol thr target s a := by
      unfold ipPMcondR
      rw [rowAbsSum_congr numCol t.weight s.weight a hinv_a.1, hinv_a.2.2]
    rw [List.foldl_cons]
    by_cases h1 : t.IF_row_pruned a = true
    · have hs1 : s.IF_row_pruned a = true := hinv_a.2.1.symm.trans h1
      have ht1 : ipPruneMinRowStep numCol thr target stp t a = t := by
        unfold ipPruneMinRowStep
        rw [if_pos h1]
      rw [ht1]
      have hrest := ih t hnd'.2 (fun x hx => hinv x (List.mem_cons_of_mem a hx))
      refine ⟨?_, ?_⟩
      · intro i hi hif
        rcases List.mem_cons.mp hi with rfl | hi'
        · rw [hif] at hs1
          cases hs1
        · exact hrest.1 i hi' hif
      · rw [hrest.2, List.countP_cons]
        have hpa : (!s.IF_row_pruned a && decide (ipPMcondR numCol thr target s a)) = false := by
          rw [hs1]
          rfl
        rw [hpa]
        simp
    · have h1f : t.IF_row_pruned a = false := by
        revert h1
        cases t.IF_row_pruned a <;> simp
      have hs1 : s.IF_row_pruned a = false := hinv_a.2.1.symm.trans h1f
      by_cases hc : ipPMcondR numCol thr target s a
      · have hcl : rowAbsSum numCol t.weight a / (numCol : ℚ) < thr ∨
            target ≤ t.history_reg a := hcond_eq.mpr hc
        have hstep_eq : ipPruneMinRowStep numCol thr target stp t a =
            { t with
              weight := fun e =>
                if a * numCol ≤ e ∧ e < a * numCol + numCol then 0 else t.weight e
              masks := fun e =>
                if a * numCol ≤ e ∧ e < a * numCol + numCol then false else t.masks e
              num_pruned_row := t.num_pruned_row + 1
              IF_row_pruned := fun i2 => if i2 = a then true else t.IF_row_pruned i2
              pruned_rows := t.pruned_rows ++ [a]
              history_rank := fun i2 =>
                if i2 = a then (stp : ℚ) - 1000000 - (t.history_reg a - target)
                else t.history_rank i2 } := by
          unfold ipPruneMinRowStep
          rw [if_neg (by rw [h1f]; exact Bool.false_ne_true), if_pos hcl]
        have hinv1 : ∀ x ∈ rest,
            (∀ jj < numCol, (ipPruneMinRowStep numCol thr target stp t a).weight
              (x * numCol + jj) = s.weight (x * numCol + jj)) ∧
            (ipPruneMinRowStep numCol thr target stp t a).IF_row_pruned x =
              s.IF_row_pruned x ∧
            (ipPruneMinRowStep numCol thr target stp t a).history_reg x =
              s.history_reg x := by
          intro x hx
          have hxne : x ≠ a := fun h => hnd'.1 (h ▸ hx)
          have hfr := ipPMR_step_frame numCol thr target stp t a x hxne
          have hix := hinv x (List.mem_cons_of_mem a hx)
          exact ⟨fun jj hjj => (hfr.1 jj hjj).trans (hix.1 jj hjj),
            hfr.2.2.1.trans hix.2.1, hfr.2.2.2.1.trans hix.2.2⟩
        have hrest := ih (ipPruneMinRowStep numCol thr target stp t a) hnd'.2 hinv1
        have hframe := ipPMR_fold_frame numCol thr target stp rest
          (ipPruneMinRowStep numCol thr target stp t a) a hnd'.1
        refine ⟨?_, ?_⟩
        · intro i hi hif
          rcases List.mem_cons.mp hi with rfl | hi'
          · refine ⟨⟨fun _ => hc, fun _ => ?_⟩, fun _ => ⟨fun jj hjj => ⟨?_, ?_⟩, ?_⟩⟩
            · rw [hframe.2.2.1, hstep_eq]
              show (if i = i then true else t.IF_row_pruned i) = true
              rw [if_pos rfl]
            · rw [hframe.1 jj hjj, hstep_eq]
              show (if i * numCol ≤ i * numCol + jj ∧ i * numCol + jj < i * numCol + numCol
                then (0 : ℚ) else t.weight (i * numCol + jj)) = 0
              rw [if_pos ⟨Nat.le_add_right _ _, by omega⟩]
            · rw [hframe.2.1 jj hjj, hstep_eq]
              show (if i * numCol ≤ i * numCol + jj ∧ i * numCol + jj < i * numCol + numCol
                then false else t.masks (i * numCol + jj)) = false
              rw [if_pos ⟨Nat.le_add_right _ _, by omega⟩]
            · rw [hframe.2.2.2.2, hstep_eq]
              show (if i = i then (stp : ℚ) - 1000000 - (t.history_reg i - target)
                else t.history_rank i) = _
              rw [if_pos rfl, hinv_a.2.2]
          · exact hrest.1 i hi' hif
        · rw [hrest.2, List.countP_cons]
          have hpa : (!s.IF_row_pruned a && decide (ipPMcondR numCol thr target s a)) = true := by
            rw [hs1, decide_eq_true hc]
            rfl
          rw [hpa, hstep_eq]
          show t.num_pruned_row + 1 + _ = _
          rw [if_pos rfl]
          omega
      · have hcl : ¬(rowAbsSum numCol t.weight a / (numCol : ℚ) < thr ∨
            target ≤ t.history_reg a) := fun h => hc (hcond_eq.mp h)
        have ht1 : ipPruneMinRowStep numCol thr target stp t a = t := by
          unfold ipPruneMinRowStep
          rw [if_neg (by rw [h1f]; exact Bool.false_ne_true), if_neg hcl]
        rw [ht1]
        have hrest := ih t hnd'.2 (fun x hx => hinv x (List.mem_cons_of_mem a hx))
        have hframe := ipPMR_fold_frame numCol thr target stp rest t a hnd'.1
        refine ⟨?_, ?_⟩
        · intro i hi hif
          rcases List.mem_cons.mp hi with rfl | hi'
          · refine ⟨⟨fun hflag => ?_, fun hcc => absurd hcc hc⟩,
              fun hcc => absurd hcc hc⟩
            exfalso
            rw [hframe.2.2.1, h1f] at hflag
            cases hflag
          · exact hrest.1 i hi' hif
        · rw [hrest.2, List.countP_cons]
          have hpa : (!s.IF_row_pruned a && decide (ipPMcondR numCol thr target s a)) = false := by
            rw [decide_eq_false hc, Bool.and_false]
          rw [hpa]
          simp

/-- C6 (confirmed). For every not-yet-pruned unit of the configured granularity
(column for `ConvolutionLayer::PruneMinimals`; weight, column or row for
`InnerProductLayer::PruneMinimals`), one `PruneMinimals` call prunes the unit —
zeroing its weights and masks, setting its pruned flag, and incrementing the
matching pruned counter by the number of newly pruned units — if and only if
the unit's average absolute weight magnitude is below `APP::prune_threshold` OR
its accumulated `history_reg` has reached `APP::target_reg`; on pruning it
stamps `history_rank` with `step_ - 1000000 - (history_reg - target_reg)`.
In particular a unit whose regularization is driven to exactly the target is
flagged pruned by the very next `PruneMinimals` pass with its weights zeroed. -/
theorem PruneMinimals_threshold (numRow numCol group : ℕ) (thr target : ℚ) (stp : ℤ)
    (s : PruneState) (hg : 0 < group) :
    (∀ j < numCol, s.IF_col_pruned j 0 = false →
      (((ConvPruneMinimals numRow numCol group thr target stp s).IF_col_pruned j 0 = true)
        ↔ convPMcond numRow numCol thr target s j) ∧
      (convPMcond numRow numCol thr target s j →
        (∀ i < numRow,
          (ConvPruneMinimals numRow numCol group thr target stp s).weight
            (i * numCol + j) = 0 ∧
          (ConvPruneMinimals numRow numCol group thr target stp s).masks
            (i * numCol + j) = false) ∧
        (∀ g < group,
          (ConvPruneMinimals numRow numCol group thr target stp s).IF_col_pruned
            j g = true) ∧
        (ConvPruneMinimals numRow numCol group thr target stp s).history_rank j =
          (stp : ℚ) - 1000000 - (s.history_reg j - target))) ∧
    (ConvPruneMinimals numRow numCol group thr target stp s).num_pruned_col =
      s.num_pruned_col + (((List.range numCol).countP fun j => !s.IF_col_pruned j 0 &&
        decide (convPMcond numRow numCol thr target s j)) : ℚ) ∧
    (∀ i < numRow * numCol, s.IF_weight_pruned i = false →
      (((IpPruneMinimals numRow numCol PruneUnit.Weight thr target stp s).IF_weight_pruned
          i = true) ↔ ipPMcondW thr target s i) ∧
      (ipPMcondW thr target s i →
        (IpPruneMinimals numRow numCol PruneUnit.Weight thr target stp s).weight i = 0 ∧
        (IpPruneMinimals numRow numCol PruneUnit.Weight thr target stp s).masks i = false ∧
        (IpPruneMinimals numRow numCol PruneUnit.Weight thr target stp s).history_rank i =
          (stp : ℚ) - 1000000 - (s.history_reg i - target))) ∧
    (IpPruneMinimals numRow numCol PruneUnit.Weight thr target stp s).num_pruned_weight =
      s.num_pruned_weight + (List.range (numRow * numCol)).countP
        (fun i => !s.IF_weight_pruned i && decide (ipPMcondW thr target s i)) ∧
    (∀ j < numCol, s.IF_col_pruned j 0 = false →
      (((IpPruneMinimals numRow numCol PruneUnit.Col thr target stp s).IF_col_pruned
          j 0 = true) ↔ convPMcond numRow numCol thr target s j) ∧
      (convPMcond numRow numCol thr target s j →
        (∀ i < numRow,
          (IpPruneMinimals numRow numCol PruneUnit.Col thr target stp s).weight
            (i * numCol + j) = 0 ∧
          (IpPruneMinimals numRow numCol PruneUnit.Col thr target stp s).masks
            (i * numCol + j) = false) ∧
        (IpPruneMinimals numRow numCol PruneUnit.Col thr target stp s).history_rank j =
          (stp : ℚ) - 1000000 - (s.history_reg j - target))) ∧
    (IpPruneMinimals numRow numCol PruneUnit.Col thr target stp s).num_pruned_col =
      s.num_pruned_col + (((List.range numCol).countP fun j => !s.IF_col_pruned j 0 &&
        decide (convPMcond numRow numCol thr target s j)) : ℚ) ∧
    (∀ i < numRow, s.IF_row_pruned i = false →
      (((IpPruneMinimals numRow numCol PruneUnit.Row thr target stp s).IF_row_pruned
          i = true) ↔ ipPMcondR numCol thr target s i) ∧
      (ipPMcondR numCol thr target s i →
        (∀ jj < numCol,
          (IpPruneMinimals numRow numCol PruneUnit.Row thr target stp s).weight
            (i * numCol + jj) = 0 ∧
          (IpPruneMinimals numRow numCol PruneUnit.Row thr target stp s).masks
            (i * numCol + jj) = false) ∧
        (IpPruneMinimals numRow numCol PruneUnit.Row thr target stp s).history_rank i =
          (stp : ℚ) - 1000000 - (s.history_reg i - target))) ∧
    (IpPruneMinimals numRow numCol PruneUnit.Row thr target stp s).num_pruned_row =
      s.num_pruned_row + (List.range numRow).countP
        (fun i => !s.IF_row_pruned i && decide (ipPMcondR numCol thr target s i)) := by
  have hconv := convPM_fold numRow numCol group thr target stp hg s (List.range numCol) s
    (fun j hj => List.mem_range.mp hj) (List.nodup_range _)
    (fun j _ => ⟨fun i => rfl, rfl, rfl⟩)
  have hw := ipPMW_fold thr target stp s (List.range (numRow * numCol)) s
    (List.nodup_range _) (fun i _ => ⟨rfl, rfl, rfl⟩)
  have hcol := ipPMC_fold numRow numCol thr target stp s (List.range numCol) s
    (fun j hj => List.mem_range.mp hj) (List.nodup_range _)
    (fun j _ => ⟨fun i => rfl, rfl, rfl⟩)
  have hrow := ipPMR_fold numCol thr target stp s (List.range numRow) s
    (List.nodup_range _) (fun i _ => ⟨fun jj _ => rfl, rfl, rfl⟩)
  exact ⟨fun j hj => hconv.1 j (List.mem_range.mpr hj), hconv.2,
    fun i hi => hw.1 i (List.mem_range.mpr hi), hw.2,
    fun j hj => hcol.1 j (List.mem_range.mpr hj), hcol.2,
    fun i hi => hrow.1 i (List.mem_range.mpr hi), hrow.2⟩

/-- The claim's regularization-ramp scenario: a 2 by 2 convolution layer, all
weights 1 (above the 1/100 threshold), with column 1's accumulated
regularization exactly at the target 1 and column 0's at 0. -/
def stC6w : PruneState :=
  { PruneState.base with
    weight := fun _ => 1
    history_reg := fun j => if j = 1 then 1 else 0 }

/-- Witness for C6 at a concrete input: column 1, whose `history_reg` sits
exactly at the target, is pruned by the next pass (flag set, weights zeroed,
rank stamped) even though its magnitude is above the threshold, while column 0
(reg 0, magnitude above threshold) is left unpruned. -/
theorem PruneMinimals_threshold_witness :
    stC6w.history_reg 1 = 1 ∧
    (ConvPruneMinimals 2 2 1 (1/100) 1 5 stC6w).IF_col_pruned 1 0 = true ∧
    (ConvPruneMinimals 2 2 1 (1/100) 1 5 stC6w).weight 3 = 0 ∧
    (ConvPruneMinimals 2 2 1 (1/100) 1 5 stC6w).history_rank 1 =
      ((5 : ℤ) : ℚ) - 1000000 - (stC6w.history_reg 1 - 1) ∧
    (ConvPruneMinimals 2 2 1 (1/100) 1 5 stC6w).IF_col_pruned 0 0 = false := by
  have h := PruneMinimals_threshold 2 2 1 (1/100) 1 5 stC6w (by decide)
  have hcond : convPMcond 2 2 (1/100) 1 stC6w 1 :=
    Or.inr (of_decide_eq_true (by with_unfolding_all rfl))
  have hncond : ¬ convPMcond 2 2 (1/100) 1 stC6w 0 :=
    of_decide_eq_true (by with_unfolding_all rfl)
  refine ⟨rfl, ((h.1 1 (by decide) rfl).1).mpr hcond, ?_, ?_, ?_⟩
  · have hz := (((h.1 1 (by decide) rfl).2 hcond).1 1 (by decide)).1
    simpa using hz
  · exact ((h.1 1 (by decide) rfl).2 hcond).2.2
  · exact Bool.eq_false_iff.mpr
      (fun hf => hncond (((h.1 0 (by decide) rfl).1).mp hf))

/-! ### ComputeBlobMask (claim C8)

`ConvolutionLayer::ComputeBlobMask` (conv_layer.cpp:606-679) and
`InnerProductLayer::ComputeBlobMask` (inner_product_layer.cpp:310-394):
reconstruct the pruned flags, counts and masks from all-zero columns/rows of the
weight tensor. The `RestorePruneProb` call on the not-finished path reads an
external probability snapshot file and writes only `history_prob`; it touches no
flag, count or mask and is omitted from the embedding. -/

/-- One (column, group) step of the restoration column scan
(conv_layer.cpp:624-641 / inner_product_layer.cpp:334-352): a group slice of a
column summing to zero adds `1/group` to the local counter, flags `[j][g]`,
clears the slice's masks, and — for the probability-prune methods (`setProb`) —
zeroes the column's `history_prob`. -/
def cbmColStep (numCol numRowPerG group : ℕ) (setProb : Bool)
    (sc : PruneState × ℚ) (p : ℕ × ℕ) : PruneState × ℚ :=
  let s := sc.1
  let j := p.1
  let g := p.2
  if groupColAbsSum numCol numRowPerG s.weight j g = 0 then
    ({ s with
        IF_col_pruned := fun j2 g2 => if j2 = j ∧ g2 = g then true else s.IF_col_pruned j2 g2
        masks := fun e =>
          if (List.range numRowPerG).any (fun i => e == (g * numRowPerG + i) * numCol + j)
          then false else s.masks e
        history_prob := fun j2 => if setProb ∧ j2 = j then 0 else s.history_prob j2 },
      sc.2 + 1 / (group : ℚ))
  else sc

/-- One row step of the restoration row scan (conv_layer.cpp:644-660 /
inner_product_layer.cpp:355-371). -/
def cbmRowStep (numCol : ℕ) (setProb : Bool) (sc : PruneState × ℕ) (i : ℕ) :
    PruneState × ℕ :=
  let s := sc.1
  if rowAbsSum numCol s.weight i = 0 then
    ({ s with
        IF_row_pruned := fun i2 => if i2 = i then true else s.IF_row_pruned i2
        masks := fun e =>
          if i * numCol ≤ e ∧ e < i * numCol + numCol then false else s.masks e
        history_prob := fun i2 => if setProb ∧ i2 = i then 0 else s.history_prob i2 },
      sc.2 + 1)
  else sc

/-- Iteration order of the nested column/group loops. -/
def cbmPairs (numCol group : ℕ) : List (ℕ × ℕ) :=
  (List.range numCol).bind fun j => (List.range group).map fun g => (j, g)

/-- Embedding of `ConvolutionLayer::ComputeBlobMask`: column scan, row scan,
assignment of the freshly counted totals, then `UpdatePrunedRatio`. `isPPc` and
`isPPr` model `prune_method == "PPc"` / `"PPr"`. -/
def ConvComputeBlobMask (numRow numCol group : ℕ) (isPPc isPPr : Bool)
    (s : PruneState) : PruneState :=
  let numRowPerG := numRow / group
  let sc := (cbmPairs numCol group).foldl (cbmColStep numCol numRowPerG group isPPc) (s, 0)
  let sr := (List.range numRow).foldl (cbmRowStep numCol isPPr) (sc.1, 0)
  ConvUpdatePrunedRatio numRow numCol
    { sr.1 with num_pruned_col := sc.2, num_pruned_row := sr.2 }

/-- One index step of the Weight-unit restoration scan
(inner_product_layer.cpp:325-332): each zero weight clears its mask, increments
`num_pruned_weight` (no already-flagged check), and flags `IF_weight_pruned`. -/
def cbmWeightStep (s : PruneState) (i : ℕ) : PruneState :=
  if s.weight i = 0 then
    { s with
      masks := fun e => if e = i then false else s.masks e
      num_pruned_weight := s.num_pruned_weight + 1
      IF_weight_pruned := fun e => if e = i then true else s.IF_weight_pruned e }
  else s

/-- Embedding of `InnerProductLayer::ComputeBlobMask`. -/
def IpComputeBlobMask (numRow numCol group : ℕ) (unit : PruneUnit) (isPPc isPPr : Bool)
    (s : PruneState) : PruneState :=
  if unit = PruneUnit.Weight then
    IpUpdatePrunedRatio numRow numCol unit
      ((List.range (numRow * numCol)).foldl cbmWeightStep s)
  else
    let numRowPerG := numRow / group
    let sc := (cbmPairs numCol group).foldl (cbmColStep numCol numRowPerG group isPPc) (s, 0)
    let sr := (List.range numRow).foldl (cbmRowStep numCol isPPr) (sc.1, 0)
    IpUpdatePrunedRatio numRow numCol unit
      { sr.1 with num_pruned_col := sc.2, num_pruned_row := sr.2 }

/-- Bool absorption used by the idempotence arguments. -/
theorem bool_or_idem (a x : Bool) : ((a || x) || x) = (a || x) := by
  cases a <;> cases x <;> rfl

/-- The restoration column scan reads but never writes the weight tensor, and
leaves row flags, weight flags and their counters alone. -/
theorem foldl_cbmCol_inv (numCol numRowPerG group : ℕ) (sp : Bool)
    (l : List (ℕ × ℕ)) : ∀ (t : PruneState) (c : ℚ),
    ((l.foldl (cbmColStep numCol numRowPerG group sp) (t, c)).1).weight = t.weight ∧
    ((l.foldl (cbmColStep numCol numRowPerG group sp) (t, c)).1).IF_row_pruned =
      t.IF_row_pruned ∧
    ((l.foldl (cbmColStep numCol numRowPerG group sp) (t, c)).1).IF_weight_pruned =
      t.IF_weight_pruned ∧
    ((l.foldl (cbmColStep numCol numRowPerG group sp) (t, c)).1).num_pruned_weight =
      t.num_pruned_weight := by
  induction l with
  | nil => intro t c; exact ⟨rfl, rfl, rfl, rfl⟩
  | cons p rest ih =>
    intro t c
    rw [List.foldl_cons]
    unfold cbmColStep
    dsimp only
    split
    · exact ih _ _
    · exact ih _ _

/-- The restoration row scan never writes the weight tensor, and leaves column
flags, weight flags and their counters alone. -/
theorem foldl_cbmRow_inv (numCol : ℕ) (sp : Bool) (l : List ℕ) :
    ∀ (t : PruneState) (c : ℕ),
    ((l.foldl (cbmRowStep numCol sp) (t, c)).1).weight = t.weight ∧
    ((l.foldl (cbmRowStep numCol sp) (t, c)).1).IF_col_pruned = t.IF_col_pruned ∧
    ((l.foldl (cbmRowStep numCol sp) (t, c)).1).IF_weight_pruned = t.IF_weight_pruned ∧
    ((l.foldl (cbmRowStep numCol sp) (t, c)).1).num_pruned_weight =
      t.num_pruned_weight := by
  induction l with
  | nil => intro t c; exact ⟨rfl, rfl, rfl, rfl⟩
  | cons a rest ih =>
    intro t c
    rw [List.foldl_cons]
    unfold cbmRowStep
    dsimp only
    split
    · exact ih _ _
    · exact ih _ _

/-- Column-flag characterization of the restoration column scan: a flag ends set
exactly when it was set before or its (column, group) slice of the (unchanged)
weight tensor sums to zero. -/
theorem foldl_cbmCol_flag (numCol numRowPerG group : ℕ) (sp : Bool)
    (l : List (ℕ × ℕ)) : ∀ (t : PruneState) (c : ℚ) (j g : ℕ),
    ((l.foldl (cbmColStep numCol numRowPerG group sp) (t, c)).1).IF_col_pruned j g =
      (t.IF_col_pruned j g || (decide ((j, g) ∈ l) &&
        decide (groupColAbsSum numCol numRowPerG t.weight j g = 0))) := by
  induction l with
  | nil => intro t c j g; simp
  | cons p rest ih =>
    obtain ⟨pj, pg⟩ := p
    intro t c j g
    rw [List.foldl_cons]
    simp only [ cbmColStep]
    split
    next hz =>
      rw [ih]
      dsimp only
      by_cases hpe : j = pj ∧ g = pg
      · obtain ⟨h1, h2⟩ := hpe
        subst h1
        subst h2
        simp [hz]
      · rw [if_neg hpe]
        have hne : (j, g) ≠ (pj, pg) := by
          intro h
          rw [Prod.mk.injEq] at h
          exact hpe h
        simp [List.mem_cons, hne]
    next hz =>
      rw [ih]
      by_cases hpe : (j, g) = (pj, pg)
      · rw [Prod.mk.injEq] at hpe
        obtain ⟨h1, h2⟩ := hpe
        subst h1
        subst h2
        simp [hz]
      · simp [List.mem_cons, hpe]

/-- Counter characterization of the restoration column scan: the local counter
receives `1/group` for every zero (column, group) slice of the scan list. -/
theorem foldl_cbmCol_count (numCol numRowPerG group : ℕ) (sp : Bool)
    (l : List (ℕ × ℕ)) : ∀ (t : PruneState) (c : ℚ),
    (l.foldl (cbmColStep numCol numRowPerG group sp) (t, c)).2 =
      c + ((l.countP fun p =>
        decide (groupColAbsSum numCol numRowPerG t.weight p.1 p.2 = 0)) : ℚ) *
        (1 / (group : ℚ)) := by
  induction l with
  | nil => intro t c; simp
  | cons p rest ih =>
    intro t c
    rw [List.foldl_cons]
    simp only [ cbmColStep]
    split
    next hz =>
      rw [ih]
      dsimp only
      rw [List.countP_cons, if_pos (by simpa using hz)]
      push_cast
      ring
    next hz =>
      rw [ih]
      rw [List.countP_cons, if_neg (by simpa using hz)]
      simp

/-- Row-flag characterization of the restoration row scan. -/
theorem foldl_cbmRow_flag (numCol : ℕ) (sp : Bool) (l : List ℕ) :
    ∀ (t : PruneState) (c : ℕ) (i : ℕ),
    ((l.foldl (cbmRowStep numCol sp) (t, c)).1).IF_row_pruned i =
      (t.IF_row_pruned i || (decide (i ∈ l) &&
        decide (rowAbsSum numCol t.weight i = 0))) := by
  induction l with
  | nil => intro t c i; simp
  | cons a rest ih =>
    intro t c i
    rw [List.foldl_cons]
    simp only [ cbmRowStep]
    split
    next hz =>
      rw [ih]
      dsimp only
      by_cases hia : i = a
      · subst hia
        simp [hz]
      · rw [if_neg hia]
        simp [List.mem_cons, hia]
    next hz =>
      rw [ih]
      by_cases hia : i = a
      · subst hia
        simp [hz]
      · simp [List.mem_cons, hia]

/-- Counter characterization of the restoration row scan. -/
theorem foldl_cbmRow_count (numCol : ℕ) (sp : Bool) (l : List ℕ) :
    ∀ (t : PruneState) (c : ℕ),
    (l.foldl (cbmRowStep numCol sp) (t, c)).2 =
      c + l.countP (fun i => decide (rowAbsSum numCol t.weight i = 0)) := by
  induction l with
  | nil => intro t c; simp
  | cons a rest ih =>
    intro t c
    rw [List.foldl_cons]
    simp only [ cbmRowStep]
    split
    next hz =>
      rw [ih]
      dsimp only
      rw [List.countP_cons, if_pos (by simpa using hz)]
      omega
    next hz =>
      rw [ih]
      rw [List.countP_cons, if_neg (by simpa using hz)]
      omega

/-- The Weight-unit restoration scan: weight unchanged, row/column flags and
counters unchanged. -/
theorem foldl_cbmW_inv (l : List ℕ) : ∀ t : PruneState,
    (l.foldl cbmWeightStep t).weight = t.weight ∧
    (l.foldl cbmWeightStep t).IF_row_pruned = t.IF_row_pruned ∧
    (l.foldl cbmWeightStep t).IF_col_pruned = t.IF_col_pruned ∧
    (l.foldl cbmWeightStep t).num_pruned_row = t.num_pruned_row ∧
    (l.foldl cbmWeightStep t).num_pruned_col = t.num_pruned_col := by
  induction l with
  | nil => intro t; exact ⟨rfl, rfl, rfl, rfl, rfl⟩
  | cons a rest ih =>
    intro t
    rw [List.foldl_cons]
    unfold cbmWeightStep
    split
    · exact ih _
    · exact ih _

/-- Weight-flag characterization of the Weight-unit restoration scan. -/
theorem foldl_cbmW_flag (l : List ℕ) : ∀ (t : PruneState) (i : ℕ),
    (l.foldl cbmWeightStep t).IF_weight_pruned i =
      (t.IF_weight_pruned i || (decide (i ∈ l) && decide (t.weight i = 0))) := by
  induction l with
  | nil => intro t i; simp
  | cons a rest ih =>
    intro t i
    rw [List.foldl_cons]
    simp only [ cbmWeightStep]
    split
    next hz =>
      rw [ih]
      dsimp only
      by_cases hia : i = a
      · subst hia
        simp [hz]
      · rw [if_neg hia]
        simp [List.mem_cons, hia]
    next hz =>
      rw [ih]
      by_cases hia : i = a
      · subst hia
        simp [hz]
      · simp [List.mem_cons, hia]

/-- Counter characterization of the Weight-unit restoration scan: EVERY zero
weight in the scan list increments `num_pruned_weight`, with no check of the
already-pruned flag. -/
theorem foldl_cbmW_npw (l : List ℕ) : ∀ t : PruneState,
    (l.foldl cbmWeightStep t).num_pruned_weight =
      t.num_pruned_weight + l.countP (fun i => decide (t.weight i = 0)) := by
  induction l with
  | nil => intro t; simp
  | cons a rest ih =>
    intro t
    rw [List.foldl_cons]
    simp only [ cbmWeightStep]
    split
    next hz =>
      rw [ih]
      dsimp only
      rw [List.countP_cons, if_pos (by simpa using hz)]
      omega
    next hz =>
      rw [ih]
      rw [List.countP_cons, if_neg (by simpa using hz)]
      omega

/-- The derived row scan of the Weight branch of ip `UpdatePrunedRatio` reads but
never writes the weight tensor or the weight-pruned flags. -/
theorem foldl_ipUPRrow_inv (numCol : ℕ) (l : List ℕ) : ∀ s : PruneState,
    (l.foldl (ipUPRrowStep numCol) s).weight = s.weight ∧
    (l.foldl (ipUPRrowStep numCol) s).IF_weight_pruned = s.IF_weight_pruned := by
  induction l with
  | nil => intro s; exact ⟨rfl, rfl⟩
  | cons a rest ih =>
    intro s
    rw [List.foldl_cons]
    unfold ipUPRrowStep
    split
    · exact ih _
    · split
      · exact ih _
      · exact ih _

/-- The derived column scan of the Weight branch of ip `UpdatePrunedRatio` reads
but never writes the weight tensor or the weight-pruned flags. -/
theorem foldl_ipUPRcol_inv (numRow numCol : ℕ) (l : List ℕ) : ∀ s : PruneState,
    (l.foldl (ipUPRcolStep numRow numCol) s).weight = s.weight ∧
    (l.foldl (ipUPRcolStep numRow numCol) s).IF_weight_pruned =
      s.IF_weight_pruned := by
  induction l with
  | nil => intro s; exact ⟨rfl, rfl⟩
  | cons a rest ih =>
    intro s
    rw [List.foldl_cons]
    unfold ipUPRcolStep
    split
    · exact ih _
    · split
      · exact ih _
      · exact ih _

/-- All-quantifier congruence for `List.all` under a pointwise-equal
predicate. -/
theorem all_congr_fun {α : Type} (l : List α) (f g : α → Bool)
    (h : ∀ x, f x = g x) : l.all f = l.all g := by
  induction l with
  | nil => rfl
  | cons a t ih => rw [List.all_cons, List.all_cons, h a, ih]

/-- The derived row scan of the Weight branch leaves column flags and the
column counter alone. -/
theorem foldl_ipUPRrow_inv2 (numCol : ℕ) (l : List ℕ) : ∀ s : PruneState,
    (l.foldl (ipUPRrowStep numCol) s).IF_col_pruned = s.IF_col_pruned ∧
    (l.foldl (ipUPRrowStep numCol) s).num_pruned_col = s.num_pruned_col := by
  induction l with
  | nil => intro s; exact ⟨rfl, rfl⟩
  | cons a rest ih =>
    intro s
    rw [List.foldl_cons]
    unfold ipUPRrowStep
    split
    · exact ih _
    · split
      · exact ih _
      · exact ih _

/-- The derived column scan of the Weight branch leaves row flags and the row
counter alone. -/
theorem foldl_ipUPRcol_inv2 (numRow numCol : ℕ) (l : List ℕ) : ∀ s : PruneState,
    (l.foldl (ipUPRcolStep numRow numCol) s).IF_row_pruned = s.IF_row_pruned ∧
    (l.foldl (ipUPRcolStep numRow numCol) s).num_pruned_row =
      s.num_pruned_row := by
  induction l with
  | nil => intro s; exact ⟨rfl, rfl⟩
  | cons a rest ih =>
    intro s
    rw [List.foldl_cons]
    unfold ipUPRcolStep
    split
    · exact ih _
    · split
      · exact ih _
      · exact ih _

/-- Characterization of the derived row scan: a row ends flagged exactly when
it was flagged before or it is scanned and all of its weight flags are set (the
scan reads flags it never writes, so distinct scanned rows do not interact);
the row counter grows by the number of newly completed rows. -/
theorem foldl_ipUPRrow_char (numCol : ℕ) (l : List ℕ) :
    ∀ (hnd : l.Nodup) (s : PruneState),
    (∀ i, (l.foldl (ipUPRrowStep numCol) s).IF_row_pruned i =
      (s.IF_row_pruned i || (decide (i ∈ l) &&
        (List.range numCol).all fun j => s.IF_weight_pruned (i * numCol + j)))) ∧
    (l.foldl (ipUPRrowStep numCol) s).num_pruned_row =
      s.num_pruned_row + l.countP (fun i => !s.IF_row_pruned i &&
        (List.range numCol).all fun j => s.IF_weight_pruned (i * numCol + j)) := by
  induction l with
  | nil =>
    intro _ s
    constructor
    · intro i
      simp
    · simp
  | cons a rest ih =>
    intro hnd s
    rw [List.nodup_cons] at hnd
    rw [List.foldl_cons]
    by_cases hflag : s.IF_row_pruned a = true
    · have hstep : ipUPRrowStep numCol s a = s := by
        unfold ipUPRrowStep
        rw [if_pos hflag]
      rw [hstep]
      obtain ⟨ihf, ihc⟩ := ih hnd.2 s
      constructor
      · intro i
        rw [ihf i]
        by_cases hia : i = a
        · subst hia
          simp [hflag]
        · simp [List.mem_cons, hia]
      · rw [ihc, List.countP_cons, if_neg (by simp [hflag])]
        omega
    · have hflag' : s.IF_row_pruned a = false := by
        revert hflag
        cases s.IF_row_pruned a <;> simp
      by_cases hall :
          ((List.range numCol).all fun j => s.IF_weight_pruned (a * numCol + j)) = true
      · have hstep : ipUPRrowStep numCol s a =
            { s with
              IF_row_pruned := fun i2 => if i2 = a then true else s.IF_row_pruned i2
              num_pruned_row := s.num_pruned_row + 1 } := by
          unfold ipUPRrowStep
          rw [if_neg (by simp [hflag']), if_pos hall]
        rw [hstep]
        obtain ⟨ihf, ihc⟩ := ih hnd.2
          { s with
            IF_row_pruned := fun i2 => if i2 = a then true else s.IF_row_pruned i2
            num_pruned_row := s.num_pruned_row + 1 }
        constructor
        · intro i
          rw [ihf i]
          dsimp only
          by_cases hia : i = a
          · subst hia
            simp [hflag', hall]
          · rw [if_neg hia]
            simp [List.mem_cons, hia]
        · rw [ihc]
          dsimp only
          rw [List.countP_cons, if_pos (by simp [hflag', hall])]
          have hcong : rest.countP (fun i =>
              !(if i = a then true else s.IF_row_pruned i) &&
                (List.range numCol).all fun j => s.IF_weight_pruned (i * numCol + j)) =
              rest.countP (fun i => !s.IF_row_pruned i &&
                (List.range numCol).all fun j => s.IF_weight_pruned (i * numCol + j)) := by
            apply List.countP_congr
            intro x hx
            have hxa : x ≠ a := fun hcontra => hnd.1 (hcontra ▸ hx)
            rw [if_neg hxa]
          rw [hcong]
          omega
      · have hstep : ipUPRrowStep numCol s a = s := by
          unfold ipUPRrowStep
          rw [if_neg (by simp [hflag']), if_neg hall]
        rw [hstep]
        obtain ⟨ihf, ihc⟩ := ih hnd.2 s
        have hall' :
            ((List.range numCol).all fun j => s.IF_weight_pruned (a * numCol + j)) =
              false := by
          revert hall
          cases ((List.range numCol).all fun j => s.IF_weight_pruned (a * numCol + j)) <;>
            simp
        constructor
        · intro i
          rw [ihf i]
          by_cases hia : i = a
          · subst hia
            simp [hall']
          · simp [List.mem_cons, hia]
        · rw [ihc, List.countP_cons, if_neg (by simp [hall'])]
          omega

/-- Characterization of the derived column scan: a `(column, group 0)` flag
ends set exactly when it was set before or the column is scanned with all of
its weight flags set; flags at other group indices are untouched; the column
counter grows accordingly. -/
theorem foldl_ipUPRcol_char (numRow numCol : ℕ) (l : List ℕ) :
    ∀ (hnd : l.Nodup) (s : PruneState),
    (∀ j g, (l.foldl (ipUPRcolStep numRow numCol) s).IF_col_pruned j g =
      (s.IF_col_pruned j g || (decide (j ∈ l) && decide (g = 0) &&
        (List.range numRow).all fun i => s.IF_weight_pruned (i * numCol + j)))) ∧
    (l.foldl (ipUPRcolStep numRow numCol) s).num_pruned_col =
      s.num_pruned_col + ((l.countP (fun j => !s.IF_col_pruned j 0 &&
        (List.range numRow).all fun i => s.IF_weight_pruned (i * numCol + j))) : ℚ) := by
  induction l with
  | nil =>
    intro _ s
    constructor
    · intro j g
      simp
    · simp
  | cons a rest ih =>
    intro hnd s
    rw [List.nodup_cons] at hnd
    rw [List.foldl_cons]
    by_cases hflag : s.IF_col_pruned a 0 = true
    · have hstep : ipUPRcolStep numRow numCol s a = s := by
        unfold ipUPRcolStep
        rw [if_pos hflag]
      rw [hstep]
      obtain ⟨ihf, ihc⟩ := ih hnd.2 s
      constructor
      · intro j g
        rw [ihf j g]
        by_cases hja : j = a
        · subst hja
          by_cases hg : g = 0
          · subst hg
            simp [hflag]
          · simp [List.mem_cons, hg]
        · simp [List.mem_cons, hja]
      · rw [ihc, List.countP_cons, if_neg (by simp [hflag])]
        simp
    · have hflag' : s.IF_col_pruned a 0 = false := by
        revert hflag
        cases s.IF_col_pruned a 0 <;> simp
      by_cases hall :
          ((List.range numRow).all fun i => s.IF_weight_pruned (i * numCol + a)) = true
      · have hstep : ipUPRcolStep numRow numCol s a =
            { s with
              IF_col_pruned := fun j2 g =>
                if j2 = a ∧ g = 0 then true else s.IF_col_pruned j2 g
              num_pruned_col := s.num_pruned_col + 1 } := by
          unfold ipUPRcolStep
          rw [if_neg (by simp [hflag']), if_pos hall]
        rw [hstep]
        obtain ⟨ihf, ihc⟩ := ih hnd.2
          { s with
            IF_col_pruned := fun j2 g =>
              if j2 = a ∧ g = 0 then true else s.IF_col_pruned j2 g
            num_pruned_col := s.num_pruned_col + 1 }
        constructor
        · intro j g
          rw [ihf j g]
          dsimp only
          by_cases hja : j = a
          · subst hja
            by_cases hg : g = 0
            · subst hg
              simp [hall]
            · rw [if_neg (by intro hcon; exact hg hcon.2)]
              simp [List.mem_cons, hg]
          · rw [if_neg (by intro hcon; exact hja hcon.1)]
            simp [List.mem_cons, hja]
        · rw [ihc]
          dsimp only
          rw [List.countP_cons, if_pos (by simp [hflag', hall])]
          have hcong : rest.countP (fun j =>
              !(if j = a ∧ (0 : ℕ) = 0 then true else s.IF_col_pruned j 0) &&
                (List.range numRow).all fun i => s.IF_weight_pruned (i * numCol + j)) =
              rest.countP (fun j => !s.IF_col_pruned j 0 &&
                (List.range numRow).all fun i => s.IF_weight_pruned (i * numCol + j)) := by
            apply List.countP_congr
            intro x hx
            have hxa : x ≠ a := fun hcontra => hnd.1 (hcontra ▸ hx)
            rw [if_neg (by intro hcon; exact hxa hcon.1)]
          rw [hcong]
          push_cast
          ring
      · have hstep : ipUPRcolStep numRow numCol s a = s := by
          unfold ipUPRcolStep
          rw [if_neg (by simp [hflag']), if_neg hall]
        rw [hstep]
        obtain ⟨ihf, ihc⟩ := ih hnd.2 s
        have hall' :
            ((List.range numRow).all fun i => s.IF_weight_pruned (i * numCol + a)) =
              false := by
          revert hall
          cases ((List.range numRow).all fun i => s.IF_weight_pruned (i * numCol + a)) <;>
            simp
        constructor
        · intro j g
          rw [ihf j g]
          by_cases hja : j = a
          · subst hja
            simp [hall']
          · simp [List.mem_cons, hja]
        · rw [ihc, List.countP_cons, if_neg (by simp [hall'])]
          simp

/-- Full characterization of one `ConvolutionLayer::ComputeBlobMask` run: the
weight tensor is untouched, each flag is the old flag OR-ed with the zero test
on the unchanged weights, and both structural counters are recomputed from the
weights alone. -/
theorem ConvCBM_char (numRow numCol group : ℕ) (isPPc isPPr : Bool)
    (s : PruneState) :
    (ConvComputeBlobMask numRow numCol group isPPc isPPr s).weight = s.weight ∧
    (∀ j g, (ConvComputeBlobMask numRow numCol group isPPc isPPr s).IF_col_pruned j g =
      (s.IF_col_pruned j g || (decide ((j, g) ∈ cbmPairs numCol group) &&
        decide (groupColAbsSum numCol (numRow / group) s.weight j g = 0)))) ∧
    (∀ i, (ConvComputeBlobMask numRow numCol group isPPc isPPr s).IF_row_pruned i =
      (s.IF_row_pruned i || (decide (i ∈ List.range numRow) &&
        decide (rowAbsSum numCol s.weight i = 0)))) ∧
    (ConvComputeBlobMask numRow numCol group isPPc isPPr s).num_pruned_col =
      (((cbmPairs numCol group).countP fun p =>
        decide (groupColAbsSum numCol (numRow / group) s.weight p.1 p.2 = 0)) : ℚ) *
        (1 / (group : ℚ)) ∧
    (ConvComputeBlobMask numRow numCol group isPPc isPPr s).num_pruned_row =
      (List.range numRow).countP fun i => decide (rowAbsSum numCol s.weight i = 0) := by
  obtain ⟨hw, hr, hwf, hnw⟩ :=
    foldl_cbmCol_inv numCol (numRow / group) group isPPc (cbmPairs numCol group) s 0
  obtain ⟨hw2, hc2, hwf2, hnw2⟩ := foldl_cbmRow_inv numCol isPPr (List.range numRow)
    ((cbmPairs numCol group).foldl (cbmColStep numCol (numRow / group) group isPPc)
      (s, 0)).1 0
  refine ⟨?_, ?_, ?_, ?_, ?_⟩
  · show ((List.range numRow).foldl (cbmRowStep numCol isPPr) _).1.weight = s.weight
    rw [hw2, hw]
  · intro j g
    show ((List.range numRow).foldl (cbmRowStep numCol isPPr) _).1.IF_col_pruned j g = _
    rw [hc2, foldl_cbmCol_flag]
  · intro i
    show ((List.range numRow).foldl (cbmRowStep numCol isPPr) _).1.IF_row_pruned i = _
    rw [foldl_cbmRow_flag, hr, hw]
  · show ((cbmPairs numCol group).foldl (cbmColStep numCol (numRow / group) group isPPc)
      (s, 0)).2 = _
    rw [foldl_cbmCol_count]
    ring
  · show ((List.range numRow).foldl (cbmRowStep numCol isPPr) _).2 = _
    rw [foldl_cbmRow_count, hw]
    omega

/-- Full characterization of a non-Weight `InnerProductLayer::ComputeBlobMask`
run: same shape as the convolution version. -/
theorem IpCBM_char (numRow numCol group : ℕ) (unit : PruneUnit)
    (isPPc isPPr : Bool) (s : PruneState) (hu : unit ≠ PruneUnit.Weight) :
    (IpComputeBlobMask numRow numCol group unit isPPc isPPr s).weight = s.weight ∧
    (∀ j g, (IpComputeBlobMask numRow numCol group unit isPPc isPPr s).IF_col_pruned j g =
      (s.IF_col_pruned j g || (decide ((j, g) ∈ cbmPairs numCol group) &&
        decide (groupColAbsSum numCol (numRow / group) s.weight j g = 0)))) ∧
    (∀ i, (IpComputeBlobMask numRow numCol group unit isPPc isPPr s).IF_row_pruned i =
      (s.IF_row_pruned i || (decide (i ∈ List.range numRow) &&
        decide (rowAbsSum numCol s.weight i = 0)))) ∧
    (IpComputeBlobMask numRow numCol group unit isPPc isPPr s).num_pruned_col =
      (((cbmPairs numCol group).countP fun p =>
        decide (groupColAbsSum numCol (numRow / group) s.weight p.1 p.2 = 0)) : ℚ) *
        (1 / (group : ℚ)) ∧
    (IpComputeBlobMask numRow numCol group unit isPPc isPPr s).num_pruned_row =
      (List.range numRow).countP fun i => decide (rowAbsSum numCol s.weight i = 0) := by
  obtain ⟨hw, hr, hwf, hnw⟩ :=
    foldl_cbmCol_inv numCol (numRow / group) group isPPc (cbmPairs numCol group) s 0
  obtain ⟨hw2, hc2, hwf2, hnw2⟩ := foldl_cbmRow_inv numCol isPPr (List.range numRow)
    ((cbmPairs numCol group).foldl (cbmColStep numCol (numRow / group) group isPPc)
      (s, 0)).1 0
  rw [IpComputeBlobMask, if_neg hu, IpUpdatePrunedRatio, if_neg hu]
  refine ⟨?_, ?_, ?_, ?_, ?_⟩
  · show ((List.range numRow).foldl (cbmRowStep numCol isPPr) _).1.weight = s.weight
    rw [hw2, hw]
  · intro j g
    show ((List.range numRow).foldl (cbmRowStep numCol isPPr) _).1.IF_col_pruned j g = _
    rw [hc2, foldl_cbmCol_flag]
  · intro i
    show ((List.range numRow).foldl (cbmRowStep numCol isPPr) _).1.IF_row_pruned i = _
    rw [foldl_cbmRow_flag, hr, hw]
  · show ((cbmPairs numCol group).foldl (cbmColStep numCol (numRow / group) group isPPc)
      (s, 0)).2 = _
    rw [foldl_cbmCol_count]
    ring
  · show ((List.range numRow).foldl (cbmRowStep numCol isPPr) _).2 = _
    rw [foldl_cbmRow_count, hw]
    omega

/-- Full characterization of a Weight-unit `InnerProductLayer::ComputeBlobMask`
run: the weight tensor is untouched, each weight flag is OR-ed with the zero
test, and `num_pruned_weight` INCREASES by the number of zero weights — it is
accumulated, never recomputed. -/
theorem IpCBMW_char (numRow numCol group : ℕ) (isPPc isPPr : Bool)
    (s : PruneState) :
    (IpComputeBlobMask numRow numCol group PruneUnit.Weight isPPc isPPr s).weight =
      s.weight ∧
    (∀ i, (IpComputeBlobMask numRow numCol group PruneUnit.Weight isPPc isPPr
        s).IF_weight_pruned i =
      (s.IF_weight_pruned i || (decide (i ∈ List.range (numRow * numCol)) &&
        decide (s.weight i = 0)))) ∧
    (IpComputeBlobMask numRow numCol group PruneUnit.Weight isPPc isPPr
        s).num_pruned_weight =
      s.num_pruned_weight +
        (List.range (numRow * numCol)).countP fun i => decide (s.weight i = 0) := by
  obtain ⟨hwW, hrW, hcW, hprW, hpcW⟩ :=
    foldl_cbmW_inv (List.range (numRow * numCol)) s
  obtain ⟨hw1, hf1⟩ := foldl_ipUPRrow_inv numCol (List.range numRow)
    ((List.range (numRow * numCol)).foldl cbmWeightStep s)
  obtain ⟨hw2, hf2⟩ := foldl_ipUPRcol_inv numRow numCol (List.range numCol)
    ((List.range numRow).foldl (ipUPRrowStep numCol)
      ((List.range (numRow * numCol)).foldl cbmWeightStep s))
  rw [IpComputeBlobMask, if_pos rfl, IpUpdatePrunedRatio, if_pos rfl]
  refine ⟨?_, ?_, ?_⟩
  · show ((List.range numCol).foldl (ipUPRcolStep numRow numCol) _).weight = s.weight
    rw [hw2, hw1, hwW]
  · intro i
    show ((List.range numCol).foldl (ipUPRcolStep numRow numCol)
      _).IF_weight_pruned i = _
    rw [hf2, hf1, foldl_cbmW_flag]
  · show ((List.range numCol).foldl (ipUPRcolStep numRow numCol)
      _).num_pruned_weight = _
    rw [foldl_ipUPRcolStep_npw, foldl_ipUPRrowStep_npw, foldl_cbmW_npw]

/-- The weight flag of element `e` after the Weight-unit restoration scan on
state `s`: the old flag OR-ed with the in-range zero test. -/
def wFlagAfter (numRow numCol : ℕ) (s : PruneState) (e : ℕ) : Bool :=
  s.IF_weight_pruned e ||
    (decide (e ∈ List.range (numRow * numCol)) && decide (s.weight e = 0))

/-- Whether, after the Weight-unit restoration scan on state `s`, all of row
`i`'s weight flags are set — the completion test of the derived row scan. -/
def rowDoneAfter (numRow numCol : ℕ) (s : PruneState) (i : ℕ) : Bool :=
  (List.range numCol).all fun j => wFlagAfter numRow numCol s (i * numCol + j)

/-- Whether, after the Weight-unit restoration scan on state `s`, all of column
`j`'s weight flags are set — the completion test of the derived column scan. -/
def colDoneAfter (numRow numCol : ℕ) (s : PruneState) (j : ℕ) : Bool :=
  (List.range numRow).all fun i => wFlagAfter numRow numCol s (i * numCol + j)

/-- Row/column view of a Weight-unit `InnerProductLayer::ComputeBlobMask` run:
the derived scans of `UpdatePrunedRatio` flag exactly the not-yet-flagged rows
(columns, at group 0) all of whose weight flags end up set, reading the
weight-flag state produced by the restoration scan on the unchanged weight
tensor, and bump the corresponding counters by the number of newly completed
units. -/
theorem IpCBMW_rowcol_char (numRow numCol group : ℕ) (isPPc isPPr : Bool)
    (s : PruneState) :
    (∀ i, (IpComputeBlobMask numRow numCol group PruneUnit.Weight isPPc isPPr
        s).IF_row_pruned i =
      (s.IF_row_pruned i || (decide (i ∈ List.range numRow) &&
        rowDoneAfter numRow numCol s i))) ∧
    (IpComputeBlobMask numRow numCol group PruneUnit.Weight isPPc isPPr
        s).num_pruned_row =
      s.num_pruned_row + (List.range numRow).countP (fun i =>
        !s.IF_row_pruned i && rowDoneAfter numRow numCol s i) ∧
    (∀ j g, (IpComputeBlobMask numRow numCol group PruneUnit.Weight isPPc isPPr
        s).IF_col_pruned j g =
      (s.IF_col_pruned j g || (decide (j ∈ List.range numCol) && decide (g = 0) &&
        colDoneAfter numRow numCol s j))) ∧
    (IpComputeBlobMask numRow numCol group PruneUnit.Weight isPPc isPPr
        s).num_pruned_col =
      s.num_pruned_col + (((List.range numCol).countP (fun j =>
        !s.IF_col_pruned j 0 && colDoneAfter numRow numCol s j)) : ℚ) := by
  obtain ⟨hWw, hWr, hWc, hWnr, hWnc⟩ :=
    foldl_cbmW_inv (List.range (numRow * numCol)) s
  have hWfun : ((List.range (numRow * numCol)).foldl
      cbmWeightStep s).IF_weight_pruned =
      fun e => (s.IF_weight_pruned e ||
        (decide (e ∈ List.range (numRow * numCol)) && decide (s.weight e = 0))) :=
    funext fun e => foldl_cbmW_flag (List.range (numRow * numCol)) s e
  obtain ⟨hRowf, hRowc⟩ := foldl_ipUPRrow_char numCol (List.range numRow)
    (List.nodup_range _) ((List.range (numRow * numCol)).foldl cbmWeightStep s)
  obtain ⟨hRowI2f, hRowI2c⟩ := foldl_ipUPRrow_inv2 numCol (List.range numRow)
    ((List.range (numRow * numCol)).foldl cbmWeightStep s)
  obtain ⟨hRowIw, hRowIwf⟩ := foldl_ipUPRrow_inv numCol (List.range numRow)
    ((List.range (numRow * numCol)).foldl cbmWeightStep s)
  obtain ⟨hColf, hColc⟩ := foldl_ipUPRcol_char numRow numCol (List.range numCol)
    (List.nodup_range _)
    ((List.range numRow).foldl (ipUPRrowStep numCol)
      ((List.range (numRow * numCol)).foldl cbmWeightStep s))
  obtain ⟨hColI2f, hColI2c⟩ := foldl_ipUPRcol_inv2 numRow numCol
    (List.range numCol)
    ((List.range numRow).foldl (ipUPRrowStep numCol)
      ((List.range (numRow * numCol)).foldl cbmWeightStep s))
  rw [IpComputeBlobMask, if_pos rfl, IpUpdatePrunedRatio, if_pos rfl]
  refine ⟨?_, ?_, ?_, ?_⟩
  · intro i
    show ((List.range numCol).foldl (ipUPRcolStep numRow numCol)
      _).IF_row_pruned i = _
    rw [hColI2f, hRowf i, hWr, hWfun]
    rfl
  · show ((List.range numCol).foldl (ipUPRcolStep numRow numCol)
      _).num_pruned_row = _
    rw [hColI2c, hRowc, hWnr, hWr, hWfun]
    rfl
  · intro j g
    show ((List.range numCol).foldl (ipUPRcolStep numRow numCol)
      _).IF_col_pruned j g = _
    rw [hColf j g, hRowI2f, hWc, hRowIwf, hWfun]
    rfl
  · show ((List.range numCol).foldl (ipUPRcolStep numRow numCol)
      _).num_pruned_col = _
    rw [hColc, hRowI2c, hWnc, hRowI2f, hWc, hRowIwf, hWfun]
    rfl

/-- The after-scan weight-flag test is stable under a Weight-unit
`ComputeBlobMask` run: the run leaves the weight tensor alone and OR-absorbs
the zero test into the weight flag. -/
theorem wFlagAfter_idem (numRow numCol group : ℕ) (isPPc isPPr : Bool)
    (s : PruneState) (e : ℕ) :
    wFlagAfter numRow numCol
      (IpComputeBlobMask numRow numCol group PruneUnit.Weight isPPc isPPr s) e =
      wFlagAfter numRow numCol s e := by
  obtain ⟨ww1, wf1, _⟩ := IpCBMW_char numRow numCol group isPPc isPPr s
  show ((IpComputeBlobMask numRow numCol group PruneUnit.Weight isPPc isPPr
      s).IF_weight_pruned e ||
    (decide (e ∈ List.range (numRow * numCol)) &&
      decide ((IpComputeBlobMask numRow numCol group PruneUnit.Weight isPPc isPPr
        s).weight e = 0))) = _
  rw [wf1 e, ww1]
  exact bool_or_idem _ _

/-- The row-completion test is stable under a Weight-unit `ComputeBlobMask`
run. -/
theorem rowDoneAfter_idem (numRow numCol group : ℕ) (isPPc isPPr : Bool)
    (s : PruneState) (i : ℕ) :
    rowDoneAfter numRow numCol
      (IpComputeBlobMask numRow numCol group PruneUnit.Weight isPPc isPPr s) i =
      rowDoneAfter numRow numCol s i :=
  all_congr_fun _ _ _ fun j =>
    wFlagAfter_idem numRow numCol group isPPc isPPr s (i * numCol + j)

/-- The column-completion test is stable under a Weight-unit `ComputeBlobMask`
run. -/
theorem colDoneAfter_idem (numRow numCol group : ℕ) (isPPc isPPr : Bool)
    (s : PruneState) (j : ℕ) :
    colDoneAfter numRow numCol
      (IpComputeBlobMask numRow numCol group PruneUnit.Weight isPPc isPPr s) j =
      colDoneAfter numRow numCol s j :=
  all_congr_fun _ _ _ fun i =>
    wFlagAfter_idem numRow numCol group isPPc isPPr s (i * numCol + j)

/-- C8. For every layer, a second `ComputeBlobMask` run on the unchanged weight
tensor reproduces the first run's pruned-row flags, pruned-column flags,
`num_pruned_row` and `num_pruned_col` — for convolution layers and for
fully-connected layers in every prune unit, the Weight unit included (there the
derived scans of `UpdatePrunedRatio` skip already-flagged rows/columns and the
weight-flag state they read is itself reproduced, so no second completion
fires). For the Weight unit the weight-pruned flags are also reproduced, but
the weight-granularity counter `num_pruned_weight` is NOT: the restoration scan
increments it once more for every zero weight (inner_product_layer.cpp:326-330
increments with no already-flagged check and the counter is never recomputed),
so the two runs only agree on it when the tensor has no zero weight. -/
theorem ComputeBlobMask_idempotent (numRow numCol group : ℕ) (isPPc isPPr : Bool)
    (unit : PruneUnit) (hu : unit ≠ PruneUnit.Weight) (s : PruneState) :
    (∀ j g, (ConvComputeBlobMask numRow numCol group isPPc isPPr
        (ConvComputeBlobMask numRow numCol group isPPc isPPr s)).IF_col_pruned j g =
      (ConvComputeBlobMask numRow numCol group isPPc isPPr s).IF_col_pruned j g) ∧
    (∀ i, (ConvComputeBlobMask numRow numCol group isPPc isPPr
        (ConvComputeBlobMask numRow numCol group isPPc isPPr s)).IF_row_pruned i =
      (ConvComputeBlobMask numRow numCol group isPPc isPPr s).IF_row_pruned i) ∧
    (ConvComputeBlobMask numRow numCol group isPPc isPPr
        (ConvComputeBlobMask numRow numCol group isPPc isPPr s)).num_pruned_col =
      (ConvComputeBlobMask numRow numCol group isPPc isPPr s).num_pruned_col ∧
    (ConvComputeBlobMask numRow numCol group isPPc isPPr
        (ConvComputeBlobMask numRow numCol group isPPc isPPr s)).num_pruned_row =
      (ConvComputeBlobMask numRow numCol group isPPc isPPr s).num_pruned_row ∧
    (∀ j g, (IpComputeBlobMask numRow numCol group unit isPPc isPPr
        (IpComputeBlobMask numRow numCol group unit isPPc isPPr s)).IF_col_pruned j g =
      (IpComputeBlobMask numRow numCol group unit isPPc isPPr s).IF_col_pruned j g) ∧
    (∀ i, (IpComputeBlobMask numRow numCol group unit isPPc isPPr
        (IpComputeBlobMask numRow numCol group unit isPPc isPPr s)).IF_row_pruned i =
      (IpComputeBlobMask numRow numCol group unit isPPc isPPr s).IF_row_pruned i) ∧
    (IpComputeBlobMask numRow numCol group unit isPPc isPPr
        (IpComputeBlobMask numRow numCol group unit isPPc isPPr s)).num_pruned_col =
      (IpComputeBlobMask numRow numCol group unit isPPc isPPr s).num_pruned_col ∧
    (IpComputeBlobMask numRow numCol group unit isPPc isPPr
        (IpComputeBlobMask numRow numCol group unit isPPc isPPr s)).num_pruned_row =
      (IpComputeBlobMask numRow numCol group unit isPPc isPPr s).num_pruned_row ∧
    (∀ i, (IpComputeBlobMask numRow numCol group PruneUnit.Weight isPPc isPPr
        (IpComputeBlobMask numRow numCol group PruneUnit.Weight isPPc isPPr
          s)).IF_weight_pruned i =
      (IpComputeBlobMask numRow numCol group PruneUnit.Weight isPPc isPPr
        s).IF_weight_pruned i) ∧
    (IpComputeBlobMask numRow numCol group PruneUnit.Weight isPPc isPPr
        (IpComputeBlobMask numRow numCol group PruneUnit.Weight isPPc isPPr
          s)).num_pruned_weight =
      (IpComputeBlobMask numRow numCol group PruneUnit.Weight isPPc isPPr
          s).num_pruned_weight +
        (List.range (numRow * numCol)).countP (fun i => decide (s.weight i = 0)) ∧
    (∀ i, (IpComputeBlobMask numRow numCol group PruneUnit.Weight isPPc isPPr
        (IpComputeBlobMask numRow numCol group PruneUnit.Weight isPPc isPPr
          s)).IF_row_pruned i =
      (IpComputeBlobMask numRow numCol group PruneUnit.Weight isPPc isPPr
        s).IF_row_pruned i) ∧
    (IpComputeBlobMask numRow numCol group PruneUnit.Weight isPPc isPPr
        (IpComputeBlobMask numRow numCol group PruneUnit.Weight isPPc isPPr
          s)).num_pruned_row =
      (IpComputeBlobMask numRow numCol group PruneUnit.Weight isPPc isPPr
        s).num_pruned_row ∧
    (∀ j g, (IpComputeBlobMask numRow numCol group PruneUnit.Weight isPPc isPPr
        (IpComputeBlobMask numRow numCol group PruneUnit.Weight isPPc isPPr
          s)).IF_col_pruned j g =
      (IpComputeBlobMask numRow numCol group PruneUnit.Weight isPPc isPPr
        s).IF_col_pruned j g) ∧
    (IpComputeBlobMask numRow numCol group PruneUnit.Weight isPPc isPPr
        (IpComputeBlobMask numRow numCol group PruneUnit.Weight isPPc isPPr
          s)).num_pruned_col =
      (IpComputeBlobMask numRow numCol group PruneUnit.Weight isPPc isPPr
        s).num_pruned_col := by
  obtain ⟨hw1, hc1, hr1, hpc1, hpr1⟩ := ConvCBM_char numRow numCol group isPPc isPPr s
  obtain ⟨hw2, hc2, hr2, hpc2, hpr2⟩ := ConvCBM_char numRow numCol group isPPc isPPr
    (ConvComputeBlobMask numRow numCol group isPPc isPPr s)
  obtain ⟨iw1, ic1, ir1, ipc1, ipr1⟩ :=
    IpCBM_char numRow numCol group unit isPPc isPPr s hu
  obtain ⟨iw2, ic2, ir2, ipc2, ipr2⟩ := IpCBM_char numRow numCol group unit isPPc isPPr
    (IpComputeBlobMask numRow numCol group unit isPPc isPPr s) hu
  obtain ⟨ww1, wf1, wn1⟩ := IpCBMW_char numRow numCol group isPPc isPPr s
  obtain ⟨ww2, wf2, wn2⟩ := IpCBMW_char numRow numCol group isPPc isPPr
    (IpComputeBlobMask numRow numCol group PruneUnit.Weight isPPc isPPr s)
  obtain ⟨rf1, rn1, cf1, cn1⟩ := IpCBMW_rowcol_char numRow numCol group isPPc isPPr s
  obtain ⟨rf2, rn2, cf2, cn2⟩ := IpCBMW_rowcol_char numRow numCol group isPPc isPPr
    (IpComputeBlobMask numRow numCol group PruneUnit.Weight isPPc isPPr s)
  refine ⟨?_, ?_, ?_, ?_, ?_, ?_, ?_, ?_, ?_, ?_, ?_, ?_, ?_, ?_⟩
  · intro j g
    rw [hc2 j g, hw1, hc1 j g, bool_or_idem]
  · intro i
    rw [hr2 i, hw1, hr1 i, bool_or_idem]
  · rw [hpc2, hw1, hpc1]
  · rw [hpr2, hw1, hpr1]
  · intro j g
    rw [ic2 j g, iw1, ic1 j g, bool_or_idem]
  · intro i
    rw [ir2 i, iw1, ir1 i, bool_or_idem]
  · rw [ipc2, iw1, ipc1]
  · rw [ipr2, iw1, ipr1]
  · intro i
    rw [wf2 i, ww1, wf1 i, bool_or_idem]
  · rw [wn2, ww1]
  · intro i
    rw [rf2 i, rowDoneAfter_idem, rf1 i]
    exact bool_or_idem _ _
  · have h0 : (List.range numRow).countP (fun i =>
        !(IpComputeBlobMask numRow numCol group PruneUnit.Weight isPPc isPPr
          s).IF_row_pruned i &&
        rowDoneAfter numRow numCol
          (IpComputeBlobMask numRow numCol group PruneUnit.Weight isPPc isPPr s) i)
        = 0 := by
      rw [List.countP_eq_zero]
      intro i hi
      intro hcon
      rw [Bool.and_eq_true, Bool.not_eq_true'] at hcon
      obtain ⟨hneg, hdone⟩ := hcon
      rw [rowDoneAfter_idem] at hdone
      rw [rf1 i, decide_eq_true hi, hdone] at hneg
      simp at hneg
    rw [rn2, h0]
    omega
  · intro j g
    rw [cf2 j g, colDoneAfter_idem, cf1 j g]
    exact bool_or_idem _ _
  · have h0 : (List.range numCol).countP (fun j =>
        !(IpComputeBlobMask numRow numCol group PruneUnit.Weight isPPc isPPr
          s).IF_col_pruned j 0 &&
        colDoneAfter numRow numCol
          (IpComputeBlobMask numRow numCol group PruneUnit.Weight isPPc isPPr s) j)
        = 0 := by
      rw [List.countP_eq_zero]
      intro j hj
      intro hcon
      rw [Bool.and_eq_true, Bool.not_eq_true'] at hcon
      obtain ⟨hneg, hdone⟩ := hcon
      rw [colDoneAfter_idem] at hdone
      rw [cf1 j 0, decide_eq_true hj, hdone] at hneg
      simp at hneg
    rw [cn2, h0]
    simp

/-- Concrete 2x2 state for the C8 witness: one zero column, one zero row. -/
def stC8w : PruneState :=
  { PruneState.base with weight := fun e => if e = 3 then 1 else 0 }

/-- Witness for C8 at a concrete input: 2x2 tensor with a lone nonzero element,
prune unit `Col` for the fully-connected run, plus the Weight-unit row-counter
stability on the same tensor. -/
theorem ComputeBlobMask_idempotent_witness :
    PruneUnit.Col ≠ PruneUnit.Weight ∧
    (ConvComputeBlobMask 2 2 1 false false (ConvComputeBlobMask 2 2 1 false false
        stC8w)).num_pruned_row =
      (ConvComputeBlobMask 2 2 1 false false stC8w).num_pruned_row ∧
    (IpComputeBlobMask 2 2 1 PruneUnit.Col false false (IpComputeBlobMask 2 2 1
        PruneUnit.Col false false stC8w)).num_pruned_col =
      (IpComputeBlobMask 2 2 1 PruneUnit.Col false false stC8w).num_pruned_col ∧
    (IpComputeBlobMask 2 2 1 PruneUnit.Weight false false (IpComputeBlobMask 2 2 1
        PruneUnit.Weight false false stC8w)).num_pruned_row =
      (IpComputeBlobMask 2 2 1 PruneUnit.Weight false false stC8w).num_pruned_row :=
  ⟨by decide,
   (ComputeBlobMask_idempotent 2 2 1 false false PruneUnit.Col (by decide)
     stC8w).2.2.2.1,
   (ComputeBlobMask_idempotent 2 2 1 false false PruneUnit.Col (by decide)
     stC8w).2.2.2.2.2.2.1,
   (ComputeBlobMask_idempotent 2 2 1 false false PruneUnit.Col (by decide)
     stC8w).2.2.2.2.2.2.2.2.2.2.2.1⟩

/-- Counterexample to the literal C8 claim: on a 1x1 fully-connected layer in
Weight mode whose only weight is zero, the first `ComputeBlobMask` run leaves
`num_pruned_weight = 1` and the second run on the unchanged tensor leaves `2`,
so the two runs do not produce identical weight-granularity counts. -/
theorem ipComputeBlobMask_weight_counterexample :
    (IpComputeBlobMask 1 1 1 PruneUnit.Weight false false
      PruneState.base).num_pruned_weight = 1 ∧
    (IpComputeBlobMask 1 1 1 PruneUnit.Weight false false
      (IpComputeBlobMask 1 1 1 PruneUnit.Weight false false
        PruneState.base)).num_pruned_weight = 2 :=
  ⟨by with_unfolding_all rfl, by with_unfolding_all rfl⟩

/-! ### Reg_Col / Reg-rank regularization (claim C5)

`SGDSolver::Regularize`, branch `regularization_type == "SelectiveReg" ||
"Reg_Col"` with `prune_coremthd == "Reg-rank"` and scheme 1
(sgd_solver.cpp:505-660, punishment at 636-660, apply at 722-725). The
punishment increment `Delta = j < N1 ? AA*exp(-alpha*j) :
-AA*exp(-alpha*(2*N1-j)) + 2*kk*AA` is transcendental in general, so the curve
is passed in as an abstract function `delta` of the rank; `deltaC5` below
instantiates it exactly for `kk = 1/4, AA = 1, num_col_to_prune_ = 2`, where
`alpha = log 2` and every value is rational. -/

/-- One iteration of `for (i = 0; i < num_row; ++i) reg_multiplier[i*num_col +
col] = v` (sgd_solver.cpp:648-650). -/
def writeCol (numCol col : ℕ) (v : ℚ) (r : ℕ → ℚ) (i : ℕ) : ℕ → ℚ :=
  fun e => if e = i * numCol + col then v else r e

/-- Sort-01 key list (sgd_solver.cpp:546-558): a pruned column keeps its
`hrank` value so it sinks; a live column scores its L1 magnitude. -/
def colScoreRC (numRow numCol : ℕ) (s : PruneState) : List (ℚ × ℕ) :=
  (List.range numCol).map fun j =>
    (if s.IF_col_pruned j 0 then s.hrank j else colAbsSum numRow numCol s.weight j, j)

/-- One iteration of the running-average rank update (sgd_solver.cpp:561-566):
`hrank[col] = ((n-1)*hrank[col] + rk) / n` for a not-yet-pruned column of sort
rank `rk`. -/
def hrankUpdStep (n : ℕ) (s : PruneState) (p : ℕ × ℚ × ℕ) : PruneState :=
  let rk := p.1
  let col := p.2.2
  if s.IF_col_pruned col 0 then s
  else
    { s with
      hrank := fun j2 =>
        if j2 = col then (((n : ℚ) - 1) * s.hrank col + (rk : ℚ)) / (n : ℚ)
        else s.hrank j2 }

/-- Sort-02 key list (sgd_solver.cpp:573-587): `(hrank[j], j)` per column. -/
def colHrankRC (numCol : ℕ) (s : PruneState) : List (ℚ × ℕ) :=
  (List.range numCol).map fun j => (s.hrank j, j)

/-- One rank of the scheme-1 punishment loop (sgd_solver.cpp:642-651): the
ranked column accumulates `delta rank` into `history_reg` clamped below at 0 —
there is NO upper clamp in this branch — and broadcasts the new value to the
whole column of `reg_multiplier`. -/
def punishStep (numRow numCol : ℕ) (delta : ℕ → ℚ) (sr : PruneState × (ℕ → ℚ))
    (p : ℕ × ℚ × ℕ) : PruneState × (ℕ → ℚ) :=
  let j := p.1
  let col := p.2.2
  let newReg := max (sr.1.history_reg col + delta j) 0
  ({ sr.1 with
      history_reg := fun c => if c = col then newReg else sr.1.history_reg c },
   (List.range numRow).foldl (writeCol numCol col newReg) sr.2)

/-- State after the parts of the `Reg_Col` branch that run on every iteration:
the weight-decay axpy (sgd_solver.cpp:507-510) and the sort-by-magnitude /
running-average `hrank` update (546-566), before the `prune_interval` guard. -/
def regColPre (numRow numCol : ℕ) (localDecay : ℚ) (iter : ℕ)
    (s : PruneState) : PruneState :=
  let s1 := { s with diff := fun e => s.diff e + localDecay * s.weight e }
  let sorted := List.insertionSort pairLe (colScoreRC numRow numCol s1)
  ((List.range numCol).zip sorted).foldl (hrankUpdStep (iter + 1)) s1

/-- The rank/column pairs processed by the punishment loop (sgd_solver.cpp:642:
`j` ranges over `[0, num_col_)` and reads `col_hrank[j + num_pruned_col]`). -/
def regColPunList (numCol : ℕ) (t : PruneState) : List (ℕ × ℚ × ℕ) :=
  let npc := (⌊t.num_pruned_col⌋).toNat
  (List.range (numCol - npc)).zip
    ((List.insertionSort pairLe (colHrankRC numCol t)).drop npc)

/-- Punishment phase of the `Reg_Col` / `Reg-rank` scheme-1 branch: the
ranked fold starting from `reg_multiplier` all `-1` (sgd_solver.cpp:539,
642-651), then the apply-reg write `diff[i] += reg_multiplier[i] * weight[i]`
over the `count` elements (722-725). -/
def regColPunish (numRow numCol : ℕ) (delta : ℕ → ℚ) (t : PruneState) :
    PruneState :=
  let sr := (regColPunList numCol t).foldl (punishStep numRow numCol delta)
    (t, fun _ => (-1 : ℚ))
  { sr.1 with
    diff := fun e =>
      if e < numRow * numCol then sr.1.diff e + sr.2 e * sr.1.weight e
      else sr.1.diff e }

/-- Assembled `Reg_Col` branch: pre phase, `prune_interval` guard (`return`
keeps the pre state), punishment phase with the apply-reg write. -/
def RegColRank (numRow numCol : ℕ) (localDecay : ℚ) (iter pruneInterval : ℕ)
    (delta : ℕ → ℚ) (s : PruneState) : PruneState :=
  let t := regColPre numRow numCol localDecay iter s
  if iter % pruneInterval ≠ 0 then t
  else regColPunish numRow numCol delta t

/-- The scheme-1 punishment curve at `kk = 1/4`, `AA = 1`,
`num_col_to_prune_ = 2`: then `alpha = log(2/kk)/(num_col_to_prune_+1) =
log 2`, `N1 = -log kk / alpha = 2`, and `Delta(j) = j < 2 ? exp(-j*log 2) :
-exp(-(4-j)*log 2) + 1/2`, i.e. `(1/2)^j` for `j < 2` and `1/2 - 2^j/16`
otherwise — every value exactly rational: `1, 1/2, 1/4, 0, -1/2, -3/2, ...`. -/
def deltaC5 : ℕ → ℚ :=
  fun j => if j < 2 then (1 / 2 : ℚ) ^ j else 1 / 2 - (2 : ℚ) ^ j / 16

/-- Value of the column-broadcast write loop: the index holds the written value
if some iteration targets it, else the old value. -/
theorem foldl_writeCol_char (numCol col : ℕ) (v : ℚ) (l : List ℕ) :
    ∀ (r : ℕ → ℚ) (e : ℕ),
    (l.foldl (writeCol numCol col v) r) e =
      if l.any (fun i => e == i * numCol + col) then v else r e := by
  induction l with
  | nil => intro r e; simp
  | cons a rest ih =>
    intro r e
    rw [List.foldl_cons, ih]
    by_cases hm : rest.any (fun i => e == i * numCol + col)
    · simp [List.any_cons, hm]
    · by_cases hea : e = a * numCol + col
      · simp [List.any_cons, hm, writeCol, hea]
      · simp [List.any_cons, hm, writeCol, hea]

/-- The punishment fold leaves `history_reg` alone at every column that is not
one of the processed ranks' columns. -/
theorem punish_fold_hr_frame (numRow numCol : ℕ) (delta : ℕ → ℚ)
    (l : List (ℕ × ℚ × ℕ)) : ∀ (u : PruneState) (r : ℕ → ℚ) (c : ℕ),
    c ∉ (l.map fun p => p.2.2) →
    ((l.foldl (punishStep numRow numCol delta) (u, r)).1).history_reg c =
      u.history_reg c := by
  induction l with
  | nil => intro u r c _; rfl
  | cons a rest ih =>
    intro u r c hc
    rw [List.map_cons, List.mem_cons] at hc
    push_neg at hc
    rw [List.foldl_cons]
    rw [ih _ _ _ hc.2]
    show (if c = a.2.2 then _ else u.history_reg c) = u.history_reg c
    rw [if_neg hc.1]

/-- The punishment fold leaves the multiplier alone at every element whose
column is not one of the processed ranks' columns. -/
theorem punish_fold_mul_frame (numRow numCol : ℕ) (delta : ℕ → ℚ)
    (l : List (ℕ × ℚ × ℕ)) : ∀ (u : PruneState) (r : ℕ → ℚ) (e : ℕ),
    (∀ q ∈ l, q.2.2 < numCol ∧ e % numCol ≠ q.2.2) →
    (l.foldl (punishStep numRow numCol delta) (u, r)).2 e = r e := by
  induction l with
  | nil => intro u r e _; rfl
  | cons a rest ih =>
    intro u r e he
    rw [List.foldl_cons]
    rw [ih _ _ _ fun q hq => he q (List.mem_cons_of_mem a hq)]
    show ((List.range numRow).foldl (writeCol numCol a.2.2 _) r) e = r e
    rw [foldl_writeCol_char]
    rw [if_neg ?_]
    rw [List.any_eq_true]
    push_neg
    intro i _hi
    obtain ⟨hlt, hne⟩ := he a (List.mem_cons_self a rest)
    intro hcontra
    apply hne
    rw [beq_iff_eq] at hcontra
    rw [hcontra, Nat.mul_add_mod', Nat.mod_eq_of_lt hlt]

/-- The punishment fold touches neither the weight tensor nor the gradient
buffer (the apply-reg write happens after it). -/
theorem punish_fold_wdiff (numRow numCol : ℕ) (delta : ℕ → ℚ)
    (l : List (ℕ × ℚ × ℕ)) : ∀ (u : PruneState) (r : ℕ → ℚ),
    ((l.foldl (punishStep numRow numCol delta) (u, r)).1).weight = u.weight ∧
    ((l.foldl (punishStep numRow numCol delta) (u, r)).1).diff = u.diff := by
  induction l with
  | nil => intro u r; exact ⟨rfl, rfl⟩
  | cons a rest ih =>
    intro u r
    rw [List.foldl_cons]
    exact ih _ _

/-- The punishment fold preserves nonnegativity of every `history_reg` entry:
each written value is a `max` with 0. -/
theorem punish_fold_nonneg (numRow numCol : ℕ) (delta : ℕ → ℚ)
    (l : List (ℕ × ℚ × ℕ)) : ∀ (u : PruneState) (r : ℕ → ℚ),
    (∀ c, 0 ≤ u.history_reg c) →
    ∀ c, 0 ≤ ((l.foldl (punishStep numRow numCol delta) (u, r)).1).history_reg c := by
  induction l with
  | nil => intro u r hu c; exact hu c
  | cons a rest ih =>
    intro u r hu c
    rw [List.foldl_cons]
    refine ih _ _ ?_ c
    intro c2
    show 0 ≤ if c2 = a.2.2 then _ else u.history_reg c2
    by_cases hc2 : c2 = a.2.2
    · rw [if_pos hc2]
      exact le_max_right _ _
    · rw [if_neg hc2]
      exact hu c2

/-- Main characterization of the punishment fold: when the processed columns
are distinct and in range, each processed rank's column ends with
`history_reg = max (old + delta rank) 0`, and every multiplier element of that
column holds the same value. -/
theorem punish_fold_main (numRow numCol : ℕ) (delta : ℕ → ℚ)
    (l : List (ℕ × ℚ × ℕ)) :
    ∀ (hnd : (l.map fun p => p.2.2).Nodup) (hlt : ∀ p ∈ l, p.2.2 < numCol)
      (u : PruneState) (r : ℕ → ℚ) (p : ℕ × ℚ × ℕ), p ∈ l →
    ((l.foldl (punishStep numRow numCol delta) (u, r)).1).history_reg p.2.2 =
      max (u.history_reg p.2.2 + delta p.1) 0 ∧
    ∀ i, i < numRow →
      (l.foldl (punishStep numRow numCol delta) (u, r)).2 (i * numCol + p.2.2) =
        max (u.history_reg p.2.2 + delta p.1) 0 := by
  induction l with
  | nil => intro _ _ u r p hp; exact absurd hp (List.not_mem_nil p)
  | cons a rest ih =>
    intro hnd hlt u r p hp
    rw [List.map_cons, List.nodup_cons] at hnd
    rw [List.foldl_cons]
    rcases List.mem_cons.mp hp with hpa | hprest
    · subst hpa
      have hca : p.2.2 < numCol := hlt p (List.mem_cons_self p rest)
      constructor
      · rw [punish_fold_hr_frame _ _ _ _ _ _ _ hnd.1]
        show (if p.2.2 = p.2.2 then _ else _) = _
        rw [if_pos rfl]
      · intro i hi
        rw [punish_fold_mul_frame]
        · show ((List.range numRow).foldl (writeCol numCol p.2.2 _) r)
            (i * numCol + p.2.2) = _
          rw [foldl_writeCol_char, if_pos]
          rw [List.any_eq_true]
          exact ⟨i, List.mem_range.mpr hi, by rw [beq_iff_eq]⟩
        · intro q hq
          refine ⟨hlt q (List.mem_cons_of_mem p hq), ?_⟩
          rw [Nat.mul_add_mod', Nat.mod_eq_of_lt hca]
          intro hcontra
          exact hnd.1 (hcontra ▸ List.mem_map_of_mem (fun p2 => p2.2.2) hq)
    · have hne : p.2.2 ≠ a.2.2 := by
        intro hcontra
        exact hnd.1 (hcontra ▸ List.mem_map_of_mem (fun p2 => p2.2.2) hprest)
      have := ih hnd.2 (fun q hq => hlt q (List.mem_cons_of_mem a hq))
        (punishStep numRow numCol delta (u, r) a).1
        (punishStep numRow numCol delta (u, r) a).2 p hprest
      rw [show ((punishStep numRow numCol delta (u, r) a).1).history_reg p.2.2 =
          u.history_reg p.2.2 from by
        show (if p.2.2 = a.2.2 then _ else _) = _
        rw [if_neg hne]] at this
      exact this

/-- The `hrank`-update fold writes only the `hrank` field. -/
theorem foldl_hrankUpd_inv (n : ℕ) (l : List (ℕ × ℚ × ℕ)) : ∀ s : PruneState,
    (l.foldl (hrankUpdStep n) s).weight = s.weight ∧
    (l.foldl (hrankUpdStep n) s).diff = s.diff ∧
    (l.foldl (hrankUpdStep n) s).history_reg = s.history_reg ∧
    (l.foldl (hrankUpdStep n) s).num_pruned_col = s.num_pruned_col := by
  induction l with
  | nil => intro s; exact ⟨rfl, rfl, rfl, rfl⟩
  | cons a rest ih =>
    intro s
    rw [List.foldl_cons]
    unfold hrankUpdStep
    dsimp only
    split
    · exact ih _
    · exact ih _

/-- Through the every-iteration part of `Reg_Col` the weight tensor,
`history_reg` and the pruned-column count are untouched, and the gradient has
received exactly the weight-decay term. -/
theorem regColPre_inv (numRow numCol : ℕ) (localDecay : ℚ) (iter : ℕ)
    (s : PruneState) :
    (regColPre numRow numCol localDecay iter s).weight = s.weight ∧
    (regColPre numRow numCol localDecay iter s).history_reg = s.history_reg ∧
    (regColPre numRow numCol localDecay iter s).num_pruned_col =
      s.num_pruned_col ∧
    (regColPre numRow numCol localDecay iter s).diff =
      fun e => s.diff e + localDecay * s.weight e := by
  obtain ⟨hw, hd, hr, hc⟩ := foldl_hrankUpd_inv (iter + 1)
    ((List.range numCol).zip (List.insertionSort pairLe (colScoreRC numRow numCol
      { s with diff := fun e => s.diff e + localDecay * s.weight e })))
    { s with diff := fun e => s.diff e + localDecay * s.weight e }
  exact ⟨hw, hr, hc, hd⟩

/-- Every rank/column pair fed to the punishment loop carries an in-range
column index. -/
theorem regColPunList_snd_lt (numCol : ℕ) (t : PruneState) :
    ∀ p ∈ regColPunList numCol t, p.2.2 < numCol := by
  intro p hp
  have h2 := (List.of_mem_zip hp).2
  have h3 := List.mem_of_mem_drop h2
  have h4 := (List.mem_insertionSort pairLe).mp h3
  rw [colHrankRC, List.mem_map] at h4
  obtain ⟨j, hj, hje⟩ := h4
  rw [← hje]
  exact List.mem_range.mp hj

/-- The columns fed to the punishment loop are pairwise distinct: the sorted
`(hrank, column)` list is a permutation of one pair per column. -/
theorem regColPunList_snd_nodup (numCol : ℕ) (t : PruneState) :
    ((regColPunList numCol t).map fun p => p.2.2).Nodup := by
  have hlen : ((List.insertionSort pairLe (colHrankRC numCol t)).drop
      ((⌊t.num_pruned_col⌋).toNat)).length =
      numCol - (⌊t.num_pruned_col⌋).toNat := by
    rw [List.length_drop, List.length_insertionSort, colHrankRC,
      List.length_map, List.length_range]
  have hmap : (regColPunList numCol t).map (fun p => p.2.2) =
      ((List.insertionSort pairLe (colHrankRC numCol t)).drop
        ((⌊t.num_pruned_col⌋).toNat)).map Prod.snd := by
    rw [regColPunList]
    rw [show ((fun p => p.2.2) : ℕ × ℚ × ℕ → ℕ) = Prod.snd ∘ Prod.snd from rfl]
    rw [← List.map_map]
    rw [List.map_snd_zip _ _ (by rw [hlen, List.length_range])]
  rw [hmap]
  have hsortnd : ((List.insertionSort pairLe (colHrankRC numCol t)).map
      Prod.snd).Nodup := by
    have hperm : ((List.insertionSort pairLe (colHrankRC numCol t)).map
        Prod.snd).Perm ((colHrankRC numCol t).map Prod.snd) :=
      (List.perm_insertionSort pairLe (colHrankRC numCol t)).map Prod.snd
    have hbase : (colHrankRC numCol t).map Prod.snd = List.range numCol := by
      rw [colHrankRC, List.map_map]
      exact List.map_id'' (fun _ => rfl) _
    rw [hperm.nodup_iff, hbase]
    exact List.nodup_range _
  exact List.Nodup.sublist ((List.drop_sublist _ _).map Prod.snd) hsortnd

/-- Characterization of the punishment phase against an arbitrary pre state:
weight untouched, each ranked column's `history_reg` becomes
`max (old + delta rank) 0`, nonnegativity is preserved everywhere, and each
element of a ranked column receives `new_reg * weight` into its gradient. -/
theorem regColPunish_char (numRow numCol : ℕ) (delta : ℕ → ℚ) (t : PruneState) :
    (regColPunish numRow numCol delta t).weight = t.weight ∧
    (∀ p ∈ regColPunList numCol t,
      (regColPunish numRow numCol delta t).history_reg p.2.2 =
        max (t.history_reg p.2.2 + delta p.1) 0 ∧
      ∀ i, i < numRow →
        (regColPunish numRow numCol delta t).diff (i * numCol + p.2.2) =
          t.diff (i * numCol + p.2.2) +
            max (t.history_reg p.2.2 + delta p.1) 0 *
              t.weight (i * numCol + p.2.2)) ∧
    ((∀ c, 0 ≤ t.history_reg c) →
      ∀ c, 0 ≤ (regColPunish numRow numCol delta t).history_reg c) := by
  obtain ⟨hw, hd⟩ := punish_fold_wdiff numRow numCol delta (regColPunList numCol t)
    t (fun _ => (-1 : ℚ))
  refine ⟨?_, ?_, ?_⟩
  · show ((regColPunList numCol t).foldl (punishStep numRow numCol delta)
      (t, fun _ => (-1 : ℚ))).1.weight = t.weight
    exact hw
  · intro p hp
    obtain ⟨hhr, hmul⟩ := punish_fold_main numRow numCol delta
      (regColPunList numCol t) (regColPunList_snd_nodup numCol t)
      (regColPunList_snd_lt numCol t) t (fun _ => (-1 : ℚ)) p hp
    constructor
    · exact hhr
    · intro i hi
      have hcol : p.2.2 < numCol := regColPunList_snd_lt numCol t p hp
      have hlt : i * numCol + p.2.2 < numRow * numCol := by
        have h1 : i * numCol + p.2.2 < (i + 1) * numCol := by
          rw [Nat.succ_mul]
          omega
        exact Nat.lt_of_lt_of_le h1 (Nat.mul_le_mul_right numCol hi)
      show (if i * numCol + p.2.2 < numRow * numCol then _ else _) = _
      rw [if_pos hlt, hmul i hi, hw, hd]
  · intro ht c
    exact punish_fold_nonneg numRow numCol delta (regColPunList numCol t) t
      (fun _ => (-1 : ℚ)) ht c

/-- C5. For a layer under `Reg_Col` Reg-rank regularization at a
`prune_interval` step: the weight tensor is unchanged; each ranked column's
accumulated regularization becomes `max (old + delta rank) 0` — accumulated
and clamped BELOW at zero only, with no upper clamp at `target_reg` in this
branch and with possibly negative `delta`, so the value is neither bounded
above by the target nor monotonically non-decreasing; nonnegativity is an
invariant; and each weight element of a ranked column receives the weight
decay plus `new_reg * weight` into its gradient (the broadcast plus
apply-reg write). -/
theorem RegCol_reg_accumulation (numRow numCol : ℕ) (localDecay : ℚ)
    (iter pruneInterval : ℕ) (delta : ℕ → ℚ) (s : PruneState)
    (hiter : iter % pruneInterval = 0)
    (hreg0 : ∀ c, 0 ≤ s.history_reg c) :
    (RegColRank numRow numCol localDecay iter pruneInterval delta s).weight =
      s.weight ∧
    (∀ p ∈ regColPunList numCol (regColPre numRow numCol localDecay iter s),
      (RegColRank numRow numCol localDecay iter pruneInterval delta
          s).history_reg p.2.2 =
        max (s.history_reg p.2.2 + delta p.1) 0) ∧
    (∀ c, 0 ≤ (RegColRank numRow numCol localDecay iter pruneInterval delta
      s).history_reg c) ∧
    (∀ p ∈ regColPunList numCol (regColPre numRow numCol localDecay iter s),
      ∀ i, i < numRow →
        (RegColRank numRow numCol localDecay iter pruneInterval delta s).diff
            (i * numCol + p.2.2) =
          s.diff (i * numCol + p.2.2) +
            localDecay * s.weight (i * numCol + p.2.2) +
            max (s.history_reg p.2.2 + delta p.1) 0 *
              s.weight (i * numCol + p.2.2)) := by
  obtain ⟨htw, hthr, htnpc, htdiff⟩ := regColPre_inv numRow numCol localDecay iter s
  have hR : RegColRank numRow numCol localDecay iter pruneInterval delta s =
      regColPunish numRow numCol delta (regColPre numRow numCol localDecay iter s) := by
    show (if iter % pruneInterval ≠ 0 then _ else _) = _
    rw [if_neg (not_not_intro hiter)]
  obtain ⟨hpw, hpmain, hpnn⟩ := regColPunish_char numRow numCol delta
    (regColPre numRow numCol localDecay iter s)
  refine ⟨?_, ?_, ?_, ?_⟩
  · rw [hR, hpw, htw]
  · intro p hp
    rw [hR, (hpmain p hp).1, hthr]
  · intro c
    rw [hR]
    refine hpnn ?_ c
    rw [hthr]
    exact hreg0
  · intro p hp i hi
    rw [hR, (hpmain p hp).2 i hi, hthr, htw, htdiff]

/-- Concrete 1x2 state for the C5 witness: weights `0, 1`, clean counters. -/
def stC5w : PruneState :=
  { PruneState.base with weight := fun e => (e : ℚ) }

/-- Witness for C5 at a concrete input: 1x2 tensor, `iter = 0`,
`prune_interval = 1`, constant curve `delta = 1`; column 0 (rank 0)
accumulates to `max (0 + 1) 0 = 1` and every entry stays nonnegative. -/
theorem RegCol_reg_accumulation_witness :
    (0 % 1 = 0) ∧ (∀ c, 0 ≤ stC5w.history_reg c) ∧
    (RegColRank 1 2 0 0 1 (fun _ => (1 : ℚ)) stC5w).history_reg 0 =
      max (stC5w.history_reg 0 + 1) 0 ∧
    0 ≤ (RegColRank 1 2 0 0 1 (fun _ => (1 : ℚ)) stC5w).history_reg 5 :=
  ⟨rfl, fun c => le_of_eq (by with_unfolding_all rfl),
   (RegCol_reg_accumulation 1 2 0 0 1 (fun _ => (1 : ℚ)) stC5w rfl
     (fun c => le_of_eq (by with_unfolding_all rfl))).2.1
     (0, (0, 0)) (by with_unfolding_all decide),
   (RegCol_reg_accumulation 1 2 0 0 1 (fun _ => (1 : ℚ)) stC5w rfl
     (fun c => le_of_eq (by with_unfolding_all rfl))).2.2.1 5⟩

/-- Concrete 1x6 state for the C5 counterexample: weights `0..5` (so the rank
of column `j` is `j`), column 4 already carries reg `3/10`, column 2 already
sits at the target `target_reg = 1`. -/
def stC5c : PruneState :=
  { PruneState.base with
    weight := fun e => (e : ℚ)
    history_reg := fun c => if c = 4 then 3 / 10 else if c = 2 then 1 else 0 }

/-- Counterexample to the literal C5 claim, with the exact scheme-1 curve at
`kk = 1/4, AA = 1, num_col_to_prune_ = 2` (`deltaC5`): column 4 receives
`delta 4 = -1/2` and its accumulated reg DROPS from `3/10` to `0`
(monotonic non-decrease violated — the code even logs "reduce reg"), and
column 2, already at the target `1`, receives `delta 2 = 1/4` and rises to
`5/4 > 1` (no upper clamp at `target_reg` exists in this branch,
sgd_solver.cpp:645). -/
theorem RegCol_monotonicity_counterexample :
    stC5c.history_reg 4 = 3 / 10 ∧
    (RegColRank 1 6 0 0 1 deltaC5 stC5c).history_reg 4 = 0 ∧
    stC5c.history_reg 2 = 1 ∧
    (RegColRank 1 6 0 0 1 deltaC5 stC5c).history_reg 2 = 5 / 4 :=
  ⟨by with_unfolding_all rfl, by with_unfolding_all rfl,
   by with_unfolding_all rfl, by with_unfolding_all rfl⟩

/-! ### PruneSetUp (claim C10)

`ConvolutionLayer::PruneSetUp` (conv_layer.cpp:13-81) and
`InnerProductLayer::PruneSetUp` (inner_product_layer.cpp:9-74). The shared
`APP` pruning state is a bundle of per-layer vectors plus the name-to-index
map and the layer counters; `push_back` is list append. -/

/-- Caffe phase. -/
inductive Phase
  | TRAIN
  | TEST
deriving DecidableEq

/-- The shared `APP` pruning state touched by `PruneSetUp`: the name-to-index
map (`std::map` modelled as an association list), the three layer counters,
and the per-layer vectors. -/
structure APPState where
  layer_index : List (String × ℕ)
  layer_cnt : ℕ
  conv_layer_cnt : ℕ
  fc_layer_cnt : ℕ
  prune_ratio : List ℚ
  IF_update_row_col_layer : List Bool
  pruned_ratio : List ℚ
  pruned_ratio_col : List ℚ
  pruned_ratio_row : List ℚ
  GFLOPs : List ℚ
  num_param : List ℕ
  masks : List (List Bool)
  num_pruned_weight : List ℕ
  num_pruned_col : List ℚ
  num_pruned_row : List ℕ
  IF_weight_pruned : List (List Bool)
  IF_row_pruned : List (List Bool)
  IF_col_pruned : List (List (List Bool))
  history_prob : List (List ℚ)
  history_score : List (List ℚ)
  history_reg : List (List ℚ)
  history_rank : List (List ℚ)
  hhistory_rank : List (List ℚ)
  filter_area : List ℕ
  group : List ℕ
  priority : List ℕ
  iter_prune_finished : List ℚ

/-- The all-empty shared state. -/
def APPState.empty : APPState where
  layer_index := []
  layer_cnt := 0
  conv_layer_cnt := 0
  fc_layer_cnt := 0
  prune_ratio := []
  IF_update_row_col_layer := []
  pruned_ratio := []
  pruned_ratio_col := []
  pruned_ratio_row := []
  GFLOPs := []
  num_param := []
  masks := []
  num_pruned_weight := []
  num_pruned_col := []
  num_pruned_row := []
  IF_weight_pruned := []
  IF_row_pruned := []
  IF_col_pruned := []
  history_prob := []
  history_score := []
  history_reg := []
  history_rank := []
  hhistory_rank := []
  filter_area := []
  group := []
  priority := []
  iter_prune_finished := []

/-- The structural-unit vector length `num_` (conv_layer.cpp:63-69): `count`
for Weight, `num_row` for Row, else `num_col`. -/
def pruneSetUpNum (pruneUnit : PruneUnit) (numRow numCol : ℕ) : ℕ :=
  if pruneUnit = PruneUnit.Weight then numRow * numCol
  else if pruneUnit = PruneUnit.Row then numRow
  else numCol

/-- Embedding of `ConvolutionLayer::PruneSetUp`. Outside TRAIN the function
returns before touching the shared state. In TRAIN, only the name-to-index
assignment and the two counter increments sit behind the already-registered
check; every `push_back` below runs unconditionally. Note the double `GFLOPs`
push (conv_layer.cpp:46-48): both `count` and the shape product, which equals
`count`. -/
def ConvPruneSetUp (phase : Phase) (pruneUnit : PruneUnit) (name : String)
    (numRow numCol filterArea groupParam : ℕ) (pruneRatioParam : ℚ)
    (ifUpd : Bool) (priorityParam : ℕ) (g : APPState) : APPState :=
  if phase = Phase.TRAIN then
    let g1 :=
      if g.layer_index.lookup name = none then
        { g with
          layer_index := g.layer_index ++ [(name, g.layer_cnt)]
          conv_layer_cnt := g.conv_layer_cnt + 1
          layer_cnt := g.layer_cnt + 1 }
      else g
    let count := numRow * numCol
    let num2 := pruneSetUpNum pruneUnit numRow numCol
    { g1 with
      prune_ratio := g1.prune_ratio ++ [pruneRatioParam]
      IF_update_row_col_layer := g1.IF_update_row_col_layer ++ [ifUpd]
      pruned_ratio := g1.pruned_ratio ++ [0]
      pruned_ratio_col := g1.pruned_ratio_col ++ [0]
      pruned_ratio_row := g1.pruned_ratio_row ++ [0]
      GFLOPs := g1.GFLOPs ++ [(count : ℚ), (count : ℚ)]
      num_param := g1.num_param ++ [count]
      masks := g1.masks ++ [List.replicate count true]
      num_pruned_weight := g1.num_pruned_weight ++ [0]
      num_pruned_col := g1.num_pruned_col ++ [0]
      num_pruned_row := g1.num_pruned_row ++ [0]
      IF_weight_pruned := g1.IF_weight_pruned ++ [List.replicate count false]
      IF_row_pruned := g1.IF_row_pruned ++ [List.replicate numRow false]
      IF_col_pruned := g1.IF_col_pruned ++
        [List.replicate numCol (List.replicate groupParam false)]
      history_prob := g1.history_prob ++ [List.replicate num2 1]
      history_score := g1.history_score ++ [List.replicate num2 0]
      history_reg := g1.history_reg ++ [List.replicate num2 0]
      history_rank := g1.history_rank ++ [List.replicate num2 0]
      hhistory_rank := g1.hhistory_rank ++ [List.replicate num2 0]
      filter_area := g1.filter_area ++ [filterArea]
      group := g1.group ++ [groupParam]
      priority := g1.priority ++ [priorityParam]
      iter_prune_finished := g1.iter_prune_finished ++ [INT_MAX] }
  else g

/-- Embedding of `InnerProductLayer::PruneSetUp`: same structure with
`fc_layer_cnt` incremented instead, a single `GFLOPs` push, no `filter_area`
push, and `group` fixed to 1. -/
def IpPruneSetUp (phase : Phase) (pruneUnit : PruneUnit) (name : String)
    (numRow numCol : ℕ) (pruneRatioParam : ℚ) (ifUpd : Bool)
    (priorityParam : ℕ) (g : APPState) : APPState :=
  if phase = Phase.TRAIN then
    let g1 :=
      if g.layer_index.lookup name = none then
        { g with
          layer_index := g.layer_index ++ [(name, g.layer_cnt)]
          fc_layer_cnt := g.fc_layer_cnt + 1
          layer_cnt := g.layer_cnt + 1 }
      else g
    let count := numRow * numCol
    let num2 := pruneSetUpNum pruneUnit numRow numCol
    { g1 with
      prune_ratio := g1.prune_ratio ++ [pruneRatioParam]
      IF_update_row_col_layer := g1.IF_update_row_col_layer ++ [ifUpd]
      pruned_ratio := g1.pruned_ratio ++ [0]
      pruned_ratio_col := g1.pruned_ratio_col ++ [0]
      pruned_ratio_row := g1.pruned_ratio_row ++ [0]
      num_param := g1.num_param ++ [count]
      GFLOPs := g1.GFLOPs ++ [(count : ℚ)]
      masks := g1.masks ++ [List.replicate count true]
      num_pruned_weight := g1.num_pruned_weight ++ [0]
      num_pruned_col := g1.num_pruned_col ++ [0]
      num_pruned_row := g1.num_pruned_row ++ [0]
      IF_weight_pruned := g1.IF_weight_pruned ++ [List.replicate count false]
      IF_row_pruned := g1.IF_row_pruned ++ [List.replicate numRow false]
      IF_col_pruned := g1.IF_col_pruned ++
        [List.replicate numCol (List.replicate 1 false)]
      history_prob := g1.history_prob ++ [List.replicate num2 1]
      history_score := g1.history_score ++ [List.replicate num2 0]
      history_reg := g1.history_reg ++ [List.replicate num2 0]
      history_rank := g1.history_rank ++ [List.replicate num2 0]
      hhistory_rank := g1.hhistory_rank ++ [List.replicate num2 0]
      group := g1.group ++ [1]
      priority := g1.priority ++ [priorityParam]
      iter_prune_finished := g1.iter_prune_finished ++ [INT_MAX] }
  else g

/-- C10. A `PruneSetUp` call outside TRAIN leaves the shared state unchanged.
In TRAIN, every call appends one fresh entry to each per-layer vector (masks
all true, history_reg all 0, iter_prune_finished INT_MAX, the conv double
GFLOPs push, ...) UNCONDITIONALLY — even when the layer name is already in
`layer_index` — while only the name-to-index assignment and the layer-count
increments are guarded by the already-registered check. -/
theorem PruneSetUp_registration (phase : Phase) (pruneUnit : PruneUnit)
    (name : String) (numRow numCol filterArea groupParam : ℕ)
    (pruneRatioParam : ℚ) (ifUpd : Bool) (priorityParam : ℕ) (g : APPState) :
    (phase ≠ Phase.TRAIN →
      ConvPruneSetUp phase pruneUnit name numRow numCol filterArea groupParam
        pruneRatioParam ifUpd priorityParam g = g ∧
      IpPruneSetUp phase pruneUnit name numRow numCol pruneRatioParam ifUpd
        priorityParam g = g) ∧
    (ConvPruneSetUp Phase.TRAIN pruneUnit name numRow numCol filterArea
        groupParam pruneRatioParam ifUpd priorityParam g).masks =
      g.masks ++ [List.replicate (numRow * numCol) true] ∧
    (ConvPruneSetUp Phase.TRAIN pruneUnit name numRow numCol filterArea
        groupParam pruneRatioParam ifUpd priorityParam g).history_reg =
      g.history_reg ++
        [List.replicate (pruneSetUpNum pruneUnit numRow numCol) 0] ∧
    (ConvPruneSetUp Phase.TRAIN pruneUnit name numRow numCol filterArea
        groupParam pruneRatioParam ifUpd priorityParam g).GFLOPs =
      g.GFLOPs ++ [((numRow * numCol : ℕ) : ℚ), ((numRow * numCol : ℕ) : ℚ)] ∧
    (ConvPruneSetUp Phase.TRAIN pruneUnit name numRow numCol filterArea
        groupParam pruneRatioParam ifUpd priorityParam g).iter_prune_finished =
      g.iter_prune_finished ++ [INT_MAX] ∧
    (IpPruneSetUp Phase.TRAIN pruneUnit name numRow numCol pruneRatioParam
        ifUpd priorityParam g).masks =
      g.masks ++ [List.replicate (numRow * numCol) true] ∧
    (IpPruneSetUp Phase.TRAIN pruneUnit name numRow numCol pruneRatioParam
        ifUpd priorityParam g).GFLOPs =
      g.GFLOPs ++ [((numRow * numCol : ℕ) : ℚ)] ∧
    (g.layer_index.lookup name ≠ none →
      (ConvPruneSetUp Phase.TRAIN pruneUnit name numRow numCol filterArea
        groupParam pruneRatioParam ifUpd priorityParam g).layer_index =
          g.layer_index ∧
      (ConvPruneSetUp Phase.TRAIN pruneUnit name numRow numCol filterArea
        groupParam pruneRatioParam ifUpd priorityParam g).layer_cnt =
          g.layer_cnt ∧
      (ConvPruneSetUp Phase.TRAIN pruneUnit name numRow numCol filterArea
        groupParam pruneRatioParam ifUpd priorityParam g).conv_layer_cnt =
          g.conv_layer_cnt ∧
      (IpPruneSetUp Phase.TRAIN pruneUnit name numRow numCol pruneRatioParam
        ifUpd priorityParam g).layer_index = g.layer_index ∧
      (IpPruneSetUp Phase.TRAIN pruneUnit name numRow numCol pruneRatioParam
        ifUpd priorityParam g).fc_layer_cnt = g.fc_layer_cnt) ∧
    (g.layer_index.lookup name = none →
      (ConvPruneSetUp Phase.TRAIN pruneUnit name numRow numCol filterArea
        groupParam pruneRatioParam ifUpd priorityParam g).layer_index =
          g.layer_index ++ [(name, g.layer_cnt)] ∧
      (ConvPruneSetUp Phase.TRAIN pruneUnit name numRow numCol filterArea
        groupParam pruneRatioParam ifUpd priorityParam g).layer_cnt =
          g.layer_cnt + 1 ∧
      (ConvPruneSetUp Phase.TRAIN pruneUnit name numRow numCol filterArea
        groupParam pruneRatioParam ifUpd priorityParam g).conv_layer_cnt =
          g.conv_layer_cnt + 1 ∧
      (IpPruneSetUp Phase.TRAIN pruneUnit name numRow numCol pruneRatioParam
        ifUpd priorityParam g).layer_index =
          g.layer_index ++ [(name, g.layer_cnt)] ∧
      (IpPruneSetUp Phase.TRAIN pruneUnit name numRow numCol pruneRatioParam
        ifUpd priorityParam g).fc_layer_cnt = g.fc_layer_cnt + 1) := by
  refine ⟨?_, ?_, ?_, ?_, ?_, ?_, ?_, ?_, ?_⟩
  · intro h
    constructor
    · rw [ConvPruneSetUp, if_neg h]
    · rw [IpPruneSetUp, if_neg h]
  all_goals
    by_cases hn : g.layer_index.lookup name = none <;>
      simp [ConvPruneSetUp, IpPruneSetUp, hn]

/-- Witness for C10 at a concrete input: a TEST-phase call on the empty state
is the identity, and a TRAIN-phase call on the empty state (name not yet
registered) bumps the layer count. -/
theorem PruneSetUp_registration_witness :
    (Phase.TEST ≠ Phase.TRAIN) ∧
    (APPState.empty.layer_index.lookup "conv1" = none) ∧
    IpPruneSetUp Phase.TEST PruneUnit.Col "conv1" 2 3 (1 / 2) false 0
      APPState.empty = APPState.empty ∧
    (ConvPruneSetUp Phase.TRAIN PruneUnit.Col "conv1" 2 3 4 1 (1 / 2) false 0
      APPState.empty).layer_cnt = APPState.empty.layer_cnt + 1 :=
  ⟨by decide, rfl,
   ((PruneSetUp_registration Phase.TEST PruneUnit.Col "conv1" 2 3 4 1 (1 / 2)
     false 0 APPState.empty).1 (by decide)).2,
   ((PruneSetUp_registration Phase.TRAIN PruneUnit.Col "conv1" 2 3 4 1 (1 / 2)
     false 0 APPState.empty).2.2.2.2.2.2.2.2 rfl).2.1⟩

end CaffeAPP
